import Mathlib

/-!
# The handle pool and blocking executor of `network/http.cc`

A shallow embedding of `HTTPConnection::CurlFreelist` (`NewCurl`, `Release`,
`ResizeFreelist`, `ScopedCurl`), of the two transfer callbacks, of
`HTTPConnection::BlockingRequest` and of the header map of `http.h`.

The transport engine (libcurl) is external to the repository.  It is modelled
as explicit state: every handle carries the list of options set on it since it
was created or last reset, and every call into the engine (and every use of the
pool mutex and of the idle vector) is appended to a chronological event trace.
What the engine decides on its own (the pointer `curl_easy_init` returns, the
callback invocations during `curl_easy_perform`, its result and the status
code) is a parameter of the operation that calls it.

Callers that run concurrently are modelled by a second, statement-level
rendering of `NewCurl` and `Release` (`step_caller`), whose states are reached
by interleaving the statements of any number of callers.
-/

namespace network

/-! ## Machine integers and strings -/

/-- A `std::string`, as the sequence of its characters. -/
abbrev string := List Char

/-- The C string `s.c_str()` as the engine reads and copies it: the characters before the
first NUL. -/
def c_str (s : string) : string := s.takeWhile fun c => c != Char.ofNat 0

/-- Conversion of an `int` operand to `size_t` in a mixed comparison
(`free_curls_.size() < max_size_`): the value modulo `2^64`. -/
def size_t_of_int (i : Int) : Nat := (i % (2 ^ 64 : Int)).toNat

/-- Multiplication of two `size_t` values. -/
def size_t_mul (a b : Nat) : Nat := (a * b) % 2 ^ 64

/-- Subtraction of two `size_t` values. -/
def size_t_sub (a b : Nat) : Nat := (((a : Int) - (b : Int)) % (2 ^ 64 : Int)).toNat

/-- Addition of two `size_t` values. -/
def size_t_add (a b : Nat) : Nat := (a + b) % 2 ^ 64

/-- Narrowing of a `long` to an `int` (`set_response_code(response_code)`). -/
def int_of_long (x : Int) : Int := (x + 2 ^ 31) % (2 ^ 32 : Int) - 2 ^ 31

/-! ## The engine boundary -/

/-- A `CURL*`: the address of an engine handle, `0` being the null pointer. -/
abbrev CURL := Nat

/-- The null pointer. -/
def NULL : CURL := 0

/-- A `CURLcode`; `CURLE_OK` is `0`. -/
abbrev CURLcode := Nat

/-- The success code of the engine. -/
def CURLE_OK : CURLcode := 0

/-- The options `BlockingRequest` sets with `curl_easy_setopt`, with their arguments
(callbacks and user pointers are determined by the option itself).  The engine copies the
URL, the verb and the header lines as C strings; `POSTFIELDS` is the pointer to the content,
of which the engine reads `POSTFIELDSIZE` bytes. -/
inductive CURLoption where
  | URL (path : string)
  | WRITEFUNCTION
  | WRITEDATA
  | POST (flag : Nat)
  | POSTFIELDS (content : string)
  | POSTFIELDSIZE (size : Nat)
  | UPLOAD (flag : Nat)
  | PUT (flag : Nat)
  | INFILESIZE (size : Nat)
  | READFUNCTION
  | READDATA
  | CUSTOMREQUEST (verb : string)
  | HTTPHEADER (headers : List string)
  deriving DecidableEq, Repr

/-- One observable step: a mutex operation on `lock_`, a mutation of `free_curls_`,
a call into the engine, or a call/return marker of a pool operation. -/
inductive Event where
  | lock
  | unlock
  | pop (curl : CURL)
  | push (curl : CURL)
  | easy_init (result : CURL)
  | easy_reset (curl : CURL)
  | easy_cleanup (curl : CURL)
  | easy_setopt (curl : CURL) (opt : CURLoption)
  | easy_perform (curl : CURL) (opts : List CURLoption) (uploaded : string) (result : CURLcode)
  | easy_getinfo (curl : CURL)
  | NewCurl_returns (curl : CURL)
  | Release_called (curl : CURL)
  deriving DecidableEq, Repr

/-- The pool object: `max_size_` and `free_curls_` (a vector, its back being the last
element of the list).  The mutex `lock_` shows in the trace only. -/
structure CurlFreelist where
  max_size_ : Int
  free_curls_ : List CURL

/-- The pool together with the engine state and the trace of what happened so far. -/
structure World where
  freelist : CurlFreelist
  options : CURL → List CURLoption
  trace : List Event

/-- Appends one event to the trace. -/
def World.log (w : World) (e : Event) : World :=
  { w with trace := w.trace ++ [e] }

/-- Replaces the idle vector. -/
def World.set_free (w : World) (l : List CURL) : World :=
  { w with freelist := { w.freelist with free_curls_ := l } }

/-- Replaces the option list of one handle. -/
def World.set_options (w : World) (curl : CURL) (opts : List CURLoption) : World :=
  { w with options := fun c => if c = curl then opts else w.options c }

/-- The engine call `curl_easy_init()`, returning `result`: a new handle has no option set. -/
def curl_easy_init (result : CURL) (w : World) : CURL × World :=
  let w := w.log (.easy_init result)
  (result, if result ≠ NULL then w.set_options result [] else w)

/-- The engine call `curl_easy_reset(curl)`: all options go back to their defaults. -/
def curl_easy_reset (curl : CURL) (w : World) : World :=
  (w.log (.easy_reset curl)).set_options curl []

/-- The engine call `curl_easy_cleanup(curl)`. -/
def curl_easy_cleanup (curl : CURL) (w : World) : World :=
  w.log (.easy_cleanup curl)

/-- The engine call `curl_easy_setopt(curl, opt, ...)`. -/
def curl_easy_setopt (curl : CURL) (opt : CURLoption) (w : World) : World :=
  (w.log (.easy_setopt curl opt)).set_options curl (w.options curl ++ [opt])

/-! ## `CurlFreelist` -/

/-- The constructor `CurlFreelist(int max_size)`, in a world where nothing has happened. -/
def CurlFreelist.new (max_size : Int) : World :=
  { freelist := { max_size_ := max_size, free_curls_ := [] },
    options := fun _ => [],
    trace := [] }

/-- The loop of `ResizeFreelist`, entered with the lock held; `fuel` bounds the number
of iterations. -/
def ResizeFreelist_loop (size : Int) : Nat → World → World
  | 0, w => w
  | fuel + 1, w =>
    if w.freelist.free_curls_.length > size_t_of_int size then
      let curl := w.freelist.free_curls_.getLastD NULL
      let w := (w.set_free w.freelist.free_curls_.dropLast).log (.pop curl)
      let w := w.log .unlock
      let w := curl_easy_cleanup curl w
      let w := w.log .lock
      ResizeFreelist_loop size fuel w
    else w

/-- The method `CurlFreelist::ResizeFreelist(int size)`.  Every iteration removes one element,
so the length of the vector is enough fuel. -/
def ResizeFreelist (size : Int) (w : World) : World :=
  let w := w.log .lock
  let w := ResizeFreelist_loop size w.freelist.free_curls_.length w
  w.log .unlock

/-- The method `CurlFreelist::NewCurl()`; `init` is what `curl_easy_init()` returns if called. -/
def NewCurl (init : CURL) (w : World) : CURL × World :=
  let w := w.log .lock
  if w.freelist.free_curls_ ≠ [] then
    let curl := w.freelist.free_curls_.getLastD NULL
    let w := (w.set_free w.freelist.free_curls_.dropLast).log (.pop curl)
    let w := w.log .unlock
    (curl, w.log (.NewCurl_returns curl))
  else
    let w := w.log .unlock
    let (curl, w) := curl_easy_init init w
    (curl, w.log (.NewCurl_returns curl))

/-- The method `CurlFreelist::Release(CURL* curl)`. -/
def Release (curl : CURL) (w : World) : World :=
  let w := w.log (.Release_called curl)
  let (curl, w) :=
    if curl ≠ NULL then
      let w := curl_easy_reset curl w
      let w := w.log .lock
      let (curl, w) :=
        if w.freelist.free_curls_.length < size_t_of_int w.freelist.max_size_ then
          (NULL, (w.set_free (w.freelist.free_curls_ ++ [curl])).log (.push curl))
        else (curl, w)
      (curl, w.log .unlock)
    else (curl, w)
  if curl ≠ NULL then curl_easy_cleanup curl w else w

/-- The destructor `~CurlFreelist()`. -/
def CurlFreelist.destroy (w : World) : World := ResizeFreelist 0 w

/-! ## The transfer callbacks -/

/-- The upload cursor `PutData`: the request body and the offset of the next byte to send. -/
structure PutData where
  data : string
  offset : Nat

/-- The constructor `PutData(const string& d)`. -/
def PutData.new (d : string) : PutData := { data := d, offset := 0 }

/-- The read callback `curl_is_stupid_put_callback(data, size, nmemb, userp)`: the bytes
copied into `data`, the returned count, and the cursor afterwards. -/
def curl_is_stupid_put_callback (size nmemb : Nat) (d : PutData) : string × Nat × PutData :=
  let requested := size_t_mul size nmemb
  let remaining := size_t_sub d.data.length d.offset
  let actual := min requested remaining
  let copied := (d.data.drop d.offset).take actual
  (copied, actual, { d with offset := size_t_add d.offset actual })

/-- One delivery to the write callback: the buffer `contents` and the two size arguments. -/
structure Chunk where
  contents : string
  size : Nat
  nmemb : Nat

/-- The write callback `curl_is_still_stupid_response_callback(contents, size, nmemb, userp)`:
the returned count and the output string afterwards. -/
def curl_is_still_stupid_response_callback (c : Chunk) (out : string) : Nat × string :=
  let bytesize := size_t_mul c.size c.nmemb
  (bytesize, out ++ c.contents.take bytesize)

/-- The read callback invoked once per `(size, nmemb)` pair, in order: the pieces produced,
the counts returned, and the final cursor. -/
def put_calls : List (Nat × Nat) → PutData → List string × List Nat × PutData
  | [], d => ([], [], d)
  | (size, nmemb) :: rest, d =>
    let (copied, actual, d) := curl_is_stupid_put_callback size nmemb d
    let (pieces, counts, d) := put_calls rest d
    (copied :: pieces, actual :: counts, d)

/-- The write callback invoked once per chunk, in order: the counts returned and the
final output string. -/
def response_calls : List Chunk → string → List Nat × string
  | [], out => ([], out)
  | c :: rest, out =>
    let (n, out) := curl_is_still_stupid_response_callback c out
    let (counts, out) := response_calls rest out
    (n :: counts, out)

/-! ## Requests and responses (`http.h`) -/

/-- The class `URL`. -/
structure URL where
  path_ : string
  deriving DecidableEq

/-- The class `HTTPHeaders`: the entries of the `std::map`, in key order. -/
structure HTTPHeaders where
  headers_ : List (string × string)
  deriving DecidableEq

/-- The enumerator `HTTPRequest::GET`. -/
def GET : Nat := 0

/-- The enumerator `HTTPRequest::POST`. -/
def POST : Nat := 1

/-- The enumerator `HTTPRequest::PUT`. -/
def PUT : Nat := 2

/-- The enumerator `HTTPRequest::DELETE`. -/
def DELETE : Nat := 3

/-- The class `HTTPRequest`; `type_` holds the value of the enumeration. -/
structure HTTPRequest where
  type_ : Nat
  url_ : URL
  headers_ : HTTPHeaders
  content_ : string

/-- The class `HTTPResponse`. -/
structure HTTPResponse where
  content_ : string
  response_code_ : Int
  headers_ : HTTPHeaders
  deriving DecidableEq

/-- The constructor `HTTPResponse::HTTPResponse()`. -/
def HTTPResponse.new : HTTPResponse :=
  { content_ := [], response_code_ := -1, headers_ := { headers_ := [] } }

/-- The mutator `set_response_code(int code)`. -/
def HTTPResponse.set_response_code (r : HTTPResponse) (code : Int) : HTTPResponse :=
  { r with response_code_ := code }

/-! ## `BlockingRequest` -/

/-- What the engine does on its own during one `BlockingRequest`: the pointer
`curl_easy_init` returns if called, the read-callback and write-callback invocations
made by `curl_easy_perform`, its result, and the status code `curl_easy_getinfo` reports. -/
structure Exchange where
  init : CURL
  reads : List (Nat × Nat)
  chunks : List Chunk
  result : CURLcode
  response_code : Int

/-- How a call ends: it returns a value, or `LOG(FATAL)` aborts the process (the logging
macro comes from `common/log/log.h`; a fatal log ends the process, so the statements after it
and the destructors of the locals do not run). -/
inductive Outcome (α : Type) where
  | returned (value : α)
  | fatal
  deriving DecidableEq

/-- Modelled from the spec: the macro `LOG(FATAL)` of `common/log/log.h`, which is not among
the sources.  The spec calls the invalid method a fatal error that aborts the operation, so a
fatal log ends the process: the `return NULL` written after it and the destructors of the
locals do not run. -/
def LOG_FATAL (w : World) : Outcome (Option HTTPResponse) × World := (.fatal, w)

/-- The engine call `curl_easy_perform(curl)`: the read callback runs if one is registered,
the write callback runs if one is registered; returns the engine's result, the upload
cursor and the output string. -/
def curl_easy_perform (curl : CURL) (x : Exchange) (put_data : PutData) (output : string)
    (w : World) : CURLcode × PutData × string × World :=
  let opts := w.options curl
  let (pieces, _, put_data) :=
    if CURLoption.READFUNCTION ∈ opts then put_calls x.reads put_data else ([], [], put_data)
  let (_, output) :=
    if CURLoption.WRITEFUNCTION ∈ opts then response_calls x.chunks output else ([], output)
  (x.result, put_data, output, w.log (.easy_perform curl opts pieces.flatten x.result))

/-- The engine call `curl_easy_getinfo(curl, CURLINFO_RESPONSE_CODE, &response_code)`. -/
def curl_easy_getinfo (curl : CURL) (x : Exchange) (w : World) : Int × World :=
  (x.response_code, w.log (.easy_getinfo curl))

/-- The call `curl_slist_append(list, s)`. -/
def curl_slist_append (list : List string) (s : string) : List string := list ++ [s]

/-- The `switch (request.request_type())` of `BlockingRequest`: the options of the method,
or `none` in the default branch. -/
def configure_method (curl : CURL) (request : HTTPRequest) (w : World) : Option World :=
  if request.type_ = GET then some w
  else if request.type_ = POST then
    let w := curl_easy_setopt curl (.POST 1) w
    let w := curl_easy_setopt curl (.POSTFIELDS request.content_) w
    some (curl_easy_setopt curl (.POSTFIELDSIZE request.content_.length) w)
  else if request.type_ = PUT then
    let w := curl_easy_setopt curl (.UPLOAD 1) w
    let w := curl_easy_setopt curl (.PUT 1) w
    let w := curl_easy_setopt curl (.INFILESIZE request.content_.length) w
    let w := curl_easy_setopt curl .READFUNCTION w
    some (curl_easy_setopt curl .READDATA w)
  else if request.type_ = DELETE then
    some (curl_easy_setopt curl (.CUSTOMREQUEST "DELETE".toList) w)
  else none

/-- The header loop of `BlockingRequest`: one line per map entry, the C string of
`name + ": " + value`. -/
def header_lines (headers : HTTPHeaders) : List string :=
  headers.headers_.foldl
    (fun list it => curl_slist_append list (c_str (it.1 ++ ": ".toList ++ it.2))) []

/-- The method `HTTPConnection::BlockingRequest(request)`.  The `ScopedCurl` destructor runs
`Release` on every return; a fatal log aborts without running it. -/
def BlockingRequest (request : HTTPRequest) (x : Exchange) (w : World) :
    Outcome (Option HTTPResponse) × World :=
  let put_data := PutData.new request.content_
  let output : string := []
  let (curl, w) := NewCurl x.init w
  if curl = NULL then
    (.returned none, Release curl w)
  else
    let w := curl_easy_setopt curl (.URL (c_str request.url_.path_)) w
    let w := curl_easy_setopt curl .WRITEFUNCTION w
    let w := curl_easy_setopt curl .WRITEDATA w
    match configure_method curl request w with
    | none => LOG_FATAL w
    | some w =>
      let headers := header_lines request.headers_
      let w := if headers ≠ [] then curl_easy_setopt curl (.HTTPHEADER headers) w else w
      let (curl_result, _, output, w) := curl_easy_perform curl x put_data output w
      if curl_result ≠ CURLE_OK then
        (.returned none, Release curl w)
      else
        let response := HTTPResponse.new
        let response := { response with content_ := output }
        let (response_code, w) := curl_easy_getinfo curl x w
        let response := response.set_response_code (int_of_long response_code)
        (.returned (some response), Release curl w)

/-- The constant `kMaxFreelistSize`. -/
def kMaxFreelistSize : Int := 10

/-- The constructor `HTTPConnection::HTTPConnection(options)`: builds the pool, then acquires
and releases one handle. -/
def HTTPConnection.new (init : CURL) : World :=
  let w := CurlFreelist.new kMaxFreelistSize
  let (curl, w) := NewCurl init w
  Release curl w

/-- The destructor `HTTPConnection::~HTTPConnection()`: destroys the pool it owns. -/
def HTTPConnection.destroy (w : World) : World := CurlFreelist.destroy w

/-! ## Callers of the pool -/

/-- One step of a caller: `NewCurl()` (with what the engine returns if asked for a handle),
`Release(curl)`, `ResizeFreelist(size)`, or one `curl_easy_setopt` on a handle. -/
inductive Op where
  | acquire (init : CURL)
  | release (curl : CURL)
  | resize (size : Int)
  | setopt (curl : CURL) (opt : CURLoption)
  deriving DecidableEq

/-- The world together with the handles that callers hold: those returned by `NewCurl`
and not yet passed to `Release`. -/
structure Client where
  world : World
  held : List CURL

/-- The effect of one step. -/
def Client.step (c : Client) : Op → Client
  | .acquire init =>
    let (curl, w) := NewCurl init c.world
    { world := w, held := if curl ≠ NULL then curl :: c.held else c.held }
  | .release curl => { world := Release curl c.world, held := c.held.erase curl }
  | .resize size => { world := ResizeFreelist size c.world, held := c.held }
  | .setopt curl opt => { world := curl_easy_setopt curl opt c.world, held := c.held }

/-- The state after a sequence of steps. -/
def Client.run (c : Client) : List Op → Client
  | [] => c
  | o :: os => (c.step o).run os

/-- The start state followed by the state after each step, in order. -/
def Client.history (c : Client) : List Op → List Client
  | [] => [c]
  | o :: os => c :: (c.step o).history os

/-- A freshly constructed pool of capacity `max_size`, no handle held. -/
def Client.start (max_size : Int) : Client :=
  { world := CurlFreelist.new max_size, held := [] }

/-- The handle an event refers to, if any. -/
def Event.handle : Event → Option CURL
  | .lock => none
  | .unlock => none
  | .pop curl => some curl
  | .push curl => some curl
  | .easy_init result => some result
  | .easy_reset curl => some curl
  | .easy_cleanup curl => some curl
  | .easy_setopt curl _ => some curl
  | .easy_perform curl _ _ _ => some curl
  | .easy_getinfo curl => some curl
  | .NewCurl_returns curl => some curl
  | .Release_called curl => some curl

/-- The handles the engine has created: the non-null results of `curl_easy_init`, in order. -/
def created (tr : List Event) : List CURL :=
  tr.filterMap fun e =>
    match e with
    | .easy_init result => if result ≠ NULL then some result else none
    | _ => none

/-- The handles the engine has disposed: the arguments of `curl_easy_cleanup`, in order. -/
def disposed (tr : List Event) : List CURL :=
  tr.filterMap fun e =>
    match e with
    | .easy_cleanup curl => some curl
    | _ => none

/-- A step respects the protocol: the engine answers a creation with null or with a handle it
never returned before, `Release` gets null or a held handle, options are set on held handles. -/
def Op.ok (c : Client) : Op → Bool
  | .acquire init =>
    decide (c.world.freelist.free_curls_ = [] → init = NULL ∨ init ∉ created c.world.trace)
  | .release curl => decide (curl = NULL ∨ curl ∈ c.held)
  | .resize _ => true
  | .setopt curl _ => decide (curl ∈ c.held)

/-- Every step of the sequence respects the protocol in the state it is taken in. -/
def wellFormed (c : Client) : List Op → Bool
  | [] => true
  | o :: os => o.ok c && wellFormed (c.step o) os

/-! ## Vocabulary of the statements -/

/-- The events of draining the handles `hs` in that order: each is popped under the lock and
disposed with the lock released. -/
def drain_events (hs : List CURL) : List Event :=
  hs.flatMap fun h => [.pop h, .unlock, .easy_cleanup h, .lock]

/-- No event refers to a handle after the engine disposed it. -/
def Safe (tr : List Event) : Prop :=
  ∀ a b h, tr = a ++ Event.easy_cleanup h :: b → ∀ e ∈ b, e.handle ≠ some h

/-- The events `evs` refer to no handle of `dead` and to none that an earlier event of
`evs` disposed. -/
def SafeFrom : List CURL → List Event → Prop
  | _, [] => True
  | dead, e :: es => (∀ h, e.handle = some h → h ∉ dead) ∧ SafeFrom (dead ++ disposed [e]) es

/-- The event marks a call of `Release`. -/
def Event.isRelease : Event → Bool
  | .Release_called _ => true
  | _ => false

/-- The event is a call by `BlockingRequest` into the engine on its handle: configure,
execute or read the status code. -/
def Event.isRequestUse : Event → Bool
  | .easy_setopt _ _ => true
  | .easy_perform _ _ _ _ => true
  | .easy_getinfo _ => true
  | _ => false

/-- Options are only ever set on handles that are outside the idle vector at that moment; the
other steps are unconstrained. -/
def configOk (c : Client) : List Op → Bool
  | [] => true
  | .setopt curl opt :: os =>
    decide (curl ∉ c.world.freelist.free_curls_) && configOk (c.step (.setopt curl opt)) os
  | o :: os => configOk (c.step o) os

/-- The invariant of a pool used according to the protocol: the engine never returned a
handle twice, every created handle is held, idle or disposed (and only one of these, once),
no event refers to a disposed handle, and every idle handle has no option set. -/
structure Good (c : Client) : Prop where
  nodup : (created c.world.trace).Nodup
  perm : (created c.world.trace).Perm
    (c.held ++ c.world.freelist.free_curls_ ++ disposed c.world.trace)
  safe : Safe c.world.trace
  neutral : ∀ h ∈ c.world.freelist.free_curls_, c.world.options h = []

/-- Between acquiring the handle `h` and releasing it, `BlockingRequest` leaves the pool and the
options of every other handle alone and only configures, executes and queries `h`. -/
def Configured (h : CURL) (w1 w2 : World) : Prop :=
  w2.freelist = w1.freelist ∧
  (∀ c, c ≠ h → w2.options c = w1.options c) ∧
  (∃ opts, w2.options h = w1.options h ++ opts) ∧
  ∃ evs, w2.trace = w1.trace ++ evs ∧
    ∀ e ∈ evs, e.isRequestUse = true ∧ e.isRelease = false ∧ e.handle = some h

/-- Every idle handle is in the engine's neutral configuration: no option is set on it. -/
def PoolNeutral (w : World) : Prop :=
  ∀ h ∈ w.freelist.free_curls_, w.options h = []

/-! ## Inputs of the worked examples -/

/-- The request `GET http://x/items`, with no header and no body. -/
def get_items : HTTPRequest :=
  { type_ := GET,
    url_ := { path_ := "http://x/items".toList },
    headers_ := { headers_ := [] },
    content_ := [] }

/-- An engine that would create handle 8 and whose transfer fails with code 7
(could not connect). -/
def exchange_refused : Exchange :=
  { init := 8, reads := [], chunks := [], result := 7, response_code := 0 }

/-- An engine that would create handle 8 and whose transfer succeeds with status 404 and an
empty body. -/
def exchange_404 : Exchange :=
  { init := 8, reads := [], chunks := [], result := CURLE_OK, response_code := 404 }

/-- An engine that would create handle 8 and whose transfer succeeds with status 200 and the
body `[]`, delivered in one chunk. -/
def exchange_200 : Exchange :=
  { init := 8, reads := [],
    chunks := [{ contents := "[]".toList, size := 1, nmemb := 2 }],
    result := CURLE_OK, response_code := 200 }

/-- An engine whose handle-create fails. -/
def exchange_no_handle : Exchange :=
  { init := NULL, reads := [], chunks := [], result := CURLE_OK, response_code := 200 }

/-- A request whose method value, 7, is none of the four enumerators. -/
def bad_method_items : HTTPRequest :=
  { type_ := 7,
    url_ := { path_ := "http://x/items".toList },
    headers_ := { headers_ := [] },
    content_ := [] }

/-- An engine that would create handle 8 and whose transfer succeeds with status 201 and an
empty body. -/
def exchange_201 : Exchange :=
  { init := 8, reads := [], chunks := [], result := CURLE_OK, response_code := 201 }

/-- A GET of `http://x/items` with the header `X`, whose value holds a NUL character between
`a` and `b`. -/
def nul_header_items : HTTPRequest :=
  { type_ := GET,
    url_ := { path_ := "http://x/items".toList },
    headers_ := { headers_ := [("X".toList, ['a', Char.ofNat 0, 'b'])] },
    content_ := [] }

/-! ## The header map (`HTTPHeaders`) -/

/-- The comparison `std::less<std::string>` that orders the keys of the map: the
lexicographic order on the characters. -/
def string_lt : string → string → Bool
  | [], [] => false
  | [], _ :: _ => true
  | _ :: _, [] => false
  | a :: as, b :: bs => if a < b then true else if b < a then false else string_lt as bs

/-- Two keys are equivalent for the map when neither is ordered before the other. -/
def key_equiv (a b : string) : Bool := !string_lt a b && !string_lt b a

/-- The map operation `headers_[key] = value` on the entries in key order: the value of an
equivalent key is overwritten, otherwise a new entry is inserted at its place in the order. -/
def map_assign (key value : string) : List (string × string) → List (string × string)
  | [] => [(key, value)]
  | (k, v) :: rest =>
    if string_lt key k then (key, value) :: (k, v) :: rest
    else if string_lt k key then (k, v) :: map_assign key value rest
    else (k, value) :: rest

/-- The map operation `headers_.erase(key)`: the entries with an equivalent key are removed. -/
def map_erase (key : string) : List (string × string) → List (string × string)
  | [] => []
  | (k, v) :: rest =>
    if key_equiv key k then map_erase key rest else (k, v) :: map_erase key rest

/-- The map operation `headers_.find(key)`: the entry with an equivalent key, if there is one. -/
def map_find (key : string) : List (string × string) → Option (string × string)
  | [] => none
  | (k, v) :: rest => if key_equiv key k then some (k, v) else map_find key rest

/-- The constructor `HTTPHeaders()`. -/
def HTTPHeaders.new : HTTPHeaders := { headers_ := [] }

/-- The mutator `HTTPHeaders::Set(key, value)`. -/
def HTTPHeaders.Set (m : HTTPHeaders) (key value : string) : HTTPHeaders :=
  { headers_ := map_assign key value m.headers_ }

/-- The mutator `HTTPHeaders::Erase(key)`. -/
def HTTPHeaders.Erase (m : HTTPHeaders) (key : string) : HTTPHeaders :=
  { headers_ := map_erase key m.headers_ }

/-- The accessor `HTTPHeaders::Get(key)`: the value found, or the empty `kEmpty`. -/
def HTTPHeaders.Get (m : HTTPHeaders) (key : string) : string :=
  match map_find key m.headers_ with
  | none => []
  | some it => it.2

/-- The keys of the map, in order. -/
def HTTPHeaders.keys (m : HTTPHeaders) : List string := m.headers_.map Prod.fst

/-- The representation invariant of a `std::map`: the keys are strictly increasing. -/
def HTTPHeaders.ordered (m : HTTPHeaders) : Prop :=
  m.headers_.Pairwise fun a b => string_lt a.1 b.1 = true

/-- The mutator `HTTPRequest::SetMimeType(encoding)`. -/
def HTTPRequest.SetMimeType (r : HTTPRequest) (encoding : string) : HTTPRequest :=
  { r with headers_ := r.headers_.Set "Content-Type".toList encoding }

/-- The mutator `HTTPRequest::SetContent(content)`. -/
def HTTPRequest.SetContent (r : HTTPRequest) (content : string) : HTTPRequest :=
  { r with content_ := content }

/-- The mutator `HTTPRequest::SetRequestType(type)`. -/
def HTTPRequest.SetRequestType (r : HTTPRequest) (type : Nat) : HTTPRequest :=
  { r with type_ := type }

/-! ## More inputs of the worked examples -/

/-- The request of the POST scenario: `POST http://x/items` with the JSON body `{"a":1}` and
its mime type set. -/
def post_items : HTTPRequest :=
  ((get_items.SetRequestType POST).SetMimeType "application/json".toList).SetContent
    "\x7b\"a\":1\x7d".toList

/-! ## Vocabulary of the statements about requests, draining and locking -/

/-- The event attaches a header list to a handle. -/
def Event.isHeaderList : Event → Bool
  | .easy_setopt _ (.HTTPHEADER _) => true
  | _ => false

/-- The statements of `BlockingRequest` from the transfer on, for the handle `curl` configured
in the world `w`: execute, and on success build the response from the accumulated output and
the status code; `Release` runs on both returns. -/
def BlockingRequest_finish (request : HTTPRequest) (x : Exchange) (curl : CURL) (w : World) :
    Outcome (Option HTTPResponse) × World :=
  let (curl_result, _, output, w) :=
    curl_easy_perform curl x (PutData.new request.content_) [] w
  if curl_result ≠ CURLE_OK then
    (.returned none, Release curl w)
  else
    let response := HTTPResponse.new
    let response := { response with content_ := output }
    let (response_code, w) := curl_easy_getinfo curl x w
    let response := response.set_response_code (int_of_long response_code)
    (.returned (some response), Release curl w)

/-- Reads the events of one pool operation, starting with the lock held or not (`held`), and
checks the lock discipline: `lock` only when the lock is not held and `unlock` only when it is;
`pop` and `push` only with the lock held; `curl_easy_init` and `curl_easy_cleanup` only with
the lock not held.  The result is the state of the lock after the last event, or `none` if an
event breaks the discipline. -/
def lock_discipline : Bool → List Event → Option Bool
  | held, [] => some held
  | held, .lock :: es => if held then none else lock_discipline true es
  | held, .unlock :: es => if held then lock_discipline false es else none
  | held, .pop _ :: es => if held then lock_discipline held es else none
  | held, .push _ :: es => if held then lock_discipline held es else none
  | held, .easy_init _ :: es => if held then none else lock_discipline held es
  | held, .easy_cleanup _ :: es => if held then none else lock_discipline held es
  | held, .easy_reset _ :: es => lock_discipline held es
  | held, .easy_setopt _ _ :: es => lock_discipline held es
  | held, .easy_perform _ _ _ _ :: es => lock_discipline held es
  | held, .easy_getinfo _ :: es => lock_discipline held es
  | held, .NewCurl_returns _ :: es => lock_discipline held es
  | held, .Release_called _ :: es => lock_discipline held es

/-- The results of all calls of `curl_easy_init` in a trace, null results included. -/
def init_calls (tr : List Event) : List CURL :=
  tr.filterMap fun e =>
    match e with
    | .easy_init result => some result
    | _ => none

/-- The state of a connection that keeps reusing the one handle `init`: the pool has the
capacity of `HTTPConnection`, `init` is its only idle handle, the engine has been asked for a
handle once and has disposed none, and every configure, execute and status-read call so far
was made on `init`. -/
def Amortized (init : CURL) (w : World) : Prop :=
  w.freelist.max_size_ = kMaxFreelistSize ∧
  w.freelist.free_curls_ = [init] ∧
  init_calls w.trace = [init] ∧
  disposed w.trace = [] ∧
  ∀ e ∈ w.trace, e.isRequestUse = true → e.handle = some init

/-! ## Sequences of requests -/

/-- The worlds after each call of a sequence of sequential `BlockingRequest` calls that
return, in order; the sequence ends at the first call that aborts the process. -/
def request_history : List (HTTPRequest × Exchange) → World → List World
  | [], _ => []
  | (request, x) :: rest, w =>
    match (BlockingRequest request x w).1 with
    | .fatal => []
    | .returned _ =>
      (BlockingRequest request x w).2 :: request_history rest (BlockingRequest request x w).2

/-- The events a call added to the trace: what follows the first `n` events. -/
def events_since (n : Nat) (w : World) : List Event := w.trace.drop n

/-! ## Concurrent callers of the pool

`NewCurl` and `Release` statement by statement, for several callers that run interleaved.
The mutex comes from `common/base/mutex.h`, which is not among the sources; it is modelled
by `Mutex_Lock` and `Mutex_Unlock`. -/

/-- The statement of `NewCurl` or `Release` a caller executes next, with its local
variable `curl`. -/
inductive Pc where
  | idle
  | NewCurl_lock
  | NewCurl_test
  | NewCurl_pop
  | NewCurl_return (curl : CURL)
  | NewCurl_unlock
  | NewCurl_init
  | Release_reset (curl : CURL)
  | Release_lock (curl : CURL)
  | Release_test (curl : CURL)
  | Release_push (curl : CURL)
  | Release_unlock (curl : CURL)
  | Release_cleanup (curl : CURL)
  deriving DecidableEq

/-- The pool shared by the callers: capacity, idle vector, the caller holding the mutex,
where each caller stands, which caller has which handle (in a local variable or as the
result of `NewCurl`, until it is pushed back or disposed), and the handles the engine has
created. -/
structure Shared where
  max_size_ : Int
  free_curls_ : List CURL
  lock_ : Option Nat
  pc : Nat → Pc
  owner : List (CURL × Nat)
  created : List CURL

/-- A freshly constructed pool of capacity `max_size`, every caller outside of it. -/
def Shared.start (max_size : Int) : Shared :=
  { max_size_ := max_size, free_curls_ := [], lock_ := none, pc := fun _ => .idle,
    owner := [], created := [] }

/-- Moves caller `t` to the statement `p`. -/
def Shared.set_pc (s : Shared) (t : Nat) (p : Pc) : Shared :=
  { s with pc := fun u => if u = t then p else s.pc u }

/-- The caller is between taking and releasing the mutex. -/
def inCS : Pc → Bool
  | .NewCurl_test => true
  | .NewCurl_pop => true
  | .NewCurl_return _ => true
  | .NewCurl_unlock => true
  | .Release_test _ => true
  | .Release_push _ => true
  | .Release_unlock _ => true
  | _ => false

/-- Modelled from the spec: `Mutex::Lock()` of `common/base/mutex.h`, which is not among the
sources, also run by the constructor of `MutexLock`.  The spec calls it a single
mutual-exclusion lock: caller `t` can take it only while no caller holds it (`none` means that
`t` has to wait). -/
def Mutex_Lock (t : Nat) (lock_ : Option Nat) : Option (Option Nat) :=
  if lock_ = none then some (some t) else none

/-- Modelled from the spec: `Mutex::Unlock()` of `common/base/mutex.h`, also run by the
destructor of `MutexLock`: the mutex is free afterwards. -/
def Mutex_Unlock (_lock : Option Nat) : Option Nat := none

/-- Caller `t` executes its next statement of `NewCurl` or `Release`; `init` is what the
engine returns if the statement is `curl_easy_init()`, and the engine never returns a handle
it has already created.  The result is `none` when the statement cannot run now (the caller
is outside the pool, it has to wait for the mutex, or the engine's answer is not a new
handle). -/
def step_caller (t : Nat) (init : CURL) (s : Shared) : Option Shared :=
  match s.pc t with
  | .idle => none
  | .NewCurl_lock =>
    match Mutex_Lock t s.lock_ with
    | some l => some ({ s with lock_ := l }.set_pc t .NewCurl_test)
    | none => none
  | .NewCurl_test =>
    if s.free_curls_ ≠ [] then some (s.set_pc t .NewCurl_pop)
    else some (s.set_pc t .NewCurl_unlock)
  | .NewCurl_pop =>
    some ({ s with free_curls_ := s.free_curls_.dropLast,
                   owner := (s.free_curls_.getLastD NULL, t) :: s.owner }.set_pc t
      (.NewCurl_return (s.free_curls_.getLastD NULL)))
  | .NewCurl_return _ => some ({ s with lock_ := Mutex_Unlock s.lock_ }.set_pc t .idle)
  | .NewCurl_unlock => some ({ s with lock_ := Mutex_Unlock s.lock_ }.set_pc t .NewCurl_init)
  | .NewCurl_init =>
    if init = NULL then some (s.set_pc t .idle)
    else if init ∈ s.created then none
    else some ({ s with created := init :: s.created,
                        owner := (init, t) :: s.owner }.set_pc t .idle)
  | .Release_reset curl => some (s.set_pc t (.Release_lock curl))
  | .Release_lock curl =>
    match Mutex_Lock t s.lock_ with
    | some l => some ({ s with lock_ := l }.set_pc t (.Release_test curl))
    | none => none
  | .Release_test curl =>
    if s.free_curls_.length < size_t_of_int s.max_size_ then
      some (s.set_pc t (.Release_push curl))
    else some (s.set_pc t (.Release_unlock curl))
  | .Release_push curl =>
    some ({ s with free_curls_ := s.free_curls_ ++ [curl],
                   owner := s.owner.erase (curl, t) }.set_pc t (.Release_unlock NULL))
  | .Release_unlock curl =>
    some ({ s with lock_ := Mutex_Unlock s.lock_ }.set_pc t (.Release_cleanup curl))
  | .Release_cleanup curl =>
    if curl ≠ NULL then some ({ s with owner := s.owner.erase (curl, t) }.set_pc t .idle)
    else some (s.set_pc t .idle)

/-- What happens next in an interleaving: a caller enters `NewCurl`, a caller enters
`Release(curl)`, or a caller inside the pool executes its next statement. -/
inductive Action where
  | call_NewCurl (t : Nat)
  | call_Release (t : Nat) (curl : CURL)
  | step (t : Nat) (init : CURL)

/-- The effect of one action, `none` when it cannot happen now: a caller enters an operation
only from outside the pool, and passes to `Release` null or a handle it holds; `Release(NULL)`
returns at once. -/
def Shared.act (s : Shared) : Action → Option Shared
  | .call_NewCurl t => if s.pc t = .idle then some (s.set_pc t .NewCurl_lock) else none
  | .call_Release t curl =>
    if s.pc t = .idle then
      if curl = NULL then some s
      else if (curl, t) ∈ s.owner then some (s.set_pc t (.Release_reset curl))
      else none
    else none
  | .step t init => step_caller t init s

/-- The state after an interleaving; an action that cannot happen is skipped. -/
def Shared.run (s : Shared) : List Action → Shared
  | [] => s
  | a :: as =>
    match s.act a with
    | some s2 => s2.run as
    | none => s.run as

/-- What must hold of caller `t` where it stands. -/
def local_ok (s : Shared) (t : Nat) : Prop :=
  match s.pc t with
  | .NewCurl_pop => s.free_curls_ ≠ []
  | .NewCurl_return c => (c, t) ∈ s.owner
  | .Release_reset c => (c, t) ∈ s.owner
  | .Release_lock c => (c, t) ∈ s.owner
  | .Release_test c => (c, t) ∈ s.owner
  | .Release_push c => (c, t) ∈ s.owner ∧ s.free_curls_.length < size_t_of_int s.max_size_
  | .Release_unlock c => c = NULL ∨ (c, t) ∈ s.owner
  | .Release_cleanup c => c = NULL ∨ (c, t) ∈ s.owner
  | _ => True

/-- The invariant of the shared pool: a caller between lock and unlock holds the mutex, no
handle is at once with two callers or with a caller and idle, every handle around was created
by the engine, the idle vector respects the capacity, and every caller is consistent with
where it stands. -/
structure Exclusive (s : Shared) : Prop where
  mutex : ∀ t, inCS (s.pc t) = true → s.lock_ = some t
  nodup : (s.owner.map Prod.fst ++ s.free_curls_).Nodup
  known : ∀ h ∈ s.owner.map Prod.fst ++ s.free_curls_, h ∈ s.created
  nonnull : NULL ∉ s.created
  bound : s.free_curls_.length ≤ size_t_of_int s.max_size_
  callers : ∀ t, local_ok s t

/-- An interleaving of two callers on a pool of capacity 1: both enter `NewCurl` (caller 2
waits for the mutex once), the engine creates the handles 5 and 6, and both call `Release`
(caller 2 waits again); the handle 5 is pushed, the handle 6 is disposed. -/
def two_callers : List Action :=
  [.call_NewCurl 1, .call_NewCurl 2, .step 1 0, .step 2 0, .step 1 0, .step 1 0, .step 2 0,
   .step 1 5, .step 2 0, .step 2 0, .step 2 6, .call_Release 1 5, .call_Release 2 6,
   .step 1 0, .step 2 0, .step 1 0, .step 2 0, .step 1 0, .step 1 0, .step 1 0, .step 2 0,
   .step 1 0, .step 2 0, .step 2 0, .step 2 0]

end network

/-! # Theorems -/

namespace network

open Event

/-! ## Machine integers -/

theorem size_t_of_int_le (i : Int) (h : 0 ≤ i) : (size_t_of_int i : Int) ≤ i := by
  unfold size_t_of_int
  have h1 : 0 ≤ i % (2 ^ 64 : Int) := Int.emod_nonneg _ (by norm_num)
  rw [Int.toNat_of_nonneg h1]
  omega

theorem size_t_of_int_eq (i : Int) (h : 0 ≤ i) (h2 : i < 2 ^ 31) : (size_t_of_int i : Int) = i := by
  unfold size_t_of_int
  have h1 : 0 ≤ i % (2 ^ 64 : Int) := Int.emod_nonneg _ (by norm_num)
  rw [Int.toNat_of_nonneg h1]
  exact Int.emod_eq_of_lt h (by linarith)

theorem size_t_of_int_zero : size_t_of_int 0 = 0 := by
  simp [size_t_of_int]

/-! ## The pool operations, case by case -/

theorem NewCurl_nonempty (init : CURL) (w : World) (l : List CURL) (h : CURL)
    (hf : w.freelist.free_curls_ = l ++ [h]) :
    NewCurl init w = (h, { freelist := { max_size_ := w.freelist.max_size_, free_curls_ := l },
                           options := w.options,
                           trace := w.trace ++ [lock, pop h, unlock, NewCurl_returns h] }) := by
  simp [NewCurl, World.log, World.set_free, hf]

theorem NewCurl_empty (init : CURL) (w : World) (hf : w.freelist.free_curls_ = []) :
    NewCurl init w =
      (init, ((curl_easy_init init ((w.log lock).log unlock)).2).log (NewCurl_returns init)) := by
  simp [NewCurl, World.log, hf, curl_easy_init]

theorem Release_null (w : World) : Release NULL w = w.log (Release_called NULL) := by
  simp [Release]

theorem Release_retain (curl : CURL) (w : World) (hc : curl ≠ NULL)
    (hlt : w.freelist.free_curls_.length < size_t_of_int w.freelist.max_size_) :
    Release curl w =
      (((((curl_easy_reset curl (w.log (Release_called curl))).log lock).set_free
        (w.freelist.free_curls_ ++ [curl])).log (push curl)).log unlock) := by
  simp [Release, World.log, hc, curl_easy_reset, World.set_options, World.set_free, hlt]

theorem Release_dispose (curl : CURL) (w : World) (hc : curl ≠ NULL)
    (hlt : ¬ w.freelist.free_curls_.length < size_t_of_int w.freelist.max_size_) :
    Release curl w =
      curl_easy_cleanup curl
        (((curl_easy_reset curl (w.log (Release_called curl))).log lock).log unlock) := by
  simp [Release, World.log, hc, curl_easy_reset, World.set_options, World.set_free, hlt]

theorem loop_noop (size : Int) (fuel : Nat) (w : World)
    (h : w.freelist.free_curls_.length ≤ size_t_of_int size) :
    ResizeFreelist_loop size fuel w = w := by
  cases fuel with
  | zero => rfl
  | succ n => simp [ResizeFreelist_loop, Nat.not_lt.mpr h]

theorem loop_drain (size : Int) (r : List CURL) :
    ∀ (fuel : Nat) (w : World) (keep : List CURL),
      w.freelist.free_curls_ = keep ++ r.reverse →
      keep.length = size_t_of_int size →
      r.length ≤ fuel →
      ResizeFreelist_loop size fuel w =
        { freelist := { max_size_ := w.freelist.max_size_, free_curls_ := keep },
          options := w.options,
          trace := w.trace ++ drain_events r } := by
  induction r with
  | nil =>
    intro fuel w keep hf hk _
    have hle : w.freelist.free_curls_.length ≤ size_t_of_int size := by simp [hf, hk]
    rw [loop_noop size fuel w hle]
    simp [drain_events] at hf ⊢
    cases w with
    | mk fl o t => cases fl; simp_all
  | cons h r ih =>
    intro fuel w keep hf hk hfuel
    cases fuel with
    | zero => simp at hfuel
    | succ n =>
      have hf2 : w.freelist.free_curls_ = (keep ++ r.reverse) ++ [h] := by
        simp [hf]
      have hgt : w.freelist.free_curls_.length > size_t_of_int size := by
        simp [hf, ← hk]
      rw [ResizeFreelist_loop, if_pos hgt]
      simp only []
      rw [ih n _ keep (by simp [World.log, World.set_free, curl_easy_cleanup, hf2]) hk
        (by simpa using hfuel)]
      simp [World.log, World.set_free, curl_easy_cleanup, hf2, drain_events]

theorem ResizeFreelist_eq (size : Int) (w : World) :
    ResizeFreelist size w =
      { freelist := { max_size_ := w.freelist.max_size_,
                      free_curls_ := w.freelist.free_curls_.take (size_t_of_int size) },
        options := w.options,
        trace := w.trace ++ [lock] ++
          drain_events (w.freelist.free_curls_.drop (size_t_of_int size)).reverse ++ [unlock] } := by
  unfold ResizeFreelist
  by_cases h : w.freelist.free_curls_.length ≤ size_t_of_int size
  · simp only []
    rw [loop_noop size _ _ (by simpa [World.log] using h)]
    simp [World.log, List.take_of_length_le h, List.drop_of_length_le h, drain_events]
  · have hlt : size_t_of_int size < w.freelist.free_curls_.length := Nat.lt_of_not_le h
    simp only []
    rw [loop_drain size (w.freelist.free_curls_.drop (size_t_of_int size)).reverse _ (w.log lock)
      (w.freelist.free_curls_.take (size_t_of_int size))
      (by simp [World.log]) (by simp [List.length_take]; omega) (by simp [World.log])]
    simp [World.log]

/-! ## What each operation does to the capacity and to the length of the idle vector -/

theorem NewCurl_cases (init : CURL) (w : World) :
    (w.freelist.free_curls_ = [] ∧
      NewCurl init w =
        (init, ((curl_easy_init init ((w.log lock).log unlock)).2).log (NewCurl_returns init))) ∨
    (∃ l h, w.freelist.free_curls_ = l ++ [h] ∧
      NewCurl init w = (h, { freelist := { max_size_ := w.freelist.max_size_, free_curls_ := l },
                             options := w.options,
                             trace := w.trace ++ [lock, pop h, unlock, NewCurl_returns h] })) := by
  rcases List.eq_nil_or_concat w.freelist.free_curls_ with h | ⟨l, h, hf⟩
  · exact Or.inl ⟨h, NewCurl_empty init w h⟩
  · rw [List.concat_eq_append] at hf
    exact Or.inr ⟨l, h, hf, NewCurl_nonempty init w l h hf⟩

theorem NewCurl_bound (init : CURL) (w : World) :
    (NewCurl init w).2.freelist.max_size_ = w.freelist.max_size_ ∧
    (NewCurl init w).2.freelist.free_curls_.length ≤ w.freelist.free_curls_.length := by
  rcases NewCurl_cases init w with ⟨hf, h⟩ | ⟨l, h, hf, he⟩
  · rw [h]
    by_cases hi : init = NULL <;>
      simp [curl_easy_init, World.log, World.set_options, hi]
  · rw [he, hf]; simp

theorem Release_bound (curl : CURL) (w : World) (M : Int) (hM : 0 ≤ M)
    (hmax : w.freelist.max_size_ = M) (hlen : (w.freelist.free_curls_.length : Int) ≤ M) :
    (Release curl w).freelist.max_size_ = M ∧
    ((Release curl w).freelist.free_curls_.length : Int) ≤ M := by
  by_cases hc : curl = NULL
  · subst hc
    rw [Release_null]
    exact ⟨hmax, hlen⟩
  · by_cases hlt : w.freelist.free_curls_.length < size_t_of_int w.freelist.max_size_
    · rw [Release_retain curl w hc hlt]
      have h1 := size_t_of_int_le M hM
      rw [hmax] at hlt
      refine ⟨by simp [World.log, World.set_free, curl_easy_reset, World.set_options, hmax], ?_⟩
      simp [World.log, World.set_free, curl_easy_reset, World.set_options]
      omega
    · rw [Release_dispose curl w hc hlt]
      exact ⟨by simp [World.log, curl_easy_cleanup, curl_easy_reset, World.set_options, hmax],
        by simpa [World.log, curl_easy_cleanup, curl_easy_reset, World.set_options] using hlen⟩

theorem ResizeFreelist_bound (size : Int) (w : World) :
    (ResizeFreelist size w).freelist.max_size_ = w.freelist.max_size_ ∧
    (ResizeFreelist size w).freelist.free_curls_.length ≤ w.freelist.free_curls_.length := by
  rw [ResizeFreelist_eq]
  simp

theorem step_bound (M : Int) (hM : 0 ≤ M) (c : Client) (o : Op)
    (hmax : c.world.freelist.max_size_ = M)
    (hlen : (c.world.freelist.free_curls_.length : Int) ≤ M) :
    (c.step o).world.freelist.max_size_ = M ∧
    ((c.step o).world.freelist.free_curls_.length : Int) ≤ M := by
  cases o with
  | acquire init =>
    have h := NewCurl_bound init c.world
    simp only [Client.step]
    exact ⟨h.1.trans hmax, by have := h.2; omega⟩
  | release curl => exact Release_bound curl c.world M hM hmax hlen
  | resize size =>
    have h := ResizeFreelist_bound size c.world
    simp only [Client.step]
    exact ⟨h.1.trans hmax, by have := h.2; omega⟩
  | setopt curl opt =>
    simpa [Client.step, curl_easy_setopt, World.log, World.set_options] using And.intro hmax hlen

theorem history_bound (M : Int) (hM : 0 ≤ M) (ops : List Op) :
    ∀ c : Client, c.world.freelist.max_size_ = M →
      (c.world.freelist.free_curls_.length : Int) ≤ M →
      ∀ c2 ∈ c.history ops, (c2.world.freelist.free_curls_.length : Int) ≤ M := by
  induction ops with
  | nil =>
    intro c _ hlen c2 hc2
    simp [Client.history] at hc2
    subst hc2
    exact hlen
  | cons o os ih =>
    intro c hmax hlen c2 hc2
    simp only [Client.history, List.mem_cons] at hc2
    rcases hc2 with rfl | hc2
    · exact hlen
    · have h := step_bound M hM c o hmax hlen
      exact ih (c.step o) h.1 h.2 c2 hc2

/-- C1 (pool bound invariant): for every capacity `max_size ≥ 0` and every finite sequence of
`NewCurl`, `Release` and `ResizeFreelist` calls (with any arguments, and any answers of the
engine) on a pool that starts empty, the number of idle handles in `free_curls_` is at least
`0` and at most `max_size` at the start and after each operation. -/
theorem C1_pool_bound (max_size : Int) (hmax : 0 ≤ max_size) (ops : List Op) :
    ∀ c ∈ (Client.start max_size).history ops,
      0 ≤ (c.world.freelist.free_curls_.length : Int) ∧
      (c.world.freelist.free_curls_.length : Int) ≤ max_size := by
  intro c hc
  refine ⟨Int.natCast_nonneg _, ?_⟩
  exact history_bound max_size hmax ops (Client.start max_size) rfl
    (by simpa [Client.start, CurlFreelist.new] using hmax) c hc

/-- Witness of C1: a pool of capacity 1 that is asked to keep two handles. -/
theorem C1_pool_bound_witness :
    (0 : Int) ≤ 1 ∧
    ∀ c ∈ (Client.start 1).history
        [.acquire 5, .acquire 6, .release 5, .release 6, .acquire 7, .resize 0],
      0 ≤ (c.world.freelist.free_curls_.length : Int) ∧
      (c.world.freelist.free_curls_.length : Int) ≤ 1 :=
  ⟨by decide, C1_pool_bound 1 (by decide) _⟩

/-! ## Acquire and release, one call at a time -/

/-- C5 (acquire reuses in LIFO order): when the idle vector is not empty, `NewCurl` returns its
last element, removes exactly that element and leaves the elements before it unchanged and in
order; it takes the lock, pops, unlocks and returns, so the engine's handle-create is not
called and no option of any handle changes.  The last element is the most recently released
idle handle: right after a `Release` that retains `curl`, `NewCurl` returns `curl` and the
idle vector is what it was before that `Release`. -/
theorem C5_acquire_lifo (init : CURL) (w : World) (hne : w.freelist.free_curls_ ≠ []) :
    (NewCurl init w).1 = w.freelist.free_curls_.getLast hne ∧
    (NewCurl init w).2.freelist.free_curls_ = w.freelist.free_curls_.dropLast ∧
    (NewCurl init w).2.freelist.free_curls_ ++ [(NewCurl init w).1] = w.freelist.free_curls_ ∧
    (NewCurl init w).2.trace =
      w.trace ++ [lock, pop (NewCurl init w).1, unlock, NewCurl_returns (NewCurl init w).1] ∧
    (∀ r, (NewCurl init w).2.trace.count (easy_init r) = w.trace.count (easy_init r)) ∧
    (NewCurl init w).2.options = w.options ∧
    (∀ (curl : CURL) (w0 : World), curl ≠ NULL →
      w0.freelist.free_curls_.length < size_t_of_int w0.freelist.max_size_ →
      (NewCurl init (Release curl w0)).1 = curl ∧
      (NewCurl init (Release curl w0)).2.freelist.free_curls_ = w0.freelist.free_curls_) := by
  refine ⟨?_, ?_, ?_, ?_, ?_, ?_, ?_⟩
  · rcases NewCurl_cases init w with ⟨hf, _⟩ | ⟨l, h, hf, he⟩
    · exact absurd hf hne
    · rw [he]; simp [hf]
  · rcases NewCurl_cases init w with ⟨hf, _⟩ | ⟨l, h, hf, he⟩
    · exact absurd hf hne
    · rw [he]; simp [hf]
  · rcases NewCurl_cases init w with ⟨hf, _⟩ | ⟨l, h, hf, he⟩
    · exact absurd hf hne
    · rw [he]; simp [hf]
  · rcases NewCurl_cases init w with ⟨hf, _⟩ | ⟨l, h, hf, he⟩
    · exact absurd hf hne
    · rw [he]
  · intro r
    rcases NewCurl_cases init w with ⟨hf, _⟩ | ⟨l, h, hf, he⟩
    · exact absurd hf hne
    · rw [he]; simp [List.count_cons]
  · rcases NewCurl_cases init w with ⟨hf, _⟩ | ⟨l, h, hf, he⟩
    · exact absurd hf hne
    · rw [he]
  · intro curl w0 hc hlt
    rw [Release_retain curl w0 hc hlt]
    rw [NewCurl_nonempty init _ w0.freelist.free_curls_ curl
      (by simp [World.log, World.set_free])]
    simp

/-- Witness of C5: a pool holding the idle handles 3 and 4, released in that order. -/
theorem C5_acquire_lifo_witness :
    ([3, 4] : List CURL) ≠ [] ∧
    (NewCurl 9 { freelist := { max_size_ := 2, free_curls_ := [3, 4] },
                 options := fun _ => [], trace := [] }).1 = 4 ∧
    (NewCurl 9 { freelist := { max_size_ := 2, free_curls_ := [3, 4] },
                 options := fun _ => [], trace := [] }).2.freelist.free_curls_ = [3] :=
  ⟨by decide,
   (C5_acquire_lifo 9 { freelist := { max_size_ := 2, free_curls_ := [3, 4] },
                        options := fun _ => [], trace := [] } (by decide)).1,
   (C5_acquire_lifo 9 { freelist := { max_size_ := 2, free_curls_ := [3, 4] },
                        options := fun _ => [], trace := [] } (by decide)).2.1⟩

/-- C6 (no block on empty): when the idle vector is empty, `NewCurl` takes and releases the lock,
calls the engine's handle-create exactly once and returns its result, without any further step
(it waits for no `Release`); the idle vector stays empty; when handle-create fails the result is
the null handle and no option of any handle changes. -/
theorem C6_acquire_empty (init : CURL) (w : World) (he : w.freelist.free_curls_ = []) :
    (NewCurl init w).1 = init ∧
    (NewCurl init w).2.freelist.free_curls_ = [] ∧
    (NewCurl init w).2.trace = w.trace ++ [lock, unlock, easy_init init, NewCurl_returns init] ∧
    (init = NULL → (NewCurl init w).1 = NULL ∧ (NewCurl init w).2.options = w.options) := by
  rw [NewCurl_empty init w he]
  by_cases hi : init = NULL
  · simp [curl_easy_init, World.log, World.set_options, hi, he]
  · simp [curl_easy_init, World.log, World.set_options, hi, he]

/-- Witness of C6: an empty pool and an engine whose handle-create fails. -/
theorem C6_acquire_empty_witness :
    (CurlFreelist.new 10).freelist.free_curls_ = [] ∧
    (NewCurl NULL (CurlFreelist.new 10)).1 = NULL ∧
    (NewCurl NULL (CurlFreelist.new 10)).2.trace =
      [lock, unlock, easy_init NULL, NewCurl_returns NULL] :=
  ⟨rfl, ((C6_acquire_empty NULL (CurlFreelist.new 10) rfl).2.2.2 rfl).1,
    (C6_acquire_empty NULL (CurlFreelist.new 10) rfl).2.2.1⟩

/-- C7 (release retains or disposes): for a pool of capacity `max_size_ ≥ 0` (an `int`) holding
`n ≤ max_size_` idle handles and a non-null handle `h`, `Release(h)` resets `h` exactly once
and then, under the lock, if `n < max_size_` appends `h` at the end of the idle vector and does
not dispose it; otherwise (`n = max_size_`, also when both are `0`) it leaves the idle vector
unchanged and disposes `h` exactly once, after unlocking.  In both cases `h` ends with no option
set, no other handle's options change and the capacity is unchanged. -/
theorem C7_release_retains_or_disposes (w : World) (h : CURL)
    (h0 : 0 ≤ w.freelist.max_size_) (hint : w.freelist.max_size_ < 2 ^ 31)
    (hn : (w.freelist.free_curls_.length : Int) ≤ w.freelist.max_size_) (hh : h ≠ NULL) :
    ((w.freelist.free_curls_.length : Int) < w.freelist.max_size_ →
      (Release h w).freelist.free_curls_ = w.freelist.free_curls_ ++ [h] ∧
      (Release h w).trace = w.trace ++ [Release_called h, easy_reset h, lock, push h, unlock]) ∧
    ((w.freelist.free_curls_.length : Int) = w.freelist.max_size_ →
      (Release h w).freelist.free_curls_ = w.freelist.free_curls_ ∧
      (Release h w).trace =
        w.trace ++ [Release_called h, easy_reset h, lock, unlock, easy_cleanup h]) ∧
    (Release h w).options h = [] ∧
    (∀ c, c ≠ h → (Release h w).options c = w.options c) ∧
    (Release h w).freelist.max_size_ = w.freelist.max_size_ := by
  have hcap := size_t_of_int_eq w.freelist.max_size_ h0 hint
  by_cases hlt : w.freelist.free_curls_.length < size_t_of_int w.freelist.max_size_
  · have hlt2 : (w.freelist.free_curls_.length : Int) < w.freelist.max_size_ := by omega
    rw [Release_retain h w hh hlt]
    refine ⟨fun _ => ?_, fun he => ?_, ?_, ?_, ?_⟩
    · simp [World.log, World.set_free, curl_easy_reset, World.set_options]
    · omega
    · simp [World.log, World.set_free, curl_easy_reset, World.set_options]
    · intro c hc
      simp [World.log, World.set_free, curl_easy_reset, World.set_options, hc]
    · simp [World.log, World.set_free, curl_easy_reset, World.set_options]
  · have hge : ¬ (w.freelist.free_curls_.length : Int) < w.freelist.max_size_ := by omega
    rw [Release_dispose h w hh hlt]
    refine ⟨fun hl => absurd hl hge, fun _ => ?_, ?_, ?_, ?_⟩
    · simp [World.log, curl_easy_cleanup, curl_easy_reset, World.set_options]
    · simp [World.log, curl_easy_cleanup, curl_easy_reset, World.set_options]
    · intro c hc
      simp [World.log, curl_easy_cleanup, curl_easy_reset, World.set_options, hc]
    · simp [World.log, curl_easy_cleanup, curl_easy_reset, World.set_options]

/-- Witness of C7: a pool of capacity 0, which disposes the released handle 7. -/
theorem C7_release_retains_or_disposes_witness :
    ((0 : Int) ≤ 0 ∧ (0 : Int) < 2 ^ 31 ∧ (7 : CURL) ≠ NULL) ∧
    (Release 7 (CurlFreelist.new 0)).freelist.free_curls_ = [] ∧
    (Release 7 (CurlFreelist.new 0)).trace =
      [Release_called 7, easy_reset 7, lock, unlock, easy_cleanup 7] :=
  ⟨⟨by decide, by decide, by decide⟩,
   (C7_release_retains_or_disposes (CurlFreelist.new 0) 7 (by decide) (by decide) (by decide)
      (by decide)).2.1 rfl⟩

/-! ## Traces: created and disposed handles, use after disposal -/

theorem created_append (a b : List Event) : created (a ++ b) = created a ++ created b := by
  simp [created, List.filterMap_append]

theorem disposed_append (a b : List Event) : disposed (a ++ b) = disposed a ++ disposed b := by
  simp [disposed, List.filterMap_append]

theorem disposed_nil : disposed [] = [] := rfl

theorem created_nil : created [] = [] := rfl

theorem disposed_cons (e : Event) (es : List Event) :
    disposed (e :: es) =
      (match e with
        | .easy_cleanup c => [c]
        | _ => []) ++ disposed es := by
  cases e <;> simp [disposed]

theorem created_cons (e : Event) (es : List Event) :
    created (e :: es) =
      (match e with
        | .easy_init r => if r ≠ NULL then [r] else []
        | _ => []) ++ created es := by
  cases e <;> simp [created]
  split <;> simp [List.filterMap_cons, *]

theorem created_ne_null (tr : List Event) (h : CURL) (hm : h ∈ created tr) : h ≠ NULL := by
  simp only [created, List.mem_filterMap] at hm
  obtain ⟨e, _, he⟩ := hm
  cases e <;> simp at he
  obtain ⟨h1, h2⟩ := he
  subst h2
  exact h1

theorem disposed_drain (r : List CURL) : disposed (drain_events r) = r := by
  induction r with
  | nil => rfl
  | cons h r ih =>
    have : drain_events (h :: r) = [pop h, unlock, easy_cleanup h, lock] ++ drain_events r := by
      simp [drain_events]
    rw [this, disposed_append, ih]
    simp [disposed]

theorem created_drain (r : List CURL) : created (drain_events r) = [] := by
  induction r with
  | nil => rfl
  | cons h r ih =>
    have : drain_events (h :: r) = [pop h, unlock, easy_cleanup h, lock] ++ drain_events r := by
      simp [drain_events]
    rw [this, created_append, ih]
    simp [created]

theorem safe_nil : Safe [] := by
  intro a b h heq
  simp at heq

theorem safe_snoc (tr : List Event) (e : Event) (hs : Safe tr)
    (he : ∀ h, e.handle = some h → h ∉ disposed tr) : Safe (tr ++ [e]) := by
  intro a b h heq e2 he2
  rcases List.eq_nil_or_concat b with hb | ⟨b2, x, hb⟩
  · subst hb; simp at he2
  · rw [List.concat_eq_append] at hb
    subst hb
    have heq2 : tr ++ [e] = (a ++ easy_cleanup h :: b2) ++ [x] := by simpa using heq
    have h1 := List.append_inj_left' heq2 rfl
    have h2 := List.append_inj_right' heq2 rfl
    simp at h2
    subst h2
    rcases List.mem_append.mp he2 with hm | hm
    · exact hs a b2 h h1 e2 hm
    · simp at hm
      subst hm
      intro hh
      apply he h hh
      rw [h1, disposed_append]
      simp [disposed]

theorem safe_append_of (evs : List Event) :
    ∀ tr : List Event, Safe tr → SafeFrom (disposed tr) evs → Safe (tr ++ evs) := by
  induction evs with
  | nil => intro tr hs _; simpa using hs
  | cons e es ih =>
    intro tr hs hf
    have h1 : Safe (tr ++ [e]) := safe_snoc tr e hs hf.1
    have h2 := ih (tr ++ [e]) h1 (by rw [disposed_append]; exact hf.2)
    simpa using h2

theorem safeFrom_append (a : List Event) :
    ∀ (dead : List CURL) (b : List Event),
      SafeFrom dead a → SafeFrom (dead ++ disposed a) b → SafeFrom dead (a ++ b) := by
  induction a with
  | nil => intro dead b _ hb; simpa [disposed] using hb
  | cons e es ih =>
    intro dead b ha hb
    refine ⟨ha.1, ?_⟩
    apply ih _ b ha.2
    have : disposed (e :: es) = disposed [e] ++ disposed es := by
      rw [← disposed_append]; rfl
    rw [this, ← List.append_assoc] at hb
    exact hb

theorem safeFrom_drain (r : List CURL) :
    ∀ dead : List CURL, r.Nodup → (∀ h ∈ r, h ∉ dead) → SafeFrom dead (drain_events r) := by
  induction r with
  | nil => intro dead _ _; trivial
  | cons h r ih =>
    intro dead hnd hdead
    have hd : drain_events (h :: r) = [pop h, unlock, easy_cleanup h, lock] ++ drain_events r := by
      simp [drain_events]
    rw [hd]
    have hh : h ∉ dead := hdead h (by simp)
    apply safeFrom_append
    · simp [SafeFrom, Event.handle, disposed_cons, disposed_nil, hh]
    · apply ih _ (List.nodup_cons.mp hnd).2
      intro x hx
      have hx1 : x ∉ dead := hdead x (by simp [hx])
      have hx2 : x ≠ h := fun e => (List.nodup_cons.mp hnd).1 (e ▸ hx)
      simp [disposed_cons, disposed_nil, hx1, hx2]

/-! ## The protocol invariant is preserved by every step -/

theorem good_start (max_size : Int) : Good (Client.start max_size) where
  nodup := by simp [Client.start, CurlFreelist.new, created]
  perm := by simp [Client.start, CurlFreelist.new, created, disposed]
  safe := safe_nil
  neutral := by simp [Client.start, CurlFreelist.new]

theorem Good.all_nodup {c : Client} (g : Good c) :
    (c.held ++ c.world.freelist.free_curls_ ++ disposed c.world.trace).Nodup :=
  g.perm.nodup_iff.mp g.nodup

theorem Good.held_ne_null {c : Client} (g : Good c) (h : CURL) (hm : h ∈ c.held) : h ≠ NULL :=
  created_ne_null _ h (g.perm.mem_iff.mpr (by simp [hm]))

theorem Good.free_ne_null {c : Client} (g : Good c) (h : CURL)
    (hm : h ∈ c.world.freelist.free_curls_) : h ≠ NULL :=
  created_ne_null _ h (g.perm.mem_iff.mpr (by simp [hm]))

theorem Good.disposed_created {c : Client} (g : Good c) (h : CURL)
    (hm : h ∈ disposed c.world.trace) : h ∈ created c.world.trace :=
  g.perm.mem_iff.mpr (by simp [hm])

theorem Good.null_not_disposed {c : Client} (g : Good c) : NULL ∉ disposed c.world.trace :=
  fun hm => created_ne_null _ _ (g.disposed_created _ hm) rfl

theorem Good.held_not_disposed {c : Client} (g : Good c) (h : CURL) (hm : h ∈ c.held) :
    h ∉ disposed c.world.trace := by
  have hn := g.all_nodup
  rw [List.nodup_append] at hn
  exact fun hd => hn.2.2 (by simp [hm]) hd

theorem Good.free_not_disposed {c : Client} (g : Good c) (h : CURL)
    (hm : h ∈ c.world.freelist.free_curls_) : h ∉ disposed c.world.trace := by
  have hn := g.all_nodup
  rw [List.nodup_append] at hn
  exact fun hd => hn.2.2 (by simp [hm]) hd

theorem Good.held_not_free {c : Client} (g : Good c) (h : CURL) (hm : h ∈ c.held) :
    h ∉ c.world.freelist.free_curls_ := by
  have hn := g.all_nodup
  rw [List.nodup_append] at hn
  have h1 := hn.1
  rw [List.nodup_append] at h1
  exact fun hf => h1.2.2 hm hf

theorem Good.free_nodup {c : Client} (g : Good c) : c.world.freelist.free_curls_.Nodup := by
  have hn := g.all_nodup
  rw [List.nodup_append] at hn
  have h1 := hn.1
  rw [List.nodup_append] at h1
  exact h1.2.1

theorem good_acquire (c : Client) (init : CURL) (g : Good c)
    (hok : (Op.acquire init).ok c = true) : Good (c.step (.acquire init)) := by
  simp only [Op.ok, decide_eq_true_eq] at hok
  rcases NewCurl_cases init c.world with ⟨hf, he⟩ | ⟨l, h, hf, he⟩
  · simp only [Client.step, he]
    by_cases hi : init = NULL
    · subst hi
      have hnd := g.null_not_disposed
      constructor
      · simpa [curl_easy_init, World.log, created_append, created_cons, created_nil] using g.nodup
      · simpa [curl_easy_init, World.log, created_append, created_cons, created_nil,
          disposed_append, disposed_cons, disposed_nil, hf] using g.perm
      · have : Safe (c.world.trace ++ [lock, unlock, easy_init NULL, NewCurl_returns NULL]) :=
          safe_append_of _ _ g.safe
            (by simp [SafeFrom, Event.handle, disposed_cons, disposed_nil, hnd])
        simpa [curl_easy_init, World.log] using this
      · simp [curl_easy_init, World.log, hf]
    · have hfresh : init ∉ created c.world.trace := by
        rcases hok hf with h1 | h1
        · exact absurd h1 hi
        · exact h1
      have hnd : init ∉ disposed c.world.trace := fun hd => hfresh (g.disposed_created _ hd)
      constructor
      · have : (created c.world.trace ++ [init]).Nodup := by
          rw [List.nodup_append]
          exact ⟨g.nodup, by simp, by simpa using hfresh⟩
        simpa [curl_easy_init, World.log, World.set_options, created_append, created_cons,
          created_nil, hi] using this
      · have hp := g.perm
        rw [hf] at hp
        simp only [List.append_nil] at hp
        simp only [curl_easy_init, World.log, World.set_options, created_append, hi, hf,
          disposed_append, ne_eq, not_false_eq_true, if_true, created_cons, created_nil,
          disposed_cons, disposed_nil, List.append_nil, List.nil_append]
        rw [List.perm_iff_count] at hp ⊢
        intro a
        have := hp a
        simp only [List.count_append, List.count_cons, List.count_nil] at this ⊢
        omega
      · have : Safe (c.world.trace ++ [lock, unlock, easy_init init, NewCurl_returns init]) :=
          safe_append_of _ _ g.safe
            (by simp [SafeFrom, Event.handle, disposed_cons, disposed_nil, hnd])
        simpa [curl_easy_init, World.log, World.set_options, hi] using this
      · simp [curl_easy_init, World.log, World.set_options, hi, hf]
  · simp only [Client.step, he]
    have hmem : h ∈ c.world.freelist.free_curls_ := by simp [hf]
    have hnn : h ≠ NULL := g.free_ne_null h hmem
    have hnd : h ∉ disposed c.world.trace := g.free_not_disposed h hmem
    constructor
    · simpa [created_append, created_cons, created_nil] using g.nodup
    · have hp := g.perm
      rw [hf] at hp
      simp only [hnn, ne_eq, not_false_eq_true, if_true, created_append, disposed_append,
        created_cons, created_nil, disposed_cons, disposed_nil, List.append_nil]
      rw [List.perm_iff_count] at hp ⊢
      intro a
      have := hp a
      simp only [List.count_append, List.count_cons, List.count_nil] at this ⊢
      omega
    · exact safe_append_of _ _ g.safe
        (by simp [SafeFrom, Event.handle, disposed_cons, disposed_nil, hnd])
    · intro x hx
      exact g.neutral x (by simp [hf, hx])

theorem good_release (c : Client) (curl : CURL) (g : Good c)
    (hok : (Op.release curl).ok c = true) : Good (c.step (.release curl)) := by
  simp only [Op.ok, decide_eq_true_eq] at hok
  by_cases hc : curl = NULL
  · subst hc
    have hnd := g.null_not_disposed
    have hnh : NULL ∉ c.held := fun hm => g.held_ne_null _ hm rfl
    simp only [Client.step, Release_null, List.erase_of_not_mem hnh]
    constructor
    · simpa [World.log, created_append, created_cons, created_nil] using g.nodup
    · simpa [World.log, created_append, created_cons, created_nil, disposed_append,
        disposed_cons, disposed_nil] using g.perm
    · exact safe_append_of _ _ g.safe
        (by simp [SafeFrom, Event.handle, disposed_cons, disposed_nil, hnd])
    · exact g.neutral
  · have hheld : curl ∈ c.held := by
      rcases hok with h1 | h1
      · exact absurd h1 hc
      · exact h1
    have hnd : curl ∉ disposed c.world.trace := g.held_not_disposed curl hheld
    have hcount : ∀ a, List.count a c.held =
        List.count a (c.held.erase curl) + (if (curl == a) = true then 1 else 0) := by
      intro a
      have := (List.perm_cons_erase hheld).count_eq a
      rw [this, List.count_cons]
    by_cases hlt : c.world.freelist.free_curls_.length < size_t_of_int c.world.freelist.max_size_
    · simp only [Client.step, Release_retain curl c.world hc hlt]
      constructor
      · simpa [World.log, World.set_free, curl_easy_reset, World.set_options, created_append,
          created_cons, created_nil] using g.nodup
      · have hp := g.perm
        simp only [World.log, World.set_free, curl_easy_reset, World.set_options, created_append,
          created_cons, created_nil, disposed_append, disposed_cons, disposed_nil,
          List.append_nil, List.append_assoc]
        rw [List.perm_iff_count] at hp ⊢
        intro a
        have h1 := hp a
        have h2 := hcount a
        simp only [List.count_append, List.count_cons, List.count_nil] at h1 ⊢
        omega
      · have : Safe (c.world.trace ++
            [Release_called curl, easy_reset curl, lock, push curl, unlock]) :=
          safe_append_of _ _ g.safe
            (by simp [SafeFrom, Event.handle, disposed_cons, disposed_nil, hnd])
        simpa [World.log, World.set_free, curl_easy_reset, World.set_options] using this
      · intro x hx
        simp only [World.log, World.set_free, curl_easy_reset, World.set_options,
          List.mem_append, List.mem_singleton] at hx ⊢
        by_cases hxc : x = curl
        · simp [hxc]
        · rcases hx with hx | hx
          · simp [hxc, g.neutral x hx]
          · exact absurd hx hxc
    · simp only [Client.step, Release_dispose curl c.world hc hlt]
      constructor
      · simpa [World.log, curl_easy_cleanup, curl_easy_reset, World.set_options, created_append,
          created_cons, created_nil] using g.nodup
      · have hp := g.perm
        simp only [World.log, curl_easy_cleanup, curl_easy_reset, World.set_options,
          created_append, created_cons, created_nil, disposed_append, disposed_cons,
          disposed_nil, List.append_nil, List.append_assoc, List.nil_append]
        rw [List.perm_iff_count] at hp ⊢
        intro a
        have h1 := hp a
        have h2 := hcount a
        simp only [List.count_append, List.count_cons, List.count_nil] at h1 ⊢
        omega
      · have : Safe (c.world.trace ++
            [Release_called curl, easy_reset curl, lock, unlock, easy_cleanup curl]) :=
          safe_append_of _ _ g.safe
            (by simp [SafeFrom, Event.handle, disposed_cons, disposed_nil, hnd])
        simpa [World.log, curl_easy_cleanup, curl_easy_reset, World.set_options] using this
      · intro x hx
        simp only [World.log, curl_easy_cleanup, curl_easy_reset, World.set_options] at hx ⊢
        by_cases hxc : x = curl
        · simp [hxc]
        · simp [hxc, g.neutral x hx]

theorem good_resize (c : Client) (size : Int) (g : Good c) : Good (c.step (.resize size)) := by
  simp only [Client.step, ResizeFreelist_eq]
  have hsplit := List.take_append_drop (size_t_of_int size) c.world.freelist.free_curls_
  have hfn := g.free_nodup
  constructor
  · simpa [created_append, created_cons, created_nil, created_drain] using g.nodup
  · have hp := g.perm
    simp only [created_append, created_cons, created_nil, created_drain, disposed_append,
      disposed_cons, disposed_nil, disposed_drain, List.append_nil, List.nil_append]
    rw [List.perm_iff_count] at hp ⊢
    intro a
    have h1 := hp a
    have h2 : List.count a c.world.freelist.free_curls_ =
        List.count a (c.world.freelist.free_curls_.take (size_t_of_int size)) +
        List.count a (c.world.freelist.free_curls_.drop (size_t_of_int size)) := by
      rw [← List.count_append, hsplit]
    simp only [List.count_append, List.count_reverse] at h1 ⊢
    omega
  · have h1 : Safe (c.world.trace ++ ([lock] ++
        (drain_events (c.world.freelist.free_curls_.drop (size_t_of_int size)).reverse ++
          [unlock]))) := by
      apply safe_append_of _ _ g.safe
      apply safeFrom_append
      · simp [SafeFrom, Event.handle]
      · apply safeFrom_append
        · apply safeFrom_drain
          · rw [List.nodup_reverse]
            exact hfn.sublist (List.drop_sublist _ _)
          · intro h hm
            have hm2 : h ∈ c.world.freelist.free_curls_ :=
              List.mem_of_mem_drop (List.mem_reverse.mp hm)
            simpa [disposed_cons, disposed_nil] using g.free_not_disposed h hm2
        · simp [SafeFrom, Event.handle]
    simpa [List.append_assoc] using h1
  · intro x hx
    exact g.neutral x (List.mem_of_mem_take hx)

theorem good_setopt (c : Client) (curl : CURL) (opt : CURLoption) (g : Good c)
    (hok : (Op.setopt curl opt).ok c = true) : Good (c.step (.setopt curl opt)) := by
  simp only [Op.ok, decide_eq_true_eq] at hok
  have hnd : curl ∉ disposed c.world.trace := g.held_not_disposed curl hok
  have hnf : curl ∉ c.world.freelist.free_curls_ := g.held_not_free curl hok
  simp only [Client.step, curl_easy_setopt, World.log, World.set_options]
  constructor
  · simpa [created_append, created_cons, created_nil] using g.nodup
  · simpa [created_append, created_cons, created_nil, disposed_append, disposed_cons,
      disposed_nil] using g.perm
  · exact safe_append_of _ _ g.safe
      (by simp [SafeFrom, Event.handle, hnd])
  · intro x hx
    have hxc : x ≠ curl := fun e => hnf (e ▸ hx)
    simp [hxc, g.neutral x hx]

theorem good_step (c : Client) (o : Op) (g : Good c) (hok : o.ok c = true) : Good (c.step o) := by
  cases o with
  | acquire init => exact good_acquire c init g hok
  | release curl => exact good_release c curl g hok
  | resize size => exact good_resize c size g
  | setopt curl opt => exact good_setopt c curl opt g hok

theorem good_history (ops : List Op) :
    ∀ c : Client, Good c → wellFormed c ops = true → ∀ c2 ∈ c.history ops, Good c2 := by
  induction ops with
  | nil =>
    intro c g _ c2 hc2
    simp [Client.history] at hc2
    subst hc2
    exact g
  | cons o os ih =>
    intro c g hwf c2 hc2
    simp only [wellFormed, Bool.and_eq_true] at hwf
    simp only [Client.history, List.mem_cons] at hc2
    rcases hc2 with rfl | hc2
    · exact g
    · exact ih (c.step o) (good_step c o g hwf.1) hwf.2 c2 hc2

theorem run_mem_history (ops : List Op) : ∀ c : Client, c.run ops ∈ c.history ops := by
  induction ops with
  | nil => intro c; simp [Client.run, Client.history]
  | cons o os ih => intro c; simp [Client.run, Client.history, ih]

/-! ## The shape of `BlockingRequest` -/

theorem Configured.refl (h : CURL) (w : World) : Configured h w w :=
  ⟨rfl, fun _ _ => rfl, ⟨[], by simp⟩, [], by simp, by simp⟩

theorem Configured.trans {h : CURL} {w1 w2 w3 : World} (a : Configured h w1 w2)
    (b : Configured h w2 w3) : Configured h w1 w3 := by
  obtain ⟨a1, a2, ⟨oa, a5⟩, ea, a3, a4⟩ := a
  obtain ⟨b1, b2, ⟨ob, b5⟩, eb, b3, b4⟩ := b
  refine ⟨b1.trans a1, fun c hc => (b2 c hc).trans (a2 c hc),
    ⟨oa ++ ob, by rw [b5, a5, List.append_assoc]⟩, ea ++ eb, ?_, ?_⟩
  · rw [b3, a3, List.append_assoc]
  · intro e he
    rcases List.mem_append.mp he with h1 | h1
    · exact a4 e h1
    · exact b4 e h1

theorem Configured.setopt (h : CURL) (opt : CURLoption) (w : World) :
    Configured h w (curl_easy_setopt h opt w) := by
  refine ⟨rfl, fun c hc => ?_, ⟨[opt], ?_⟩, [easy_setopt h opt], rfl, ?_⟩
  · simp [curl_easy_setopt, World.set_options, World.log, hc]
  · simp [curl_easy_setopt, World.set_options, World.log]
  · simp [Event.isRequestUse, Event.isRelease, Event.handle]

theorem Configured.method (h : CURL) (request : HTTPRequest) (w w2 : World)
    (hc : configure_method h request w = some w2) : Configured h w w2 := by
  unfold configure_method at hc
  split at hc
  · simp at hc; subst hc; exact Configured.refl h w
  · split at hc
    · simp at hc; subst hc
      exact ((Configured.setopt h _ w).trans (Configured.setopt h _ _)).trans
        (Configured.setopt h _ _)
    · split at hc
      · simp at hc; subst hc
        exact ((((Configured.setopt h _ w).trans (Configured.setopt h _ _)).trans
          (Configured.setopt h _ _)).trans (Configured.setopt h _ _)).trans
          (Configured.setopt h _ _)
      · split at hc
        · simp at hc; subst hc
          exact Configured.setopt h _ w
        · simp at hc

theorem configure_method_valid (h : CURL) (request : HTTPRequest) (w : World)
    (hm : request.type_ = GET ∨ request.type_ = POST ∨ request.type_ = PUT ∨
      request.type_ = DELETE) :
    ∃ w2, configure_method h request w = some w2 := by
  unfold configure_method
  rcases hm with hm | hm | hm | hm <;> simp [hm, GET, POST, PUT, DELETE]

theorem Configured.perform (h : CURL) (x : Exchange) (p : PutData) (out : string) (w : World) :
    Configured h w (curl_easy_perform h x p out w).2.2.2 ∧
    (curl_easy_perform h x p out w).1 = x.result := by
  refine ⟨⟨rfl, fun c _ => rfl, ⟨[], by simp [curl_easy_perform, World.log]⟩,
    [easy_perform h (w.options h)
    (if CURLoption.READFUNCTION ∈ w.options h then put_calls x.reads p
      else ([], [], p)).1.flatten x.result], ?_, ?_⟩, ?_⟩
  · simp only [curl_easy_perform, World.log]
  · simp [Event.isRequestUse, Event.isRelease, Event.handle]
  · simp only [curl_easy_perform]

theorem Configured.getinfo (h : CURL) (x : Exchange) (w : World) :
    Configured h w (curl_easy_getinfo h x w).2 :=
  ⟨rfl, fun _ _ => rfl, ⟨[], by simp [curl_easy_getinfo, World.log]⟩, [easy_getinfo h], rfl,
    by simp [Event.isRequestUse, Event.isRelease, Event.handle]⟩

/-- The three ways `BlockingRequest` ends, with the world it leaves behind. -/
theorem BlockingRequest_shape (request : HTTPRequest) (x : Exchange) (w : World) :
    ((NewCurl x.init w).1 = NULL ∧
      BlockingRequest request x w = (.returned none, Release NULL (NewCurl x.init w).2)) ∨
    ((NewCurl x.init w).1 ≠ NULL ∧
      ∃ w2, Configured (NewCurl x.init w).1 (NewCurl x.init w).2 w2 ∧
        ((BlockingRequest request x w = (.fatal, w2) ∧
            ¬ (request.type_ = GET ∨ request.type_ = POST ∨ request.type_ = PUT ∨
              request.type_ = DELETE)) ∨
         (x.result ≠ CURLE_OK ∧
            BlockingRequest request x w = (.returned none, Release (NewCurl x.init w).1 w2)) ∨
         (x.result = CURLE_OK ∧ ∃ r,
            BlockingRequest request x w =
              (.returned (some r), Release (NewCurl x.init w).1 w2) ∧
            r.content_ = (response_calls x.chunks []).2 ∧
            r.response_code_ = int_of_long x.response_code ∧
            r.headers_ = { headers_ := [] }))) := by
  rcases hN : NewCurl x.init w with ⟨h, w1⟩
  by_cases hh : h = NULL
  · left
    subst hh
    simp [BlockingRequest, hN]
  · right
    refine ⟨hh, ?_⟩
    have c3 : Configured h w1 (curl_easy_setopt h .WRITEDATA (curl_easy_setopt h .WRITEFUNCTION
        (curl_easy_setopt h (.URL (c_str request.url_.path_)) w1))) :=
      ((Configured.setopt h _ w1).trans (Configured.setopt h _ _)).trans (Configured.setopt h _ _)
    rcases hcm : configure_method h request (curl_easy_setopt h .WRITEDATA
        (curl_easy_setopt h .WRITEFUNCTION
          (curl_easy_setopt h (.URL (c_str request.url_.path_)) w1)))
      with _ | w4
    · refine ⟨_, c3, Or.inl ⟨?_, ?_⟩⟩
      · simp [BlockingRequest, LOG_FATAL, hN, hh, hcm]
      · intro hm
        obtain ⟨w5, h5⟩ := configure_method_valid h request _ hm
        rw [hcm] at h5
        exact Option.noConfusion h5
    · have c4 := c3.trans (Configured.method h request _ w4 hcm)
      have c5 : Configured h w4 (if header_lines request.headers_ ≠ [] then
          curl_easy_setopt h (.HTTPHEADER (header_lines request.headers_)) w4 else w4) := by
        split
        · exact Configured.setopt h _ w4
        · exact Configured.refl h w4
      have c6 := Configured.perform h x (PutData.new request.content_) []
        (if header_lines request.headers_ ≠ [] then
          curl_easy_setopt h (.HTTPHEADER (header_lines request.headers_)) w4 else w4)
      by_cases hr : x.result = CURLE_OK
      · refine ⟨_, ((c4.trans c5).trans c6.1).trans (Configured.getinfo h x _), Or.inr (Or.inr
          ⟨hr, ?_⟩)⟩
        simp only [BlockingRequest, hN, hh, hcm, if_false]
        rw [if_neg (by rw [c6.2]; simpa using hr)]
        refine ⟨_, rfl, ?_, rfl, rfl⟩
        obtain ⟨_, _, ⟨o1, ho1⟩, _⟩ := c3
        obtain ⟨_, _, ⟨o2, ho2⟩, _⟩ := (Configured.method h request _ w4 hcm).trans c5
        have hwf : CURLoption.WRITEFUNCTION ∈ (if header_lines request.headers_ ≠ [] then
            curl_easy_setopt h (.HTTPHEADER (header_lines request.headers_)) w4
            else w4).options h := by
          rw [ho2]
          apply List.mem_append_left
          simp [curl_easy_setopt, World.set_options, World.log]
        simp only [curl_easy_perform, HTTPResponse.set_response_code, if_pos hwf]
      · refine ⟨_, (c4.trans c5).trans c6.1, Or.inr (Or.inl ⟨hr, ?_⟩)⟩
        simp only [BlockingRequest, hN, hh, hcm, if_false]
        rw [if_pos (by rw [c6.2]; exact hr)]

theorem Release_trace (curl : CURL) (w : World) :
    ∃ post, (Release curl w).trace = w.trace ++ Release_called curl :: post ∧
      ∀ e ∈ post, e.isRelease = false ∧ e.isRequestUse = false := by
  by_cases hc : curl = NULL
  · subst hc
    exact ⟨[], by simp [Release_null, World.log], by simp⟩
  · by_cases hlt : w.freelist.free_curls_.length < size_t_of_int w.freelist.max_size_
    · refine ⟨[easy_reset curl, lock, push curl, unlock], ?_, ?_⟩
      · rw [Release_retain curl w hc hlt]
        simp [World.log, World.set_free, curl_easy_reset, World.set_options]
      · simp [Event.isRelease, Event.isRequestUse]
    · refine ⟨[easy_reset curl, lock, unlock, easy_cleanup curl], ?_, ?_⟩
      · rw [Release_dispose curl w hc hlt]
        simp [World.log, curl_easy_cleanup, curl_easy_reset, World.set_options]
      · simp [Event.isRelease, Event.isRequestUse]

theorem NewCurl_trace (init : CURL) (w : World) :
    ∃ pre, (NewCurl init w).2.trace = w.trace ++ pre ∧
      (∀ e ∈ pre, e.isRelease = false ∧ e.isRequestUse = false) ∧
      NewCurl_returns (NewCurl init w).1 ∈ pre := by
  rcases NewCurl_cases init w with ⟨_, he⟩ | ⟨l, h, _, he⟩
  · refine ⟨[lock, unlock, easy_init init, NewCurl_returns init], ?_, ?_, ?_⟩
    · rw [he]
      by_cases hi : init = NULL <;> simp [curl_easy_init, World.log, World.set_options, hi]
    · simp [Event.isRelease, Event.isRequestUse]
    · rw [he]; simp
  · refine ⟨[lock, pop h, unlock, NewCurl_returns h], ?_, ?_, ?_⟩
    · rw [he]
    · simp [Event.isRelease, Event.isRequestUse]
    · rw [he]; simp

/-- C3 (scoped release exactly once): whenever `BlockingRequest` returns to its caller (the
handle could not be acquired, the transfer failed, or it succeeded), the events it adds to the
trace contain exactly one call of `Release`; its argument is the handle that `NewCurl` returned
for this call (null when acquisition failed); everything before it contains the return of
`NewCurl`, and nothing after it is a configure, execute or status-read call: what follows is
only the body of that `Release`. -/
theorem C3_scoped_release_exactly_once (request : HTTPRequest) (x : Exchange) (w : World)
    (r : Option HTTPResponse)
    (hret : (BlockingRequest request x w).1 = Outcome.returned r) :
    ∃ pre post,
      (BlockingRequest request x w).2.trace =
        w.trace ++ pre ++ Release_called (NewCurl x.init w).1 :: post ∧
      (∀ e ∈ pre, e.isRelease = false) ∧
      NewCurl_returns (NewCurl x.init w).1 ∈ pre ∧
      (∀ e ∈ post, e.isRelease = false ∧ e.isRequestUse = false) ∧
      (∃ w2, (BlockingRequest request x w).2 = Release (NewCurl x.init w).1 w2 ∧
        w2.trace = w.trace ++ pre) := by
  obtain ⟨pre, hpre, hpre2, hpre3⟩ := NewCurl_trace x.init w
  rcases BlockingRequest_shape request x w with ⟨hnull, hb⟩ | ⟨_, w2, hc, hb⟩
  · obtain ⟨post, hpost, hpost2⟩ := Release_trace NULL (NewCurl x.init w).2
    refine ⟨pre, post, ?_, fun e he => (hpre2 e he).1, hpre3, hpost2, (NewCurl x.init w).2, ?_,
      hpre⟩
    · rw [hb, hnull]
      simp only []
      rw [hpost, hpre]
    · rw [hb, hnull]
  · obtain ⟨_, _, _, evs, hevs, hevs2⟩ := hc
    obtain ⟨post, hpost, hpost2⟩ := Release_trace (NewCurl x.init w).1 w2
    have key : ∀ r2, BlockingRequest request x w = (.returned r2, Release (NewCurl x.init w).1 w2) →
        ∃ pre post,
          (BlockingRequest request x w).2.trace =
            w.trace ++ pre ++ Release_called (NewCurl x.init w).1 :: post ∧
          (∀ e ∈ pre, e.isRelease = false) ∧
          NewCurl_returns (NewCurl x.init w).1 ∈ pre ∧
          (∀ e ∈ post, e.isRelease = false ∧ e.isRequestUse = false) ∧
          (∃ w2, (BlockingRequest request x w).2 = Release (NewCurl x.init w).1 w2 ∧
            w2.trace = w.trace ++ pre) := by
      intro r2 hbr
      refine ⟨pre ++ evs, post, ?_, ?_, ?_, hpost2, w2, ?_, ?_⟩
      · rw [hbr]
        simp only []
        rw [hpost, hevs, hpre]
        simp
      · intro e he
        rcases List.mem_append.mp he with h1 | h1
        · exact (hpre2 e h1).1
        · exact (hevs2 e h1).2.1
      · exact List.mem_append_left _ hpre3
      · rw [hbr]
      · rw [hevs, hpre, List.append_assoc]
    rcases hb with ⟨hf, _⟩ | ⟨_, hb⟩ | ⟨_, r2, hb, _⟩
    · rw [hf] at hret
      exact Outcome.noConfusion hret
    · exact key _ hb
    · exact key _ hb

/-- Witness of C3: a GET whose transfer fails, on a connection with one idle handle. -/
theorem C3_scoped_release_exactly_once_witness :
    (BlockingRequest get_items exchange_refused (HTTPConnection.new 5)).1 =
      Outcome.returned none ∧
    ∃ pre post,
      (BlockingRequest get_items exchange_refused (HTTPConnection.new 5)).2.trace =
        (HTTPConnection.new 5).trace ++ pre ++
          Release_called (NewCurl 8 (HTTPConnection.new 5)).1 :: post ∧
      (∀ e ∈ pre, e.isRelease = false) ∧
      NewCurl_returns (NewCurl 8 (HTTPConnection.new 5)).1 ∈ pre ∧
      (∀ e ∈ post, e.isRelease = false ∧ e.isRequestUse = false) ∧
      (∃ w2, (BlockingRequest get_items exchange_refused (HTTPConnection.new 5)).2 =
          Release (NewCurl 8 (HTTPConnection.new 5)).1 w2 ∧
        w2.trace = (HTTPConnection.new 5).trace ++ pre) :=
  ⟨by decide, C3_scoped_release_exactly_once _ _ _ none (by decide)⟩

/-- C10 (a response iff the exchange succeeded): for every request whose method is GET, POST, PUT
or DELETE, `BlockingRequest` returns (it does not abort), and it returns a response object if
and only if `NewCurl` yielded a non-null handle and the engine's execute returned `CURLE_OK`;
otherwise it returns the null pointer.  The status code reported by the engine does not enter
the condition. -/
theorem C10_response_iff_exchange_succeeded (request : HTTPRequest) (x : Exchange) (w : World)
    (hm : request.type_ = GET ∨ request.type_ = POST ∨ request.type_ = PUT ∨
      request.type_ = DELETE) :
    ∃ r, (BlockingRequest request x w).1 = Outcome.returned r ∧
      (r.isSome = true ↔ ((NewCurl x.init w).1 ≠ NULL ∧ x.result = CURLE_OK)) ∧
      (r = none ↔ ((NewCurl x.init w).1 = NULL ∨ x.result ≠ CURLE_OK)) := by
  rcases BlockingRequest_shape request x w with ⟨hnull, hb⟩ | ⟨hnn, w2, _, hb⟩
  · refine ⟨none, by rw [hb], ?_, ?_⟩
    · simp [hnull]
    · simp [hnull]
  · rcases hb with ⟨_, hf⟩ | ⟨hr, hb⟩ | ⟨hr, r2, hb, _⟩
    · exact absurd hm hf
    · refine ⟨none, by rw [hb], ?_, ?_⟩
      · simp [hr]
      · simp [hr]
    · refine ⟨some r2, by rw [hb], ?_, ?_⟩
      · simp [hr, hnn]
      · simp [hr, hnn]

/-- Witness of C10: a GET answered with status 404 still returns a response. -/
theorem C10_response_iff_exchange_succeeded_witness :
    (GET = GET ∨ GET = POST ∨ GET = PUT ∨ GET = DELETE) ∧
    (BlockingRequest get_items exchange_404 (HTTPConnection.new 5)).1 =
      Outcome.returned (some { content_ := [], response_code_ := 404,
                               headers_ := { headers_ := [] } }) ∧
    ∃ r, (BlockingRequest get_items exchange_404 (HTTPConnection.new 5)).1 =
        Outcome.returned r ∧
      (r.isSome = true ↔
        ((NewCurl 8 (HTTPConnection.new 5)).1 ≠ NULL ∧ CURLE_OK = CURLE_OK)) ∧
      (r = none ↔ ((NewCurl 8 (HTTPConnection.new 5)).1 = NULL ∨ CURLE_OK ≠ CURLE_OK)) :=
  ⟨Or.inl rfl, by decide,
    C10_response_iff_exchange_succeeded
      get_items exchange_404 (HTTPConnection.new 5) (Or.inl rfl)⟩

/-! ## The transfer callbacks -/

theorem size_t_mul_eq (a b : Nat) (h : a * b < 2 ^ 64) : size_t_mul a b = a * b :=
  Nat.mod_eq_of_lt h

theorem size_t_add_eq (a b : Nat) (h : a + b < 2 ^ 64) : size_t_add a b = a + b :=
  Nat.mod_eq_of_lt h

theorem size_t_sub_eq (a b : Nat) (hb : b ≤ a) (ha : a < 2 ^ 64) : size_t_sub a b = a - b := by
  unfold size_t_sub
  have h1 : ((a : Int) - (b : Int)) % (2 ^ 64 : Int) = (a : Int) - (b : Int) :=
    Int.emod_eq_of_lt (by omega) (by omega)
  rw [h1]
  omega

theorem response_callback_spec (c : Chunk) (out : string)
    (h1 : c.size * c.nmemb = c.contents.length) (h2 : c.contents.length < 2 ^ 64) :
    curl_is_still_stupid_response_callback c out = (c.size * c.nmemb, out ++ c.contents) := by
  simp only [curl_is_still_stupid_response_callback]
  rw [size_t_mul_eq _ _ (by omega), h1, List.take_length]

theorem response_calls_spec (chunks : List Chunk) :
    ∀ out : string,
      (∀ c ∈ chunks, c.size * c.nmemb = c.contents.length ∧ c.contents.length < 2 ^ 64) →
      response_calls chunks out =
        (chunks.map (fun c => c.size * c.nmemb),
          out ++ (chunks.map Chunk.contents).flatten) := by
  induction chunks with
  | nil => intro out _; simp [response_calls]
  | cons c cs ih =>
    intro out hwf
    have hc := hwf c (by simp)
    simp only [response_calls, response_callback_spec c out hc.1 hc.2]
    rw [ih (out ++ c.contents) (fun d hd => hwf d (by simp [hd]))]
    simp

/-- C9 (response accumulation): for every sequence of chunks delivered to the write callback
(any number, of any length, empty ones included; each buffer holds its `size * nmemb` bytes),
starting from any output string, the output string after the last call is the initial one
followed by all chunks in delivery order, and each call returns `size * nmemb`; and whenever
`BlockingRequest` returns a response, its body is the concatenation of the chunks the engine
delivered during the transfer. -/
theorem C9_response_accumulation (chunks : List Chunk)
    (hwf : ∀ c ∈ chunks, c.size * c.nmemb = c.contents.length ∧ c.contents.length < 2 ^ 64) :
    (∀ out : string,
      (response_calls chunks out).2 = out ++ (chunks.map Chunk.contents).flatten ∧
      (response_calls chunks out).1 = chunks.map (fun c => c.size * c.nmemb)) ∧
    (∀ (request : HTTPRequest) (x : Exchange) (w : World) (r : HTTPResponse),
      x.chunks = chunks →
      (BlockingRequest request x w).1 = Outcome.returned (some r) →
      r.content_ = (chunks.map Chunk.contents).flatten) := by
  refine ⟨fun out => by rw [response_calls_spec chunks out hwf]; exact ⟨rfl, rfl⟩, ?_⟩
  intro request x w r hx hret
  rcases BlockingRequest_shape request x w with ⟨_, hb⟩ | ⟨_, w2, _, hb⟩
  · rw [hb] at hret
    simp at hret
  · rcases hb with ⟨hf, _⟩ | ⟨_, hb⟩ | ⟨_, r2, hb, hcont, _⟩
    · rw [hf] at hret
      simp at hret
    · rw [hb] at hret
      simp at hret
    · rw [hb] at hret
      simp at hret
      subst hret
      rw [hcont, hx, response_calls_spec chunks [] hwf]
      simp

/-- Witness of C9: the body `[]` delivered as the chunks `[`, (empty) and `]`. -/
theorem C9_response_accumulation_witness :
    (∀ c ∈ [({ contents := "[".toList, size := 1, nmemb := 1 } : Chunk),
            { contents := [], size := 1, nmemb := 0 },
            { contents := "]".toList, size := 1, nmemb := 1 }],
      c.size * c.nmemb = c.contents.length ∧ c.contents.length < 2 ^ 64) ∧
    (response_calls [{ contents := "[".toList, size := 1, nmemb := 1 },
                     { contents := [], size := 1, nmemb := 0 },
                     { contents := "]".toList, size := 1, nmemb := 1 }] []).2 = "[]".toList :=
  ⟨by decide,
   ((C9_response_accumulation [{ contents := "[".toList, size := 1, nmemb := 1 },
                               { contents := [], size := 1, nmemb := 0 },
                               { contents := "]".toList, size := 1, nmemb := 1 }]
      (by decide)).1 []).1⟩

theorem put_callback_spec (size nmemb : Nat) (d : PutData)
    (hoff : d.offset ≤ d.data.length) (hlen : d.data.length < 2 ^ 64)
    (hk : size * nmemb < 2 ^ 64) :
    curl_is_stupid_put_callback size nmemb d =
      ((d.data.drop d.offset).take (min (size * nmemb) (d.data.length - d.offset)),
        min (size * nmemb) (d.data.length - d.offset),
        { data := d.data,
          offset := d.offset + min (size * nmemb) (d.data.length - d.offset) }) := by
  simp only [curl_is_stupid_put_callback]
  rw [size_t_mul_eq _ _ hk, size_t_sub_eq _ _ hoff hlen, size_t_add_eq _ _ (by omega)]

theorem put_calls_append (a : List (Nat × Nat)) :
    ∀ (b : List (Nat × Nat)) (d : PutData),
      put_calls (a ++ b) d =
        ((put_calls a d).1 ++ (put_calls b (put_calls a d).2.2).1,
          (put_calls a d).2.1 ++ (put_calls b (put_calls a d).2.2).2.1,
          (put_calls b (put_calls a d).2.2).2.2) := by
  induction a with
  | nil => intro b d; simp [put_calls]
  | cons c cs ih =>
    intro b d
    obtain ⟨size, nmemb⟩ := c
    show put_calls ((size, nmemb) :: (cs ++ b)) d = _
    simp only [put_calls]
    rw [ih]
    simp

theorem put_calls_spec (calls : List (Nat × Nat)) :
    ∀ d : PutData, d.offset ≤ d.data.length → d.data.length < 2 ^ 64 →
      (∀ c ∈ calls, c.1 * c.2 < 2 ^ 64) →
      (put_calls calls d).1.flatten =
        (d.data.drop d.offset).take (calls.map (fun c => c.1 * c.2)).sum ∧
      (put_calls calls d).2.1 = (put_calls calls d).1.map List.length ∧
      (put_calls calls d).2.2.data = d.data ∧
      (put_calls calls d).2.2.offset =
        min d.data.length (d.offset + (calls.map (fun c => c.1 * c.2)).sum) := by
  induction calls with
  | nil =>
    intro d hoff _ _
    simp [put_calls]
    omega
  | cons c cs ih =>
    intro d hoff hlen hk
    obtain ⟨size, nmemb⟩ := c
    have hk1 : size * nmemb < 2 ^ 64 := hk (size, nmemb) (by simp)
    simp only [put_calls, put_callback_spec size nmemb d hoff hlen hk1]
    have ih2 := ih { data := d.data,
                     offset := d.offset + min (size * nmemb) (d.data.length - d.offset) }
      (by simp only []; omega) hlen (fun c hc => hk c (by simp [hc]))
    simp only [] at ih2
    obtain ⟨i1, i2, i3, i4⟩ := ih2
    refine ⟨?_, ?_, i3, ?_⟩
    · simp only [List.flatten_cons, i1, List.map_cons, List.sum_cons]
      rw [← List.drop_drop, ← List.take_add]
      by_cases hle : size * nmemb ≤ d.data.length - d.offset
      · rw [Nat.min_eq_left hle]
      · have hl : (d.data.drop d.offset).length = d.data.length - d.offset := List.length_drop _ _
        rw [Nat.min_eq_right (by omega), List.take_of_length_le (by omega),
          List.take_of_length_le (by omega)]
    · simp only [List.map_cons, i2, List.length_take, List.length_drop]
      congr 1
      omega
    · simp only [i4, List.map_cons, List.sum_cons]
      omega

/-- C8 (PUT streaming): for a body of `N` bytes (`N < 2^64`) and read-callback invocations
that request `k = size * nmemb` bytes each (a buffer size, so `k < 2^64`):
each invocation, at any cursor inside the body, copies the `min(k, remaining)` bytes at the
cursor, returns that count and advances the cursor by it, never past the end of the body;
starting from offset 0, the pieces produced by a sequence of invocations concatenate to the
first `min(N, k_1 + ... + k_m)` bytes of the body, the invocation after the requests `pre`
returns `min(k, N - min(N, sum of pre))`, and the cursor ends at `min(N, k_1 + ... + k_m)`;
when the requests total at least `N` the pieces concatenate to the whole body and every later
invocation returns 0 and copies nothing. -/
theorem C8_put_streaming (body : string) (calls : List (Nat × Nat))
    (hN : body.length < 2 ^ 64) (hk : ∀ c ∈ calls, c.1 * c.2 < 2 ^ 64) :
    (∀ (size nmemb : Nat) (d : PutData), d.data = body → d.offset ≤ body.length →
      size * nmemb < 2 ^ 64 →
      (curl_is_stupid_put_callback size nmemb d).2.1 =
        min (size * nmemb) (body.length - d.offset) ∧
      (curl_is_stupid_put_callback size nmemb d).1 =
        (body.drop d.offset).take (min (size * nmemb) (body.length - d.offset)) ∧
      (curl_is_stupid_put_callback size nmemb d).1.length =
        (curl_is_stupid_put_callback size nmemb d).2.1 ∧
      (curl_is_stupid_put_callback size nmemb d).2.2.offset =
        d.offset + (curl_is_stupid_put_callback size nmemb d).2.1 ∧
      (curl_is_stupid_put_callback size nmemb d).2.2.offset ≤ body.length ∧
      (curl_is_stupid_put_callback size nmemb d).2.2.data = body) ∧
    (put_calls calls (PutData.new body)).1.flatten =
      body.take (min body.length (calls.map (fun c => c.1 * c.2)).sum) ∧
    (put_calls calls (PutData.new body)).2.1 =
      (put_calls calls (PutData.new body)).1.map List.length ∧
    (put_calls calls (PutData.new body)).2.2.offset =
      min body.length (calls.map (fun c => c.1 * c.2)).sum ∧
    (∀ (pre post : List (Nat × Nat)) (size nmemb : Nat), calls = pre ++ (size, nmemb) :: post →
      (put_calls calls (PutData.new body)).2.1[pre.length]? =
        some (min (size * nmemb)
          (body.length - min body.length (pre.map (fun c => c.1 * c.2)).sum))) ∧
    (body.length ≤ (calls.map (fun c => c.1 * c.2)).sum →
      (put_calls calls (PutData.new body)).1.flatten = body ∧
      ∀ size nmemb : Nat,
        (curl_is_stupid_put_callback size nmemb (put_calls calls (PutData.new body)).2.2).2.1 = 0 ∧
        (curl_is_stupid_put_callback size nmemb (put_calls calls (PutData.new body)).2.2).1 = [])
    := by
  have h0 : (PutData.new body).offset ≤ (PutData.new body).data.length := by simp [PutData.new]
  have hspec := put_calls_spec calls (PutData.new body) h0 hN hk
  obtain ⟨s1, s2, s3, s4⟩ := hspec
  have s1b : (put_calls calls (PutData.new body)).1.flatten =
      body.take (min body.length (calls.map (fun c => c.1 * c.2)).sum) := by
    rw [s1]
    simp only [PutData.new, List.drop_zero]
    by_cases hle : (calls.map (fun c => c.1 * c.2)).sum ≤ body.length
    · rw [Nat.min_eq_right hle]
    · rw [Nat.min_eq_left (by omega), List.take_length, List.take_of_length_le (by omega)]
  have s4b : (put_calls calls (PutData.new body)).2.2.offset =
      min body.length (calls.map (fun c => c.1 * c.2)).sum := by
    rw [s4]; simp [PutData.new]
  refine ⟨?_, s1b, s2, s4b, ?_, ?_⟩
  · intro size nmemb d hd hoff hkk
    subst hd
    rw [put_callback_spec size nmemb d hoff hN hkk]
    refine ⟨rfl, rfl, ?_, rfl, ?_, rfl⟩
    · simp only [List.length_take, List.length_drop]
      omega
    · simp only []
      omega
  · intro pre post size nmemb hcalls
    subst hcalls
    have hkpre : ∀ c ∈ pre, c.1 * c.2 < 2 ^ 64 := fun c hc => hk c (by simp [hc])
    have hkk : size * nmemb < 2 ^ 64 := hk (size, nmemb) (by simp)
    obtain ⟨p1, p2, p3, p4⟩ := put_calls_spec pre (PutData.new body) h0 hN hkpre
    rw [put_calls_append]
    simp only []
    have hlen : (put_calls pre (PutData.new body)).2.1.length = pre.length := by
      rw [p2]
      have : ∀ (l : List (Nat × Nat)) (d : PutData), (put_calls l d).1.length = l.length := by
        intro l
        induction l with
        | nil => intro d; simp [put_calls]
        | cons c cs ih => intro d; obtain ⟨a, b⟩ := c; simp [put_calls, ih]
      simp [this]
    rw [List.getElem?_append_right (by omega), hlen, Nat.sub_self]
    have hoff2 : (put_calls pre (PutData.new body)).2.2.offset ≤
        (put_calls pre (PutData.new body)).2.2.data.length := by
      rw [p3, p4]; simp [PutData.new]
    simp only [put_calls, put_callback_spec size nmemb _ hoff2 (by rw [p3]; exact hN) hkk]
    rw [p3, p4]
    simp [PutData.new]
  · intro hsum
    refine ⟨by rw [s1b, Nat.min_eq_left hsum, List.take_length], ?_⟩
    intro size nmemb
    have hoffN : (put_calls calls (PutData.new body)).2.2.offset = body.length := by
      rw [s4b, Nat.min_eq_left hsum]
    have hdata : (put_calls calls (PutData.new body)).2.2.data = body := by
      rw [s3]; rfl
    simp only [curl_is_stupid_put_callback, hoffN, hdata]
    have hz : size_t_sub body.length body.length = 0 := by
      rw [size_t_sub_eq _ _ (le_refl _) hN]; simp
    simp [hz]

/-- Witness of C8: the body `hello` requested in three pieces of two bytes. -/
theorem C8_put_streaming_witness :
    ("hello".toList.length < 2 ^ 64 ∧
      (∀ c ∈ [((1 : Nat), (2 : Nat)), (1, 2), (1, 2)], c.1 * c.2 < 2 ^ 64) ∧
      "hello".toList.length ≤ ([((1 : Nat), (2 : Nat)), (1, 2), (1, 2)].map
        (fun c => c.1 * c.2)).sum) ∧
    (put_calls [(1, 2), (1, 2), (1, 2)] (PutData.new "hello".toList)).1.flatten =
      "hello".toList :=
  ⟨⟨by decide, by decide, by decide⟩,
   ((C8_put_streaming "hello".toList [(1, 2), (1, 2), (1, 2)] (by decide)
      (by decide)).2.2.2.2.2 (by decide)).1⟩

/-! ## The reset invariant across requests -/

theorem NewCurl_neutral (init : CURL) (w : World) (hp : PoolNeutral w) :
    PoolNeutral (NewCurl init w).2 ∧
    ((NewCurl init w).1 ≠ NULL → (NewCurl init w).2.options (NewCurl init w).1 = []) := by
  rcases NewCurl_cases init w with ⟨hf, he⟩ | ⟨l, h, hf, he⟩
  · rw [he]
    by_cases hi : init = NULL
    · simp [PoolNeutral, curl_easy_init, World.log, World.set_options, hi, hf]
    · simp [PoolNeutral, curl_easy_init, World.log, World.set_options, hi, hf]
  · rw [he]
    refine ⟨fun x hx => hp x (by simp [hf]; exact Or.inl hx), fun _ => hp h (by simp [hf])⟩

theorem Release_neutral (h : CURL) (w : World)
    (hp : ∀ x ∈ w.freelist.free_curls_, x ≠ h → w.options x = []) (hh : h ≠ NULL) :
    PoolNeutral (Release h w) := by
  by_cases hlt : w.freelist.free_curls_.length < size_t_of_int w.freelist.max_size_
  · rw [Release_retain h w hh hlt]
    intro x hx
    simp only [World.log, World.set_free, curl_easy_reset, World.set_options,
      List.mem_append, List.mem_singleton] at hx ⊢
    by_cases hxh : x = h
    · simp [hxh]
    · rcases hx with hx | hx
      · simp [hxh, hp x hx hxh]
      · exact absurd hx hxh
  · rw [Release_dispose h w hh hlt]
    intro x hx
    simp only [World.log, curl_easy_cleanup, curl_easy_reset, World.set_options] at hx ⊢
    by_cases hxh : x = h
    · simp [hxh]
    · simp [hxh, hp x hx hxh]

theorem BlockingRequest_neutral (request : HTTPRequest) (x : Exchange) (w : World)
    (r : Option HTTPResponse) (hp : PoolNeutral w)
    (hret : (BlockingRequest request x w).1 = Outcome.returned r) :
    PoolNeutral (BlockingRequest request x w).2 := by
  have hn := (NewCurl_neutral x.init w hp).1
  rcases BlockingRequest_shape request x w with ⟨_, hb⟩ | ⟨hnn, w2, hc, hb⟩
  · rw [hb, Release_null]
    exact hn
  · obtain ⟨hfree, hopts, _, _⟩ := hc
    have key : PoolNeutral (Release (NewCurl x.init w).1 w2) := by
      apply Release_neutral _ _ _ hnn
      intro y hy hyh
      rw [hopts y hyh]
      exact hn y (by rw [← hfree]; exact hy)
    rcases hb with ⟨hf, _⟩ | ⟨_, hb⟩ | ⟨_, r2, hb, _⟩
    · rw [hf] at hret
      exact Outcome.noConfusion hret
    · rw [hb]; exact key
    · rw [hb]; exact key

theorem BlockingRequest_get_perform (request : HTTPRequest) (x : Exchange) (w : World)
    (hm : request.type_ = GET) (hnn : (NewCurl x.init w).1 ≠ NULL)
    (hopts : (NewCurl x.init w).2.options (NewCurl x.init w).1 = []) :
    easy_perform (NewCurl x.init w).1
      ([.URL (c_str request.url_.path_), .WRITEFUNCTION, .WRITEDATA] ++
        (if header_lines request.headers_ ≠ [] then
          [.HTTPHEADER (header_lines request.headers_)] else []))
      [] x.result ∈ (BlockingRequest request x w).2.trace := by
  rcases hN : NewCurl x.init w with ⟨h, w1⟩
  rw [hN] at hnn hopts
  simp only [] at hnn hopts
  have hR : ∀ (w3 : World) (e : Event), e ∈ w3.trace → e ∈ (Release h w3).trace := by
    intro w3 e he
    obtain ⟨post, hpost, _⟩ := Release_trace h w3
    rw [hpost]
    exact List.mem_append_left _ he
  have hP : ∀ (p : PutData) (o : string) (w3 : World),
      (curl_easy_perform h x p o w3).1 = x.result := fun p o w3 =>
    (Configured.perform h x p o w3).2
  by_cases hl : header_lines request.headers_ = []
  · by_cases hr : x.result = CURLE_OK
    · simp only [BlockingRequest, hN, hnn, configure_method, hm, if_true, if_false, hP, hr,
        ne_eq, not_true_eq_false]
      apply hR
      simp [curl_easy_perform, curl_easy_getinfo, World.log, curl_easy_setopt,
        World.set_options, hopts, hl, hr]
    · simp only [BlockingRequest, hN, hnn, configure_method, hm, if_true, if_false, hP, hr,
        ne_eq, not_false_eq_true]
      apply hR
      simp [curl_easy_perform, curl_easy_getinfo, World.log, curl_easy_setopt,
        World.set_options, hopts, hl, hr]
  · by_cases hr : x.result = CURLE_OK
    · simp only [BlockingRequest, hN, hnn, configure_method, hm, if_true, if_false, hP, hr,
        ne_eq, not_true_eq_false]
      apply hR
      simp [curl_easy_perform, curl_easy_getinfo, World.log, curl_easy_setopt,
        World.set_options, hopts, hl, hr]
    · simp only [BlockingRequest, hN, hnn, configure_method, hm, if_true, if_false, hP, hr,
        ne_eq, not_false_eq_true]
      apply hR
      simp [curl_easy_perform, curl_easy_getinfo, World.log, curl_easy_setopt,
        World.set_options, hopts, hl, hr]

theorem BlockingRequest_returns (request : HTTPRequest) (x : Exchange) (w : World)
    (hm : request.type_ = GET ∨ request.type_ = POST ∨ request.type_ = PUT ∨
      request.type_ = DELETE) :
    ∃ r, (BlockingRequest request x w).1 = Outcome.returned r := by
  rcases BlockingRequest_shape request x w with ⟨_, hb⟩ | ⟨_, w2, _, hb⟩
  · exact ⟨none, by rw [hb]⟩
  · rcases hb with ⟨_, hf⟩ | ⟨_, hb⟩ | ⟨_, r2, hb, _⟩
    · exact absurd hm hf
    · exact ⟨none, by rw [hb]⟩
    · exact ⟨some r2, by rw [hb]⟩

theorem neutral_step (c : Client) (o : Op) (hp : PoolNeutral c.world)
    (hok : ∀ curl opt, o = .setopt curl opt → curl ∉ c.world.freelist.free_curls_) :
    PoolNeutral (c.step o).world := by
  cases o with
  | acquire init => exact (NewCurl_neutral init c.world hp).1
  | release curl =>
    by_cases hc : curl = NULL
    · subst hc
      simp only [Client.step, Release_null]
      exact hp
    · exact Release_neutral curl c.world (fun x hx _ => hp x hx) hc
  | resize size =>
    simp only [Client.step, ResizeFreelist_eq]
    intro x hx
    exact hp x (List.mem_of_mem_take hx)
  | setopt curl opt =>
    have hnf := hok curl opt rfl
    intro x hx
    have hxc : x ≠ curl := fun e => hnf (e ▸ hx)
    simp only [Client.step, curl_easy_setopt, World.log, World.set_options] at hx ⊢
    simp [hxc, hp x hx]

theorem neutral_history (ops : List Op) :
    ∀ c : Client, PoolNeutral c.world → configOk c ops = true →
      ∀ c2 ∈ c.history ops, PoolNeutral c2.world := by
  induction ops with
  | nil =>
    intro c hp _ c2 hc2
    simp [Client.history] at hc2
    subst hc2
    exact hp
  | cons o os ih =>
    intro c hp hok c2 hc2
    simp only [Client.history, List.mem_cons] at hc2
    rcases hc2 with rfl | hc2
    · exact hp
    · cases o with
      | acquire init =>
        exact ih _ (neutral_step c _ hp (fun _ _ h => Op.noConfusion h)) hok c2 hc2
      | release curl =>
        exact ih _ (neutral_step c _ hp (fun _ _ h => Op.noConfusion h)) hok c2 hc2
      | resize size =>
        exact ih _ (neutral_step c _ hp (fun _ _ h => Op.noConfusion h)) hok c2 hc2
      | setopt curl opt =>
        simp only [configOk, Bool.and_eq_true, decide_eq_true_eq] at hok
        refine ih _ (neutral_step c _ hp ?_) hok.2 c2 hc2
        intro curl2 opt2 he
        cases he
        exact hok.1

/-- Under the protocol a held handle is never idle, so a sequence that respects the protocol
sets options only on handles outside the idle vector. -/
theorem wellFormed_configOk (ops : List Op) :
    ∀ c : Client, Good c → wellFormed c ops = true → configOk c ops = true := by
  induction ops with
  | nil => intro c _ _; rfl
  | cons o os ih =>
    intro c g hwf
    simp only [wellFormed, Bool.and_eq_true] at hwf
    have g2 := good_step c o g hwf.1
    cases o with
    | acquire init => exact ih _ g2 hwf.2
    | release curl => exact ih _ g2 hwf.2
    | resize size => exact ih _ g2 hwf.2
    | setopt curl opt =>
      simp only [configOk, Bool.and_eq_true, decide_eq_true_eq]
      have hheld : curl ∈ c.held := by simpa [Op.ok] using hwf.1
      exact ⟨g.held_not_free curl hheld, ih _ g2 hwf.2⟩

/-- C2 (reset invariant): take any sequence of `NewCurl`, `Release` and `ResizeFreelist` calls
(any arguments, any answers of the engine) interleaved with `curl_easy_setopt` calls of any
option (URL, POST/PUT/upload mode, custom verb, header list, callbacks) on handles that are
outside the idle vector when the option is set, as every held handle is.  In the start state
and after each step every handle in the idle vector is in the engine's neutral configuration
(no option set); hence a non-null handle returned by `NewCurl` has no option set, whether the
engine just created it or it is reused; and for a PUT with any headers executed by
`BlockingRequest`, followed by a GET: the pool is again neutral after the PUT, the handle
acquired for the GET carries no option (no header list, no upload mode), and the transfer of
the GET runs with exactly the URL and write-callback options of the GET and its own header
list, if it has headers. -/
theorem C2_reset_invariant (max_size : Int) (ops : List Op)
    (hok : configOk (Client.start max_size) ops = true) :
    ∀ c ∈ (Client.start max_size).history ops,
      PoolNeutral c.world ∧
      (∀ init : CURL, (NewCurl init c.world).1 ≠ NULL →
        (NewCurl init c.world).2.options (NewCurl init c.world).1 = []) ∧
      (∀ (put_request get_request : HTTPRequest) (x1 x2 : Exchange),
        put_request.type_ = PUT → get_request.type_ = GET →
        (NewCurl x2.init (BlockingRequest put_request x1 c.world).2).1 ≠ NULL →
        PoolNeutral (BlockingRequest put_request x1 c.world).2 ∧
        (NewCurl x2.init (BlockingRequest put_request x1 c.world).2).2.options
          (NewCurl x2.init (BlockingRequest put_request x1 c.world).2).1 = [] ∧
        easy_perform (NewCurl x2.init (BlockingRequest put_request x1 c.world).2).1
          ([.URL (c_str get_request.url_.path_), .WRITEFUNCTION, .WRITEDATA] ++
            (if header_lines get_request.headers_ ≠ [] then
              [.HTTPHEADER (header_lines get_request.headers_)] else []))
          [] x2.result ∈
          (BlockingRequest get_request x2 (BlockingRequest put_request x1 c.world).2).2.trace) := by
  intro c hc
  have hp : PoolNeutral c.world :=
    neutral_history ops _ (by simp [PoolNeutral, Client.start, CurlFreelist.new]) hok c hc
  refine ⟨hp, fun init => (NewCurl_neutral init c.world hp).2, ?_⟩
  intro put_request get_request x1 x2 hput hget hnn
  obtain ⟨r, hr⟩ := BlockingRequest_returns put_request x1 c.world (Or.inr (Or.inr (Or.inl hput)))
  have hp1 := BlockingRequest_neutral put_request x1 c.world r hp hr
  have hn2 := (NewCurl_neutral x2.init _ hp1).2 hnn
  exact ⟨hp1, hn2, BlockingRequest_get_perform get_request x2 _ hget hnn hn2⟩

/-- Witness of C2: handle 5 is configured for an upload with a header list, released into a
pool of capacity 1 and acquired again. -/
theorem C2_reset_invariant_witness :
    configOk (Client.start 1)
      [.acquire 5, .setopt 5 (.UPLOAD 1), .setopt 5 (.HTTPHEADER ["a: b".toList]),
        .release 5, .acquire 6] = true ∧
    ∀ c ∈ (Client.start 1).history
      [.acquire 5, .setopt 5 (.UPLOAD 1), .setopt 5 (.HTTPHEADER ["a: b".toList]),
        .release 5, .acquire 6], PoolNeutral c.world :=
  ⟨by decide,
   fun c hc => (C2_reset_invariant 1
      [.acquire 5, .setopt 5 (.UPLOAD 1), .setopt 5 (.HTTPHEADER ["a: b".toList]),
        .release 5, .acquire 6] (by decide) c hc).1⟩

/-- C4 (no leak, no double release): along every pool lifetime that respects the protocol (each
`Release` is given a held handle or null, the engine creates handles it never returned before),
in the start state and after each step: (i) the idle vector contains no handle twice and no
held handle is idle; (ii) no event (reset, push, pop, return from `NewCurl`, configure, dispose)
refers to a handle after the engine disposed it, and no handle is disposed twice; and
(iii) when the pool is destroyed with no handle held, the idle vector ends empty and every
handle the engine created has been disposed exactly once, nothing else having been disposed. -/
theorem C4_no_leak_no_double_release (max_size : Int) (ops : List Op)
    (hwf : wellFormed (Client.start max_size) ops = true) :
    (∀ c ∈ (Client.start max_size).history ops,
      c.world.freelist.free_curls_.Nodup ∧
      (∀ h ∈ c.held, h ∉ c.world.freelist.free_curls_) ∧
      Safe c.world.trace ∧
      (disposed c.world.trace).Nodup) ∧
    (((Client.start max_size).run ops).held = [] →
      (CurlFreelist.destroy ((Client.start max_size).run ops).world).freelist.free_curls_ = [] ∧
      Safe (CurlFreelist.destroy ((Client.start max_size).run ops).world).trace ∧
      (∀ h ∈ created (CurlFreelist.destroy ((Client.start max_size).run ops).world).trace,
        (disposed (CurlFreelist.destroy ((Client.start max_size).run ops).world).trace).count h
          = 1) ∧
      (∀ h ∈ disposed (CurlFreelist.destroy ((Client.start max_size).run ops).world).trace,
        h ∈ created (CurlFreelist.destroy ((Client.start max_size).run ops).world).trace)) := by
  constructor
  · intro c hc
    have g : Good c := good_history ops _ (good_start max_size) hwf c hc
    refine ⟨g.free_nodup, fun h hh => g.held_not_free h hh, g.safe, ?_⟩
    have hn := g.all_nodup
    rw [List.nodup_append] at hn
    exact hn.2.1
  · intro hheld
    have g : Good ((Client.start max_size).run ops) :=
      good_history ops _ (good_start max_size) hwf _ (run_mem_history ops _)
    have g2 := good_resize _ 0 g
    have hw : (((Client.start max_size).run ops).step (.resize 0)).world =
        CurlFreelist.destroy ((Client.start max_size).run ops).world := rfl
    have hh : (((Client.start max_size).run ops).step (.resize 0)).held = [] := hheld
    have hfree : (CurlFreelist.destroy
        ((Client.start max_size).run ops).world).freelist.free_curls_ = [] := by
      simp [CurlFreelist.destroy, ResizeFreelist_eq, size_t_of_int_zero]
    have hperm := g2.perm
    rw [hh, hw, hfree] at hperm
    simp only [List.nil_append] at hperm
    have hnd := g2.nodup
    rw [hw] at hnd
    refine ⟨hfree, hw ▸ g2.safe, ?_, ?_⟩
    · intro h hm
      exact List.count_eq_one_of_mem (hperm.nodup_iff.mp hnd) (hperm.mem_iff.mp hm)
    · intro h hm
      exact hperm.mem_iff.mpr hm

/-- Witness of C4: two handles are created for a pool of capacity 1; one is disposed by
`Release`, the other by the destructor. -/
theorem C4_no_leak_no_double_release_witness :
    (wellFormed (Client.start 1) [.acquire 5, .acquire 6, .release 5, .release 6] = true ∧
      ((Client.start 1).run [.acquire 5, .acquire 6, .release 5, .release 6]).held = []) ∧
    ∀ h ∈ created (CurlFreelist.destroy
        ((Client.start 1).run [.acquire 5, .acquire 6, .release 5, .release 6]).world).trace,
      (disposed (CurlFreelist.destroy
        ((Client.start 1).run [.acquire 5, .acquire 6, .release 5, .release 6]).world).trace).count
          h = 1 :=
  ⟨⟨by decide, by decide⟩,
   ((C4_no_leak_no_double_release 1 [.acquire 5, .acquire 6, .release 5, .release 6]
      (by decide)).2 (by decide)).2.2.1⟩

/-! ## What `BlockingRequest` returns -/

theorem int_of_long_eq (c : Int) (h1 : -(2 ^ 31 : Int) ≤ c) (h2 : c < 2 ^ 31) :
    int_of_long c = c := by
  unfold int_of_long
  have : (c + 2 ^ 31) % (2 ^ 32 : Int) = c + 2 ^ 31 := Int.emod_eq_of_lt (by omega) (by omega)
  rw [this]
  omega

/-- C11 (a successful exchange yields the engine's status and body): for every request with
one of the four methods, when `NewCurl` yields a non-null handle and `curl_easy_perform`
returns `CURLE_OK` after delivering the chunks of the body (each buffer holding its
`size * nmemb` bytes) and the engine reports the status code `c` (an `int` value, as every HTTP
status is), `BlockingRequest` returns a response whose `response_code_` is `c`, not the `-1` of
a fresh response unless the engine reports that, and whose `content_` is the concatenation of
the chunks. -/
theorem C11_success_yields_status_and_body (request : HTTPRequest) (x : Exchange) (w : World)
    (hm : request.type_ = GET ∨ request.type_ = POST ∨ request.type_ = PUT ∨
      request.type_ = DELETE)
    (hnn : (NewCurl x.init w).1 ≠ NULL) (hok : x.result = CURLE_OK)
    (hwf : ∀ c ∈ x.chunks, c.size * c.nmemb = c.contents.length ∧ c.contents.length < 2 ^ 64)
    (h1 : -(2 ^ 31 : Int) ≤ x.response_code) (h2 : x.response_code < 2 ^ 31) :
    ∃ r, (BlockingRequest request x w).1 = Outcome.returned (some r) ∧
      r.response_code_ = x.response_code ∧
      r.content_ = (x.chunks.map Chunk.contents).flatten ∧
      HTTPResponse.new.response_code_ = -1 := by
  rcases BlockingRequest_shape request x w with ⟨hnull, _⟩ | ⟨_, w2, _, hb⟩
  · exact absurd hnull hnn
  · rcases hb with ⟨_, hf⟩ | ⟨hr, _⟩ | ⟨_, r, hb, hcont, hcode, _⟩
    · exact absurd hm hf
    · exact absurd hok hr
    · refine ⟨r, by rw [hb], ?_, ?_, rfl⟩
      · rw [hcode, int_of_long_eq _ h1 h2]
      · rw [hcont, response_calls_spec x.chunks [] hwf]
        simp

/-- Witness of C11: `GET http://x/items` on a new connection, answered with status 200 and the
body `[]`. -/
theorem C11_success_yields_status_and_body_witness :
    ((get_items.type_ = GET ∨ get_items.type_ = POST ∨ get_items.type_ = PUT ∨
        get_items.type_ = DELETE) ∧
      (NewCurl exchange_200.init (HTTPConnection.new 5)).1 ≠ NULL ∧
      exchange_200.result = CURLE_OK) ∧
    (BlockingRequest get_items exchange_200 (HTTPConnection.new 5)).1 =
      Outcome.returned (some { content_ := "[]".toList, response_code_ := 200,
                               headers_ := { headers_ := [] } }) ∧
    ∃ r, (BlockingRequest get_items exchange_200 (HTTPConnection.new 5)).1 =
        Outcome.returned (some r) ∧
      r.response_code_ = exchange_200.response_code ∧
      r.content_ = (exchange_200.chunks.map Chunk.contents).flatten ∧
      HTTPResponse.new.response_code_ = -1 :=
  ⟨⟨Or.inl rfl, by decide, rfl⟩, by decide,
   C11_success_yields_status_and_body get_items exchange_200 (HTTPConnection.new 5)
     (Or.inl rfl) (by decide) rfl (by decide) (by decide) (by decide)⟩

/-- C20 (response headers are never populated): whatever the request and whatever the engine
does, a response returned by `BlockingRequest` has an empty header map; its body is what the
write callback accumulated and its status is the (narrowed) code the engine reports. -/
theorem C20_response_headers_empty (request : HTTPRequest) (x : Exchange) (w : World)
    (r : HTTPResponse)
    (hret : (BlockingRequest request x w).1 = Outcome.returned (some r)) :
    r.headers_.headers_ = [] ∧
    r.headers_ = HTTPResponse.new.headers_ ∧
    r.content_ = (response_calls x.chunks []).2 ∧
    r.response_code_ = int_of_long x.response_code := by
  rcases BlockingRequest_shape request x w with ⟨_, hb⟩ | ⟨_, w2, _, hb⟩
  · rw [hb] at hret
    simp at hret
  · rcases hb with ⟨hf, _⟩ | ⟨_, hb⟩ | ⟨_, r2, hb, hcont, hcode, hhdr⟩
    · rw [hf] at hret
      simp at hret
    · rw [hb] at hret
      simp at hret
    · rw [hb] at hret
      simp at hret
      subst hret
      exact ⟨by rw [hhdr], by rw [hhdr]; rfl, hcont, hcode⟩

/-- Witness of C20: the response to `GET http://x/items` answered with status 200. -/
theorem C20_response_headers_empty_witness :
    (BlockingRequest get_items exchange_200 (HTTPConnection.new 5)).1 =
      Outcome.returned (some { content_ := "[]".toList, response_code_ := 200,
                               headers_ := { headers_ := [] } }) ∧
    ({ content_ := "[]".toList, response_code_ := 200,
       headers_ := { headers_ := [] } } : HTTPResponse).headers_.headers_ = [] :=
  ⟨by decide,
   (C20_response_headers_empty get_items exchange_200 (HTTPConnection.new 5) _ (by decide)).1⟩

/-! ## Failure paths of `BlockingRequest` -/

theorem BlockingRequest_no_handle (request : HTTPRequest) (x : Exchange) (w : World)
    (hf : w.freelist.free_curls_ = []) (hx : x.init = NULL) :
    BlockingRequest request x w =
      (.returned none,
        { freelist := w.freelist, options := w.options,
          trace := w.trace ++
            [lock, unlock, easy_init NULL, NewCurl_returns NULL, Release_called NULL] }) := by
  have hN : NewCurl x.init w =
      (NULL,
        { freelist := w.freelist, options := w.options,
          trace := w.trace ++ [lock, unlock, easy_init NULL, NewCurl_returns NULL] }) := by
    rw [NewCurl_empty x.init w hf, hx]
    simp [curl_easy_init, World.log]
  simp [BlockingRequest, hN, Release_null, World.log]

theorem request_history_no_handle (calls : List (HTTPRequest × Exchange)) :
    ∀ w : World, w.freelist.free_curls_ = [] → (∀ c, w.options c = []) →
      (∀ e ∈ w.trace, e = lock ∨ e = unlock ∨ e = easy_init NULL ∨ e = NewCurl_returns NULL ∨
        e = Release_called NULL) →
      (∀ c ∈ calls, c.2.init = NULL) →
      (request_history calls w).length = calls.length ∧
      ∀ w2 ∈ request_history calls w,
        w2.freelist.free_curls_ = [] ∧ (∀ c, w2.options c = []) ∧
        ∀ e ∈ w2.trace, e = lock ∨ e = unlock ∨ e = easy_init NULL ∨
          e = NewCurl_returns NULL ∨ e = Release_called NULL := by
  induction calls with
  | nil => intro w _ _ _ _; simp [request_history]
  | cons c cs ih =>
    intro w hf ho ht hnull
    obtain ⟨request, x⟩ := c
    have hx : x.init = NULL := hnull (request, x) (by simp)
    have hb := BlockingRequest_no_handle request x w hf hx
    have hnext := ih (BlockingRequest request x w).2 (by rw [hb]; exact hf) (by rw [hb]; exact ho)
      (by
        rw [hb]
        intro e he
        simp only [List.mem_append] at he
        rcases he with he | he
        · exact ht e he
        · simp at he
          rcases he with h | h | h | h | h <;> simp [h])
      (fun c hc => hnull c (by simp [hc]))
    simp only [request_history, hb]
    rw [hb] at hnext
    refine ⟨by simp [hnext.1], ?_⟩
    intro w2 hw2
    simp only [List.mem_cons] at hw2
    rcases hw2 with rfl | hw2
    · refine ⟨hf, ho, ?_⟩
      intro e he
      simp only [List.mem_append] at he
      rcases he with he | he
      · exact ht e he
      · simp at he
        rcases he with h | h | h | h | h <;> simp [h]
    · exact hnext.2 w2 hw2

/-- C12 (engine failure is handled without crashing): when the engine's handle-create returns
the null handle on every call, constructing a connection leaves an empty pool, and every
`BlockingRequest` of any sequence of calls, with any request (any method value included),
returns the null response; in the whole trace the only events are the lock, the unlock, the
failed handle-create, the return of `NewCurl` and the call of `Release` on null, so no
configure, execute, status-read, reset or dispose call is made, and no handle has any option
set.  `Release` of the null handle leaves the pool and the engine as they are. -/
theorem C12_engine_failure (calls : List (HTTPRequest × Exchange))
    (hnull : ∀ c ∈ calls, c.2.init = NULL) :
    (HTTPConnection.new NULL).trace =
      [lock, unlock, easy_init NULL, NewCurl_returns NULL, Release_called NULL] ∧
    (request_history calls (HTTPConnection.new NULL)).length = calls.length ∧
    (∀ w ∈ HTTPConnection.new NULL :: request_history calls (HTTPConnection.new NULL),
      w.freelist.free_curls_ = [] ∧ (∀ c, w.options c = []) ∧
      ∀ e ∈ w.trace, e = lock ∨ e = unlock ∨ e = easy_init NULL ∨ e = NewCurl_returns NULL ∨
        e = Release_called NULL) ∧
    (∀ (request : HTTPRequest) (x : Exchange),
      ∀ w ∈ HTTPConnection.new NULL :: request_history calls (HTTPConnection.new NULL),
        x.init = NULL → (BlockingRequest request x w).1 = Outcome.returned none) ∧
    (∀ w : World, (Release NULL w).freelist = w.freelist ∧ (Release NULL w).options = w.options ∧
      (Release NULL w).trace = w.trace ++ [Release_called NULL]) := by
  have h0 : (HTTPConnection.new NULL).freelist.free_curls_ = [] ∧
      (∀ c, (HTTPConnection.new NULL).options c = []) ∧
      (HTTPConnection.new NULL).trace =
        [lock, unlock, easy_init NULL, NewCurl_returns NULL, Release_called NULL] := by
    refine ⟨by decide, fun c => ?_, by decide⟩
    simp [HTTPConnection.new, CurlFreelist.new, NewCurl, curl_easy_init, World.log, Release]
  have ht0 : ∀ e ∈ (HTTPConnection.new NULL).trace, e = lock ∨ e = unlock ∨
      e = easy_init NULL ∨ e = NewCurl_returns NULL ∨ e = Release_called NULL := by
    rw [h0.2.2]
    intro e he
    simp at he
    rcases he with h | h | h | h | h <;> simp [h]
  have hh := request_history_no_handle calls (HTTPConnection.new NULL) h0.1 h0.2.1 ht0 hnull
  have hall : ∀ w ∈ HTTPConnection.new NULL :: request_history calls (HTTPConnection.new NULL),
      w.freelist.free_curls_ = [] ∧ (∀ c, w.options c = []) ∧
      ∀ e ∈ w.trace, e = lock ∨ e = unlock ∨ e = easy_init NULL ∨ e = NewCurl_returns NULL ∨
        e = Release_called NULL := by
    intro w hw
    simp only [List.mem_cons] at hw
    rcases hw with rfl | hw
    · exact ⟨h0.1, h0.2.1, ht0⟩
    · exact hh.2 w hw
  refine ⟨h0.2.2, hh.1, hall, ?_, ?_⟩
  · intro request x w hw hx
    rw [BlockingRequest_no_handle request x w (hall w hw).1 hx]
  · intro w
    rw [Release_null]
    simp [World.log]

/-- Witness of C12: a GET and a request with an invalid method value on a connection whose
engine never creates a handle. -/
theorem C12_engine_failure_witness :
    (∀ c ∈ [(get_items, exchange_no_handle), (bad_method_items, exchange_no_handle)],
      c.2.init = NULL) ∧
    (request_history [(get_items, exchange_no_handle), (bad_method_items, exchange_no_handle)]
      (HTTPConnection.new NULL)).length = 2 :=
  ⟨by decide,
   (C12_engine_failure [(get_items, exchange_no_handle), (bad_method_items, exchange_no_handle)]
      (by decide)).2.1⟩

theorem configure_method_invalid (h : CURL) (request : HTTPRequest) (w : World)
    (hm : ¬ (request.type_ = GET ∨ request.type_ = POST ∨ request.type_ = PUT ∨
      request.type_ = DELETE)) :
    configure_method h request w = none := by
  simp only [not_or] at hm
  simp [configure_method, hm.1, hm.2.1, hm.2.2.1, hm.2.2.2]

/-- C13 (an invalid method aborts before any network call): for every request whose method
value is none of GET, POST, PUT, DELETE, when `NewCurl` yields a non-null handle,
`BlockingRequest` ends in the fatal log of the default branch: it returns no response, and after
the return of `NewCurl` the only events are the three option calls made before the switch (URL
and the write callback with its buffer), so `curl_easy_perform` is never called. -/
theorem C13_invalid_method_aborts (request : HTTPRequest) (x : Exchange) (w : World)
    (hm : ¬ (request.type_ = GET ∨ request.type_ = POST ∨ request.type_ = PUT ∨
      request.type_ = DELETE))
    (hnn : (NewCurl x.init w).1 ≠ NULL) :
    (BlockingRequest request x w).1 = Outcome.fatal ∧
    (∀ r, (BlockingRequest request x w).1 ≠ Outcome.returned r) ∧
    (BlockingRequest request x w).2.trace =
      (NewCurl x.init w).2.trace ++
        [easy_setopt (NewCurl x.init w).1 (.URL (c_str request.url_.path_)),
         easy_setopt (NewCurl x.init w).1 .WRITEFUNCTION,
         easy_setopt (NewCurl x.init w).1 .WRITEDATA] ∧
    (∀ e ∈ events_since w.trace.length (BlockingRequest request x w).2,
      ∀ c o u r, e ≠ easy_perform c o u r) := by
  rcases hN : NewCurl x.init w with ⟨h, w1⟩
  rw [hN] at hnn
  simp only [] at hnn
  have hb : BlockingRequest request x w = (.fatal,
      curl_easy_setopt h .WRITEDATA (curl_easy_setopt h .WRITEFUNCTION
        (curl_easy_setopt h (.URL (c_str request.url_.path_)) w1))) := by
    simp [BlockingRequest, LOG_FATAL, hN, hnn, configure_method_invalid h request _ hm]
  obtain ⟨pre, hpre, hpre2, _⟩ := NewCurl_trace x.init w
  rw [hN] at hpre
  simp only [] at hpre
  rw [hb]
  refine ⟨rfl, fun r hr => Outcome.noConfusion hr, ?_, ?_⟩
  · simp [curl_easy_setopt, World.log, World.set_options]
  · intro e he c o u r hper
    simp only [events_since, curl_easy_setopt, World.log, World.set_options, hpre,
      List.append_assoc, List.drop_left] at he
    rcases List.mem_append.mp he with h1 | h1
    · have := (hpre2 e h1).2
      rw [hper] at this
      simp [Event.isRequestUse] at this
    · rw [hper] at h1
      simp at h1

/-- Witness of C13: a request with method value 7 on a connection with one idle handle. -/
theorem C13_invalid_method_aborts_witness :
    (¬ (bad_method_items.type_ = GET ∨ bad_method_items.type_ = POST ∨
        bad_method_items.type_ = PUT ∨ bad_method_items.type_ = DELETE) ∧
      (NewCurl exchange_200.init (HTTPConnection.new 5)).1 ≠ NULL) ∧
    (BlockingRequest bad_method_items exchange_200 (HTTPConnection.new 5)).1 = Outcome.fatal :=
  ⟨⟨by decide, by decide⟩,
   (C13_invalid_method_aborts bad_method_items exchange_200 (HTTPConnection.new 5) (by decide)
      (by decide)).1⟩

/-! ## The header map -/

theorem string_lt_irrefl (a : string) : string_lt a a = false := by
  induction a with
  | nil => rfl
  | cons c cs ih => simp [string_lt, ih]

theorem string_lt_asymm : ∀ a b : string, string_lt a b = true → string_lt b a = false := by
  intro a
  induction a with
  | nil => intro b _; cases b <;> rfl
  | cons c cs ih =>
    intro b h
    cases b with
    | nil => simp [string_lt] at h
    | cons d ds =>
      simp only [string_lt] at h ⊢
      by_cases h1 : c < d
      · simp [h1, lt_asymm h1]
      · by_cases h2 : d < c
        · simp [h1, h2] at h
        · simp only [h1, h2, if_false] at h ⊢
          exact ih ds h

theorem string_lt_trans : ∀ a b c : string,
    string_lt a b = true → string_lt b c = true → string_lt a c = true := by
  intro a
  induction a with
  | nil =>
    intro b c h1 h2
    cases b with
    | nil => simp [string_lt] at h1
    | cons d ds =>
      cases c with
      | nil => simp [string_lt] at h2
      | cons e es => rfl
  | cons x xs ih =>
    intro b c h1 h2
    cases b with
    | nil => simp [string_lt] at h1
    | cons y ys =>
      cases c with
      | nil => simp [string_lt] at h2
      | cons z zs =>
        simp only [string_lt] at h1 h2 ⊢
        by_cases hxy : x < y
        · by_cases hyz : y < z
          · simp [lt_trans hxy hyz]
          · by_cases hzy : z < y
            · simp [hyz, hzy] at h2
            · have : y = z := le_antisymm (not_lt.mp hzy) (not_lt.mp hyz)
              subst this
              simp [hxy]
        · by_cases hyx : y < x
          · simp [hxy, hyx] at h1
          · have hxe : x = y := le_antisymm (not_lt.mp hyx) (not_lt.mp hxy)
            subst hxe
            simp only [hxy, if_false] at h1
            by_cases hyz : x < z
            · simp [hyz]
            · by_cases hzy : z < x
              · simp [hyz, hzy] at h2
              · simp only [hyz, hzy, if_false] at h2 ⊢
                exact ih ys zs h1 h2

theorem string_lt_total : ∀ a b : string,
    string_lt a b = false → string_lt b a = false → a = b := by
  intro a
  induction a with
  | nil =>
    intro b h1 _
    cases b with
    | nil => rfl
    | cons d ds => simp [string_lt] at h1
  | cons x xs ih =>
    intro b h1 h2
    cases b with
    | nil => simp [string_lt] at h2
    | cons y ys =>
      simp only [string_lt] at h1 h2
      by_cases hxy : x < y
      · simp [hxy] at h1
      · by_cases hyx : y < x
        · simp [hyx] at h2
        · have hxe : x = y := le_antisymm (not_lt.mp hyx) (not_lt.mp hxy)
          subst hxe
          simp only [hxy, if_false] at h1 h2
          rw [ih ys h1 h2]

theorem key_equiv_iff (a b : string) : key_equiv a b = true ↔ a = b := by
  constructor
  · intro h
    simp only [key_equiv, Bool.and_eq_true, Bool.not_eq_true'] at h
    exact string_lt_total a b h.1 h.2
  · intro h
    subst h
    simp [key_equiv, string_lt_irrefl]

theorem map_find_assign_same (key value : string) (l : List (string × string)) :
    map_find key (map_assign key value l) = some (key, value) := by
  induction l with
  | nil => simp [map_assign, map_find, (key_equiv_iff key key).mpr rfl]
  | cons e rest ih =>
    obtain ⟨k, v⟩ := e
    simp only [map_assign]
    by_cases h1 : string_lt key k = true
    · simp [h1, map_find, (key_equiv_iff key key).mpr rfl]
    · by_cases h2 : string_lt k key = true
      · have hne : key_equiv key k = false := by
          simp [key_equiv, h2]
        simp [h1, h2, map_find, hne, ih]
      · have heq : key = k :=
          string_lt_total key k (by simpa using h1) (by simpa using h2)
        subst heq
        simp [h1, map_find, (key_equiv_iff key key).mpr rfl]

theorem map_find_assign_other (key value key2 : string) (hne : key2 ≠ key)
    (l : List (string × string)) :
    map_find key2 (map_assign key value l) = map_find key2 l := by
  have hk : key_equiv key2 key = false := by
    cases h : key_equiv key2 key
    · rfl
    · exact absurd ((key_equiv_iff _ _).mp h) hne
  induction l with
  | nil => simp [map_assign, map_find, hk]
  | cons e rest ih =>
    obtain ⟨k, v⟩ := e
    simp only [map_assign]
    by_cases h1 : string_lt key k = true
    · simp [h1, map_find, hk]
    · by_cases h2 : string_lt k key = true
      · simp [h1, h2, map_find, ih]
      · have heq : key = k :=
          string_lt_total key k (by simpa using h1) (by simpa using h2)
        subst heq
        simp [h1, map_find, hk]

theorem map_find_erase_same (key : string) (l : List (string × string)) :
    map_find key (map_erase key l) = none := by
  induction l with
  | nil => rfl
  | cons e rest ih =>
    obtain ⟨k, v⟩ := e
    simp only [map_erase]
    by_cases h : key_equiv key k = true
    · simp [h, ih]
    · simp [h, map_find, ih]

theorem map_find_erase_other (key key2 : string) (hne : key2 ≠ key)
    (l : List (string × string)) :
    map_find key2 (map_erase key l) = map_find key2 l := by
  induction l with
  | nil => rfl
  | cons e rest ih =>
    obtain ⟨k, v⟩ := e
    simp only [map_erase]
    by_cases h : key_equiv key k = true
    · have hk : key = k := (key_equiv_iff _ _).mp h
      subst hk
      have hk2 : key_equiv key2 key = false := by
        cases h2 : key_equiv key2 key
        · rfl
        · exact absurd ((key_equiv_iff _ _).mp h2) hne
      simp [h, map_find, hk2, ih]
    · simp [h, map_find, ih]

theorem map_find_absent (key : string) (l : List (string × string))
    (h : key ∉ l.map Prod.fst) : map_find key l = none := by
  induction l with
  | nil => rfl
  | cons e rest ih =>
    obtain ⟨k, v⟩ := e
    simp only [List.map_cons, List.mem_cons, not_or] at h
    have hk : key_equiv key k = false := by
      cases h2 : key_equiv key k
      · rfl
      · exact absurd ((key_equiv_iff _ _).mp h2) h.1
    simp [map_find, hk, ih h.2]

theorem map_assign_keys (key value : string) (l : List (string × string)) :
    ∀ k ∈ (map_assign key value l).map Prod.fst, k = key ∨ k ∈ l.map Prod.fst := by
  induction l with
  | nil => intro k hk; simp [map_assign] at hk; exact Or.inl hk
  | cons e rest ih =>
    obtain ⟨k0, v0⟩ := e
    intro k hk
    simp only [map_assign] at hk
    cases h1 : string_lt key k0 with
    | true =>
      simp only [h1, if_true, List.map_cons, List.mem_cons] at hk
      rcases hk with h | h | h
      · exact Or.inl h
      · exact Or.inr (by simp [h])
      · exact Or.inr (by simp only [List.map_cons, List.mem_cons]; exact Or.inr h)
    | false =>
      cases h2 : string_lt k0 key with
      | true =>
        simp only [h1, h2, if_true, Bool.false_eq_true, if_false, List.map_cons,
          List.mem_cons] at hk
        rcases hk with h | h
        · exact Or.inr (by simp [h])
        · rcases ih k h with h3 | h3
          · exact Or.inl h3
          · exact Or.inr (by simp only [List.map_cons, List.mem_cons]; exact Or.inr h3)
      | false =>
        simp only [h1, h2, Bool.false_eq_true, if_false, List.map_cons, List.mem_cons] at hk
        exact Or.inr (by simpa using hk)

theorem map_assign_ordered (key value : string) (l : List (string × string))
    (h : l.Pairwise fun a b => string_lt a.1 b.1 = true) :
    (map_assign key value l).Pairwise fun a b => string_lt a.1 b.1 = true := by
  induction l with
  | nil => simp [map_assign]
  | cons e rest ih =>
    obtain ⟨k0, v0⟩ := e
    rw [List.pairwise_cons] at h
    simp only [map_assign]
    cases h1 : string_lt key k0 with
    | true =>
      simp only [if_true]
      rw [List.pairwise_cons]
      refine ⟨?_, List.pairwise_cons.mpr h⟩
      intro b hb
      simp only [List.mem_cons] at hb
      rcases hb with rfl | hb
      · exact h1
      · exact string_lt_trans _ _ _ h1 (h.1 b hb)
    | false =>
      cases h2 : string_lt k0 key with
      | true =>
        simp only [if_true, Bool.false_eq_true, if_false]
        rw [List.pairwise_cons]
        refine ⟨?_, ih h.2⟩
        intro b hb
        have hbk : b.1 ∈ (map_assign key value rest).map Prod.fst := List.mem_map_of_mem _ hb
        rcases map_assign_keys key value rest b.1 hbk with h3 | h3
        · rw [h3]; exact h2
        · obtain ⟨b2, hb2, hb3⟩ := List.mem_map.mp h3
          rw [← hb3]
          exact h.1 b2 hb2
      | false =>
        simp only [Bool.false_eq_true, if_false]
        rw [List.pairwise_cons]
        exact ⟨fun b hb => h.1 b hb, h.2⟩

theorem map_erase_sublist (key : string) (l : List (string × string)) :
    (map_erase key l).Sublist l := by
  induction l with
  | nil => exact List.Sublist.slnil
  | cons e rest ih =>
    obtain ⟨k0, v0⟩ := e
    simp only [map_erase]
    split
    · exact ih.cons _
    · exact ih.cons₂ _

theorem ordered_keys_nodup (l : List (string × string))
    (h : l.Pairwise fun a b => string_lt a.1 b.1 = true) : (l.map Prod.fst).Nodup := by
  rw [List.Nodup, List.pairwise_map]
  refine h.imp ?_
  intro a b hab heq
  rw [heq, string_lt_irrefl] at hab
  exact Bool.noConfusion hab

theorem map_assign_mem_key (key value : string) (l : List (string × string)) :
    key ∈ (map_assign key value l).map Prod.fst := by
  induction l with
  | nil => simp [map_assign]
  | cons e rest ih =>
    obtain ⟨k0, v0⟩ := e
    simp only [map_assign]
    cases h1 : string_lt key k0 with
    | true => simp
    | false =>
      cases h2 : string_lt k0 key with
      | true =>
        simp only [if_true, Bool.false_eq_true, if_false, List.map_cons, List.mem_cons]
        exact Or.inr ih
      | false =>
        have heq : key = k0 := string_lt_total key k0 h1 h2
        simp [heq]

/-- C15 (header map laws): for every header map `m` (a `std::map`, so its keys are strictly
increasing) and all strings `k`, `k2`, `v`: after `Set(k, v)`, `Get(k)` is `v` and the map holds
exactly one entry for `k` (`k` is among the keys and no key occurs twice); `Get(k2)` is
unchanged for every `k2` that is a different string (keys are compared character by
character, so letter case matters); `Get` of an absent key
(not among the keys, in the empty map, or just removed by `Erase`) is the empty string;
`Erase(k)` leaves the value of every other key unchanged; and `Set` and `Erase` keep the keys
strictly increasing. -/
theorem C15_header_map_laws (m : HTTPHeaders) (k k2 v : string) (hord : m.ordered) :
    (m.Set k v).Get k = v ∧
    (k ∈ (m.Set k v).keys ∧ (m.Set k v).keys.Nodup) ∧
    (k2 ≠ k → (m.Set k v).Get k2 = m.Get k2) ∧
    (k ∉ m.keys → m.Get k = []) ∧
    HTTPHeaders.new.Get k = [] ∧
    (m.Erase k).Get k = [] ∧
    (k2 ≠ k → (m.Erase k).Get k2 = m.Get k2) ∧
    (m.Set k v).ordered ∧ (m.Erase k).ordered ∧ HTTPHeaders.new.ordered := by
  refine ⟨?_, ?_, ?_, ?_, ?_, ?_, ?_, ?_, ?_, ?_⟩
  · simp [HTTPHeaders.Get, HTTPHeaders.Set, map_find_assign_same]
  · exact ⟨map_assign_mem_key k v m.headers_,
      ordered_keys_nodup _ (map_assign_ordered k v m.headers_ hord)⟩
  · intro hne
    simp [HTTPHeaders.Get, HTTPHeaders.Set, map_find_assign_other k v k2 hne]
  · intro habs
    simp [HTTPHeaders.Get, map_find_absent k m.headers_ habs]
  · rfl
  · simp [HTTPHeaders.Get, HTTPHeaders.Erase, map_find_erase_same]
  · intro hne
    simp [HTTPHeaders.Get, HTTPHeaders.Erase, map_find_erase_other k k2 hne]
  · exact map_assign_ordered k v m.headers_ hord
  · exact List.Pairwise.sublist (map_erase_sublist k m.headers_) hord
  · exact List.Pairwise.nil

/-- Witness of C15: in the empty map, `Content-Type` is set; the key `content-type`, which
differs in letter case only, still has no value. -/
theorem C15_header_map_laws_witness :
    HTTPHeaders.new.ordered ∧
    ("content-type".toList ≠ "Content-Type".toList →
      ((HTTPHeaders.new.Set "Content-Type".toList "text/plain".toList).Get
        "content-type".toList) = HTTPHeaders.new.Get "content-type".toList) ∧
    (HTTPHeaders.new.Set "Content-Type".toList "text/plain".toList).Get "content-type".toList
      = [] ∧
    (HTTPHeaders.new.Set "Content-Type".toList "text/plain".toList).Get "Content-Type".toList
      = "text/plain".toList :=
  ⟨List.Pairwise.nil,
   (C15_header_map_laws HTTPHeaders.new "Content-Type".toList "content-type".toList
      "text/plain".toList List.Pairwise.nil).2.2.1,
   by decide, by decide⟩

/-! ## The header list of a request -/

theorem header_lines_foldl (entries : List (string × string)) :
    ∀ acc : List string,
      entries.foldl
          (fun list it => curl_slist_append list (c_str (it.1 ++ ": ".toList ++ it.2))) acc =
        acc ++ entries.map (fun it => c_str (it.1 ++ ": ".toList ++ it.2)) := by
  induction entries with
  | nil => intro acc; simp
  | cons e rest ih =>
    intro acc
    rw [List.foldl_cons, ih]
    simp [curl_slist_append]

theorem header_lines_eq (headers : HTTPHeaders) :
    header_lines headers =
      headers.headers_.map (fun it => c_str (it.1 ++ ": ".toList ++ it.2)) := by
  unfold header_lines
  rw [header_lines_foldl]
  simp

theorem c_str_eq_self (s : string) (h : Char.ofNat 0 ∉ s) : c_str s = s := by
  unfold c_str
  rw [List.takeWhile_eq_self_iff]
  intro c hc
  simp only [bne_iff_ne, ne_eq]
  intro e
  exact h (e ▸ hc)

theorem c_str_line (name value : string) (h1 : Char.ofNat 0 ∉ name)
    (h2 : Char.ofNat 0 ∉ value) :
    c_str (name ++ ": ".toList ++ value) = name ++ ": ".toList ++ value := by
  apply c_str_eq_self
  intro hm
  simp only [List.mem_append] at hm
  rcases hm with (hm | hm) | hm
  · exact h1 hm
  · revert hm; decide
  · exact h2 hm

theorem configure_method_headerless (h : CURL) (request : HTTPRequest) (w w2 : World)
    (hc : configure_method h request w = some w2) :
    (∃ evs, w2.trace = w.trace ++ evs ∧ ∀ e ∈ evs, e.isHeaderList = false) ∧
    (∃ os, w2.options h = w.options h ++ os ∧ ∀ o ∈ os, ∀ l, o ≠ CURLoption.HTTPHEADER l) := by
  unfold configure_method at hc
  split at hc
  · simp at hc; subst hc; exact ⟨⟨[], by simp, by simp⟩, ⟨[], by simp, by simp⟩⟩
  · split at hc
    · simp at hc; subst hc
      exact ⟨⟨[easy_setopt h (.POST 1), easy_setopt h (.POSTFIELDS request.content_),
        easy_setopt h (.POSTFIELDSIZE request.content_.length)],
        by simp [curl_easy_setopt, World.log, World.set_options],
        by simp [Event.isHeaderList]⟩,
        ⟨[.POST 1, .POSTFIELDS request.content_, .POSTFIELDSIZE request.content_.length],
        by simp [curl_easy_setopt, World.log, World.set_options], by simp⟩⟩
    · split at hc
      · simp at hc; subst hc
        exact ⟨⟨[easy_setopt h (.UPLOAD 1), easy_setopt h (.PUT 1),
          easy_setopt h (.INFILESIZE request.content_.length), easy_setopt h .READFUNCTION,
          easy_setopt h .READDATA],
          by simp [curl_easy_setopt, World.log, World.set_options],
          by simp [Event.isHeaderList]⟩,
          ⟨[.UPLOAD 1, .PUT 1, .INFILESIZE request.content_.length, .READFUNCTION, .READDATA],
          by simp [curl_easy_setopt, World.log, World.set_options], by simp⟩⟩
      · split at hc
        · simp at hc; subst hc
          exact ⟨⟨[easy_setopt h (.CUSTOMREQUEST "DELETE".toList)],
            by simp [curl_easy_setopt, World.log, World.set_options],
            by simp [Event.isHeaderList]⟩,
            ⟨[.CUSTOMREQUEST "DELETE".toList],
            by simp [curl_easy_setopt, World.log, World.set_options], by simp⟩⟩
        · simp at hc

theorem BlockingRequest_eq_finish (request : HTTPRequest) (x : Exchange) (w w1 w4 : World)
    (h : CURL) (hN : NewCurl x.init w = (h, w1)) (hnn : h ≠ NULL)
    (hcm : configure_method h request (curl_easy_setopt h .WRITEDATA
      (curl_easy_setopt h .WRITEFUNCTION
        (curl_easy_setopt h (.URL (c_str request.url_.path_)) w1))) =
      some w4) :
    BlockingRequest request x w =
      BlockingRequest_finish request x h
        (if header_lines request.headers_ ≠ [] then
          curl_easy_setopt h (.HTTPHEADER (header_lines request.headers_)) w4 else w4) := by
  simp only [BlockingRequest, BlockingRequest_finish, hN, hnn, hcm, if_false]

theorem BlockingRequest_finish_events (request : HTTPRequest) (x : Exchange) (h : CURL)
    (w : World) :
    ∃ uploaded post,
      (BlockingRequest_finish request x h w).2.trace =
        w.trace ++ easy_perform h (w.options h) uploaded x.result :: post ∧
      (∀ e ∈ post, e.isHeaderList = false) := by
  have hP : ∀ (p : PutData) (o : string) (w3 : World),
      (curl_easy_perform h x p o w3).1 = x.result := fun p o w3 =>
    (Configured.perform h x p o w3).2
  have hT : ∀ (p : PutData) (o : string),
      (curl_easy_perform h x p o w).2.2.2.trace = w.trace ++ [easy_perform h (w.options h)
        (if CURLoption.READFUNCTION ∈ w.options h then put_calls x.reads p
          else ([], [], p)).1.flatten x.result] := by
    intro p o
    simp only [curl_easy_perform, World.log]
  have hR : ∀ e : Event, e.isRequestUse = false → e.isHeaderList = false := by
    intro e he
    cases e <;> simp [Event.isHeaderList, Event.isRequestUse] at he ⊢
  by_cases hr : x.result = CURLE_OK
  · obtain ⟨postR, hpostR, hpostR2⟩ := Release_trace h (curl_easy_getinfo h x
      (curl_easy_perform h x (PutData.new request.content_) [] w).2.2.2).2
    refine ⟨(if CURLoption.READFUNCTION ∈ w.options h then
      put_calls x.reads (PutData.new request.content_)
      else ([], [], PutData.new request.content_)).1.flatten,
      easy_getinfo h :: Release_called h :: postR, ?_, ?_⟩
    · simp only [BlockingRequest_finish, hP, hr, ne_eq, not_true_eq_false, if_false, hpostR]
      simp only [curl_easy_getinfo, World.log, hT]
      simp
      exact hr
    · intro e he
      simp only [List.mem_cons] at he
      rcases he with rfl | rfl | he
      · rfl
      · rfl
      · exact hR e (hpostR2 e he).2
  · obtain ⟨postR, hpostR, hpostR2⟩ := Release_trace h
      (curl_easy_perform h x (PutData.new request.content_) [] w).2.2.2
    refine ⟨(if CURLoption.READFUNCTION ∈ w.options h then
      put_calls x.reads (PutData.new request.content_)
      else ([], [], PutData.new request.content_)).1.flatten,
      Release_called h :: postR, ?_, ?_⟩
    · simp only [BlockingRequest_finish, hP, hr, ne_eq, not_false_eq_true, if_true, hpostR]
      simp only [hT]
      simp
    · intro e he
      simp only [List.mem_cons] at he
      rcases he with rfl | he
      · rfl
      · exact hR e (hpostR2 e he).2

/-- C14, amended (header serialization): the header list built by `BlockingRequest` has
exactly one line per entry of the header map, in the order of the map (its key order), and
nothing else; each line is the C string of `name ++ ": " ++ value`, that is, cut at its first
NUL character, so it equals `name ++ ": " ++ value` whenever names and values hold no NUL.
For a request with one of the four methods on a non-null handle: when the map is not empty,
that list is attached by one `CURLOPT_HTTPHEADER` call right before `curl_easy_perform`, and
it is the last option in force during the transfer; when the map is empty no header list is
attached; no other event of the call attaches a header list, and no other option set by the
call is a header list. -/
theorem C14_header_serialization (request : HTTPRequest) (x : Exchange) (w : World)
    (hm : request.type_ = GET ∨ request.type_ = POST ∨ request.type_ = PUT ∨
      request.type_ = DELETE)
    (hnn : (NewCurl x.init w).1 ≠ NULL) :
    header_lines request.headers_ =
      request.headers_.headers_.map (fun it => c_str (it.1 ++ ": ".toList ++ it.2)) ∧
    ((∀ it ∈ request.headers_.headers_, Char.ofNat 0 ∉ it.1 ∧ Char.ofNat 0 ∉ it.2) →
      header_lines request.headers_ =
        request.headers_.headers_.map (fun it => it.1 ++ ": ".toList ++ it.2)) ∧
    ∃ pre mid uploaded post,
      events_since w.trace.length (BlockingRequest request x w).2 =
        pre ++
          (if request.headers_.headers_ ≠ [] then
            [easy_setopt (NewCurl x.init w).1 (.HTTPHEADER (header_lines request.headers_))]
           else []) ++
          easy_perform (NewCurl x.init w).1
            ((NewCurl x.init w).2.options (NewCurl x.init w).1 ++ mid ++
              (if request.headers_.headers_ ≠ [] then
                [.HTTPHEADER (header_lines request.headers_)] else []))
            uploaded x.result :: post ∧
      (∀ e ∈ pre, e.isHeaderList = false) ∧
      (∀ e ∈ post, e.isHeaderList = false) ∧
      (∀ o ∈ mid, ∀ l, o ≠ CURLoption.HTTPHEADER l) := by
  refine ⟨header_lines_eq request.headers_, ?_, ?_⟩
  · intro hnul
    rw [header_lines_eq]
    apply List.map_congr_left
    intro it hit
    exact c_str_line it.1 it.2 (hnul it hit).1 (hnul it hit).2
  have hiff : header_lines request.headers_ = [] ↔ request.headers_.headers_ = [] := by
    rw [header_lines_eq]
    exact List.map_eq_nil_iff
  obtain ⟨preN, hpreN, hpreN2, _⟩ := NewCurl_trace x.init w
  rcases hN : NewCurl x.init w with ⟨h, w1⟩
  rw [hN] at hnn hpreN
  simp only [] at hnn hpreN ⊢
  obtain ⟨w4, hcm⟩ := configure_method_valid h request (curl_easy_setopt h .WRITEDATA
    (curl_easy_setopt h .WRITEFUNCTION
      (curl_easy_setopt h (.URL (c_str request.url_.path_)) w1))) hm
  obtain ⟨⟨evsM, hM, hM2⟩, ⟨osM, hO, hO2⟩⟩ := configure_method_headerless h request _ w4 hcm
  have hM3 : w4.trace = w.trace ++ (preN ++ [easy_setopt h (.URL (c_str request.url_.path_)),
      easy_setopt h .WRITEFUNCTION, easy_setopt h .WRITEDATA] ++ evsM) := by
    rw [hM]
    simp [curl_easy_setopt, World.log, World.set_options, hpreN]
  have hO3 : w4.options h = w1.options h ++
      ([CURLoption.URL (c_str request.url_.path_), .WRITEFUNCTION, .WRITEDATA] ++ osM) := by
    rw [hO]
    simp [curl_easy_setopt, World.log, World.set_options]
  have hpre : ∀ e ∈ preN ++ [easy_setopt h (.URL (c_str request.url_.path_)),
      easy_setopt h .WRITEFUNCTION, easy_setopt h .WRITEDATA] ++ evsM,
      e.isHeaderList = false := by
    intro e he
    simp only [List.mem_append] at he
    rcases he with (he | he) | he
    · have h1 := (hpreN2 e he).2
      cases e <;> simp [Event.isHeaderList, Event.isRequestUse] at h1 ⊢
    · simp at he
      rcases he with rfl | rfl | rfl <;> simp [Event.isHeaderList]
    · exact hM2 e he
  have hmid : ∀ o ∈ [CURLoption.URL (c_str request.url_.path_), .WRITEFUNCTION, .WRITEDATA] ++
      osM, ∀ l, o ≠ CURLoption.HTTPHEADER l := by
    intro o ho l
    simp only [List.mem_append] at ho
    rcases ho with ho | ho
    · simp at ho
      rcases ho with rfl | rfl | rfl <;> simp
    · exact hO2 o ho l
  rw [BlockingRequest_eq_finish request x w w1 w4 h hN hnn hcm]
  by_cases hl : request.headers_.headers_ = []
  · have hl2 := hiff.mpr hl
    obtain ⟨uploaded, post, hev, hpost⟩ := BlockingRequest_finish_events request x h w4
    refine ⟨_, _, uploaded, post, ?_, hpre, hpost, hmid⟩
    simp only [hl2, ne_eq, not_true_eq_false, if_false, events_since, hev, hM3, hO3, hl,
      List.append_assoc, List.drop_left, List.append_nil, List.nil_append]
  · have hl2 : header_lines request.headers_ ≠ [] := fun e => hl (hiff.mp e)
    obtain ⟨uploaded, post, hev, hpost⟩ := BlockingRequest_finish_events request x h
      (curl_easy_setopt h (.HTTPHEADER (header_lines request.headers_)) w4)
    refine ⟨_, _, uploaded, post, ?_, hpre, hpost, hmid⟩
    simp only [hl2, ne_eq, not_false_eq_true, if_true, events_since, hev, hl]
    simp only [curl_easy_setopt, World.log, World.set_options, hM3, hO3, if_true,
      List.append_assoc, List.drop_left, List.singleton_append]

/-- Witness of C14: the POST scenario, whose header map holds `Content-Type` only. -/
theorem C14_header_serialization_witness :
    ((post_items.type_ = GET ∨ post_items.type_ = POST ∨ post_items.type_ = PUT ∨
        post_items.type_ = DELETE) ∧
      (NewCurl exchange_201.init (HTTPConnection.new 5)).1 ≠ NULL ∧
      (∀ it ∈ post_items.headers_.headers_, Char.ofNat 0 ∉ it.1 ∧ Char.ofNat 0 ∉ it.2)) ∧
    header_lines post_items.headers_ = ["Content-Type: application/json".toList] ∧
    header_lines post_items.headers_ =
      post_items.headers_.headers_.map (fun it => it.1 ++ ": ".toList ++ it.2) :=
  ⟨⟨Or.inr (Or.inl rfl), by decide, by decide⟩, by decide,
   (C14_header_serialization post_items exchange_201 (HTTPConnection.new 5)
      (Or.inr (Or.inl rfl)) (by decide)).2.1 (by decide)⟩

/-- Counterexample to C14 as stated: a GET (valid method) on the idle handle 5 of a new
connection, with the header `X` whose value is `a`, NUL, `b`.  The one line attached to the
handle is `X: a`, which is not `name ++ ": " ++ value`. -/
theorem C14_header_serialization_counterexample :
    (nul_header_items.type_ = GET ∧
      (NewCurl exchange_200.init (HTTPConnection.new 5)).1 = 5) ∧
    header_lines nul_header_items.headers_ = ["X: a".toList] ∧
    easy_setopt 5 (.HTTPHEADER ["X: a".toList]) ∈
      (BlockingRequest nul_header_items exchange_200 (HTTPConnection.new 5)).2.trace ∧
    ¬ (header_lines nul_header_items.headers_ =
      nul_header_items.headers_.headers_.map (fun it => it.1 ++ ": ".toList ++ it.2)) := by
  decide

/-! ## Draining the pool -/

theorem events_since_append (w w2 : World) (evs : List Event)
    (h : w2.trace = w.trace ++ evs) : events_since w.trace.length w2 = evs := by
  simp [events_since, h]

theorem loop_closed (size : Int) (fuel : Nat) (w : World)
    (hfuel : w.freelist.free_curls_.length - size_t_of_int size ≤ fuel) :
    ResizeFreelist_loop size fuel w =
      { freelist := { max_size_ := w.freelist.max_size_,
                      free_curls_ := w.freelist.free_curls_.take (size_t_of_int size) },
        options := w.options,
        trace := w.trace ++
          drain_events (w.freelist.free_curls_.drop (size_t_of_int size)).reverse } := by
  by_cases h : w.freelist.free_curls_.length ≤ size_t_of_int size
  · rw [loop_noop size fuel w h]
    simp [List.take_of_length_le h, List.drop_of_length_le h, drain_events]
  · rw [loop_drain size (w.freelist.free_curls_.drop (size_t_of_int size)).reverse fuel w
      (w.freelist.free_curls_.take (size_t_of_int size))
      (by simp) (by simp [List.length_take]; omega) (by simpa using hfuel)]

/-- C17 (drain): for an idle vector of `n` handles and a target `size` with
`0 ≤ size` (an `int`), `ResizeFreelist(size)` terminates (any number of iterations from `n` on
gives the same result, and the loop condition is false at the end), leaves the first
`min(n, size)` entries in their order, and disposes exactly the removed ones, each once, the
last one (the most recently released) first; every removed handle is popped under the lock and
disposed with the lock released; no option and not the capacity changes.  The destructor
(`size = 0`) leaves no idle handle and disposes every idle handle exactly once. -/
theorem C17_drain (size : Int) (w : World) (h0 : 0 ≤ size) (h1 : size < 2 ^ 31) :
    (ResizeFreelist size w).freelist.free_curls_ = w.freelist.free_curls_.take size.toNat ∧
    (ResizeFreelist size w).freelist.free_curls_.length =
      min w.freelist.free_curls_.length size.toNat ∧
    (ResizeFreelist size w).trace =
      w.trace ++ [lock] ++ drain_events (w.freelist.free_curls_.drop size.toNat).reverse ++
        [unlock] ∧
    disposed (events_since w.trace.length (ResizeFreelist size w)) =
      (w.freelist.free_curls_.drop size.toNat).reverse ∧
    (disposed (events_since w.trace.length (ResizeFreelist size w))).length =
      w.freelist.free_curls_.length - min w.freelist.free_curls_.length size.toNat ∧
    (∀ h, (disposed (events_since w.trace.length (ResizeFreelist size w))).count h =
      (w.freelist.free_curls_.drop size.toNat).count h) ∧
    (∀ fuel, w.freelist.free_curls_.length ≤ fuel →
      ResizeFreelist_loop size fuel (w.log lock) =
        ResizeFreelist_loop size w.freelist.free_curls_.length (w.log lock)) ∧
    ¬ ((ResizeFreelist size w).freelist.free_curls_.length > size_t_of_int size) ∧
    (ResizeFreelist size w).options = w.options ∧
    (ResizeFreelist size w).freelist.max_size_ = w.freelist.max_size_ ∧
    (CurlFreelist.destroy w).freelist.free_curls_ = [] ∧
    disposed (events_since w.trace.length (CurlFreelist.destroy w)) =
      w.freelist.free_curls_.reverse := by
  have ht : size_t_of_int size = size.toNat := by
    have := size_t_of_int_eq size h0 h1
    omega
  have hev : events_since w.trace.length (ResizeFreelist size w) =
      [lock] ++ drain_events (w.freelist.free_curls_.drop size.toNat).reverse ++ [unlock] := by
    apply events_since_append
    rw [ResizeFreelist_eq, ht]
    simp
  have hd : disposed (events_since w.trace.length (ResizeFreelist size w)) =
      (w.freelist.free_curls_.drop size.toNat).reverse := by
    rw [hev]
    simp [disposed_append, disposed_cons, disposed_nil, disposed_drain]
  refine ⟨?_, ?_, ?_, hd, ?_, ?_, ?_, ?_, ?_, ?_, ?_, ?_⟩
  · rw [ResizeFreelist_eq, ht]
  · rw [ResizeFreelist_eq, ht]
    simp [List.length_take, Nat.min_comm]
  · rw [ResizeFreelist_eq, ht]
  · rw [hd]
    simp [List.length_drop]
    omega
  · intro h
    rw [hd, List.count_reverse]
  · intro fuel hfuel
    rw [loop_closed size fuel (w.log lock) (by simp [World.log]; omega),
      loop_closed size w.freelist.free_curls_.length (w.log lock) (by simp [World.log])]
  · rw [ResizeFreelist_eq]
    simp [List.length_take]
  · rw [ResizeFreelist_eq]
  · rw [ResizeFreelist_eq]
  · simp [CurlFreelist.destroy, ResizeFreelist_eq, size_t_of_int_zero]
  · have hev0 : events_since w.trace.length (CurlFreelist.destroy w) =
        [lock] ++ drain_events w.freelist.free_curls_.reverse ++ [unlock] := by
      apply events_since_append
      simp [CurlFreelist.destroy, ResizeFreelist_eq, size_t_of_int_zero]
    rw [hev0]
    simp [disposed_append, disposed_cons, disposed_nil, disposed_drain]

/-- Witness of C17: three idle handles drained down to one. -/
theorem C17_drain_witness :
    ((0 : Int) ≤ 1 ∧ (1 : Int) < 2 ^ 31) ∧
    (ResizeFreelist 1 { freelist := { max_size_ := 10, free_curls_ := [3, 4, 5] },
                        options := fun _ => [], trace := [] }).freelist.free_curls_ = [3] ∧
    disposed (events_since 0
      (ResizeFreelist 1 { freelist := { max_size_ := 10, free_curls_ := [3, 4, 5] },
                          options := fun _ => [], trace := [] })) = [5, 4] :=
  ⟨⟨by decide, by decide⟩,
   (C17_drain 1 { freelist := { max_size_ := 10, free_curls_ := [3, 4, 5] },
                  options := fun _ => [], trace := [] } (by decide) (by decide)).1,
   (C17_drain 1 { freelist := { max_size_ := 10, free_curls_ := [3, 4, 5] },
                  options := fun _ => [], trace := [] } (by decide) (by decide)).2.2.2.1⟩

/-! ## The lock discipline -/

theorem lock_discipline_drain (r : List CURL) (rest : List Event) :
    lock_discipline true (drain_events r ++ rest) = lock_discipline true rest := by
  induction r with
  | nil => simp [drain_events]
  | cons h r ih =>
    have hd : drain_events (h :: r) = [pop h, unlock, easy_cleanup h, lock] ++ drain_events r := by
      simp [drain_events]
    rw [hd]
    simp only [List.cons_append, List.nil_append, lock_discipline, if_true, Bool.false_eq_true,
      if_false]
    exact ih

/-- C18 (lock discipline): in the events of every `NewCurl`, `Release` and `ResizeFreelist`
call, whatever the state of the pool and the arguments, and starting with the lock not held:
every pop and push happens while the lock is held, every `curl_easy_init` and every
`curl_easy_cleanup` happens while it is not held, a lock is only taken when it is not held and
only released when it is held, and the lock is not held when the operation returns. -/
theorem C18_lock_discipline (w : World) :
    (∀ init : CURL,
      lock_discipline false (events_since w.trace.length (NewCurl init w).2) = some false) ∧
    (∀ curl : CURL,
      lock_discipline false (events_since w.trace.length (Release curl w)) = some false) ∧
    (∀ size : Int,
      lock_discipline false (events_since w.trace.length (ResizeFreelist size w)) =
        some false) := by
  refine ⟨?_, ?_, ?_⟩
  · intro init
    rcases NewCurl_cases init w with ⟨_, he⟩ | ⟨l, h, _, he⟩
    · rw [he, events_since_append w _ [lock, unlock, easy_init init, NewCurl_returns init]
        (by by_cases hi : init = NULL <;>
          simp [curl_easy_init, World.log, World.set_options, hi])]
      simp [lock_discipline]
    · rw [he, events_since_append w _ [lock, pop h, unlock, NewCurl_returns h] rfl]
      simp [lock_discipline]
  · intro curl
    by_cases hc : curl = NULL
    · subst hc
      rw [Release_null, events_since_append w _ [Release_called NULL] (by simp [World.log])]
      simp [lock_discipline]
    · by_cases hlt : w.freelist.free_curls_.length < size_t_of_int w.freelist.max_size_
      · rw [Release_retain curl w hc hlt, events_since_append w _
          [Release_called curl, easy_reset curl, lock, push curl, unlock]
          (by simp [World.log, World.set_free, curl_easy_reset, World.set_options])]
        simp [lock_discipline]
      · rw [Release_dispose curl w hc hlt, events_since_append w _
          [Release_called curl, easy_reset curl, lock, unlock, easy_cleanup curl]
          (by simp [World.log, curl_easy_cleanup, curl_easy_reset, World.set_options])]
        simp [lock_discipline]
  · intro size
    rw [events_since_append w _ (lock ::
      (drain_events (w.freelist.free_curls_.drop (size_t_of_int size)).reverse ++ [unlock]))
      (by rw [ResizeFreelist_eq]; simp)]
    simp only [lock_discipline, Bool.false_eq_true, if_false]
    rw [lock_discipline_drain]
    simp [lock_discipline]

/-! ## Sequential requests on one connection -/

theorem init_calls_append (a b : List Event) :
    init_calls (a ++ b) = init_calls a ++ init_calls b := by
  simp [init_calls, List.filterMap_append]

theorem init_calls_requestUse (evs : List Event) (h : ∀ e ∈ evs, e.isRequestUse = true) :
    init_calls evs = [] ∧ disposed evs = [] := by
  induction evs with
  | nil => exact ⟨rfl, rfl⟩
  | cons e es ih =>
    have he := h e (by simp)
    have ih2 := ih (fun e2 h2 => h e2 (by simp [h2]))
    constructor
    · have : init_calls (e :: es) = init_calls [e] ++ init_calls es := by
        rw [← init_calls_append]; rfl
      rw [this, ih2.1]
      cases e <;> simp [Event.isRequestUse, init_calls] at he ⊢
    · rw [disposed_cons, ih2.2]
      cases e <;> simp [Event.isRequestUse] at he ⊢

theorem amortized_new (init : CURL) (hinit : init ≠ NULL) :
    Amortized init (HTTPConnection.new init) := by
  have hN : NewCurl init (CurlFreelist.new kMaxFreelistSize) =
      (init, ((curl_easy_init init (((CurlFreelist.new kMaxFreelistSize).log lock).log
        unlock)).2).log (NewCurl_returns init)) := NewCurl_empty init _ rfl
  have hlt : (((curl_easy_init init (((CurlFreelist.new kMaxFreelistSize).log lock).log
      unlock)).2).log (NewCurl_returns init)).freelist.free_curls_.length <
      size_t_of_int (((curl_easy_init init (((CurlFreelist.new kMaxFreelistSize).log lock).log
        unlock)).2).log (NewCurl_returns init)).freelist.max_size_ := by
    simp [curl_easy_init, World.log, World.set_options, hinit, CurlFreelist.new,
      kMaxFreelistSize, size_t_of_int]
  simp only [HTTPConnection.new, hN]
  rw [Release_retain init _ hinit hlt]
  refine ⟨?_, ?_, ?_, ?_, ?_⟩
  · simp [curl_easy_init, curl_easy_reset, World.log, World.set_options, World.set_free,
      hinit, CurlFreelist.new]
  · simp [curl_easy_init, curl_easy_reset, World.log, World.set_options, World.set_free,
      hinit, CurlFreelist.new]
  · simp [curl_easy_init, curl_easy_reset, World.log, World.set_options, World.set_free,
      hinit, CurlFreelist.new, init_calls]
  · simp [curl_easy_init, curl_easy_reset, World.log, World.set_options, World.set_free,
      hinit, CurlFreelist.new, disposed_cons, disposed_nil]
  · simp [curl_easy_init, curl_easy_reset, World.log, World.set_options, World.set_free,
      hinit, CurlFreelist.new, Event.isRequestUse]

theorem amortized_step (init : CURL) (hinit : init ≠ NULL) (request : HTTPRequest)
    (x : Exchange) (w : World) (r : Option HTTPResponse) (ha : Amortized init w)
    (hret : (BlockingRequest request x w).1 = Outcome.returned r) :
    (NewCurl x.init w).1 = init ∧ Amortized init (BlockingRequest request x w).2 := by
  obtain ⟨hmax, hfree, hic, hdis, huse⟩ := ha
  have hN : NewCurl x.init w = (init,
      { freelist := { max_size_ := w.freelist.max_size_, free_curls_ := [] },
        options := w.options,
        trace := w.trace ++ [lock, pop init, unlock, NewCurl_returns init] }) :=
    NewCurl_nonempty x.init w [] init (by simp [hfree])
  refine ⟨by rw [hN], ?_⟩
  rcases BlockingRequest_shape request x w with ⟨hnull, _⟩ | ⟨_, w2, hc, hb⟩
  · rw [hN] at hnull
    exact absurd hnull hinit
  · rw [hN] at hc hb
    simp only [] at hc hb
    obtain ⟨hfl, _, _, evs, hevs, hevs2⟩ := hc
    have hlt : w2.freelist.free_curls_.length < size_t_of_int w2.freelist.max_size_ := by
      rw [hfl]
      simp [hmax, kMaxFreelistSize, size_t_of_int]
    have key : Amortized init (Release init w2) := by
      rw [Release_retain init w2 hinit hlt]
      have hu := init_calls_requestUse evs (fun e he => (hevs2 e he).1)
      refine ⟨?_, ?_, ?_, ?_, ?_⟩
      · simp [curl_easy_reset, World.log, World.set_options, World.set_free, hfl, hmax]
      · simp [curl_easy_reset, World.log, World.set_options, World.set_free, hfl]
      · simp only [curl_easy_reset, World.log, World.set_options, World.set_free, hevs,
          init_calls_append, hic, hu.1]
        simp [init_calls]
      · simp only [curl_easy_reset, World.log, World.set_options, World.set_free, hevs,
          disposed_append, hdis, hu.2]
        simp [disposed_cons, disposed_nil]
      · intro e he hre
        simp only [curl_easy_reset, World.log, World.set_options, World.set_free, hevs,
          List.mem_append] at he
        rcases he with ((((((he | he) | he) | he) | he) | he) | he) | he
        · exact huse e he hre
        · simp at he
          rcases he with rfl | rfl | rfl | rfl <;> simp [Event.isRequestUse] at hre
        · exact (hevs2 e he).2.2
        · simp at he; subst he; simp [Event.isRequestUse] at hre
        · simp at he; subst he; simp [Event.isRequestUse] at hre
        · simp at he; subst he; simp [Event.isRequestUse] at hre
        · simp at he; subst he; simp [Event.isRequestUse] at hre
        · simp at he; subst he; simp [Event.isRequestUse] at hre
    rcases hb with ⟨hf, _⟩ | ⟨_, hb⟩ | ⟨_, r2, hb, _⟩
    · rw [hf] at hret
      exact Outcome.noConfusion hret
    · rw [hb]; exact key
    · rw [hb]; exact key

theorem amortized_history (init : CURL) (hinit : init ≠ NULL)
    (calls : List (HTTPRequest × Exchange)) :
    ∀ w : World, Amortized init w →
      (∀ w2 ∈ request_history calls w, Amortized init w2) ∧
      ((∀ c ∈ calls, c.1.type_ = GET ∨ c.1.type_ = POST ∨ c.1.type_ = PUT ∨
          c.1.type_ = DELETE) →
        (request_history calls w).length = calls.length) := by
  induction calls with
  | nil => intro w _; simp [request_history]
  | cons c cs ih =>
    intro w ha
    obtain ⟨request, x⟩ := c
    cases hout : (BlockingRequest request x w).1 with
    | fatal =>
      refine ⟨by simp [request_history, hout], ?_⟩
      intro hvalid
      obtain ⟨r, hr⟩ := BlockingRequest_returns request x w (hvalid (request, x) (by simp))
      rw [hout] at hr
      exact Outcome.noConfusion hr
    | returned r =>
      have hs := amortized_step init hinit request x w r ha hout
      have ih2 := ih (BlockingRequest request x w).2 hs.2
      constructor
      · intro w2 hw2
        simp only [request_history, hout, List.mem_cons] at hw2
        rcases hw2 with rfl | hw2
        · exact hs.2
        · exact ih2.1 w2 hw2
      · intro hvalid
        simp only [request_history, hout, List.length_cons]
        rw [ih2.2 (fun c hc => hvalid c (by simp [hc]))]

/-- C19 (sequential amortization): for a connection whose first handle-create succeeds with
the handle `init`, right after construction and after each call of any finite sequence of
sequential `BlockingRequest` calls that return (successes and transport failures alike): the
pool holds exactly the one idle handle `init`; `curl_easy_init` has been called exactly once in
the whole trace (by the constructor) and `curl_easy_cleanup` never; every configure, execute
and status-read call was made on `init`; and the next `NewCurl` returns `init` again.  When all
methods are valid every call of the sequence returns. -/
theorem C19_sequential_amortization (init : CURL) (hinit : init ≠ NULL)
    (calls : List (HTTPRequest × Exchange)) :
    (HTTPConnection.new init).freelist.free_curls_ = [init] ∧
    (∀ w ∈ HTTPConnection.new init :: request_history calls (HTTPConnection.new init),
      w.freelist.free_curls_ = [init] ∧
      init_calls w.trace = [init] ∧
      disposed w.trace = [] ∧
      (∀ e ∈ w.trace, e.isRequestUse = true → e.handle = some init) ∧
      (∀ x : Exchange, (NewCurl x.init w).1 = init)) ∧
    ((∀ c ∈ calls, c.1.type_ = GET ∨ c.1.type_ = POST ∨ c.1.type_ = PUT ∨
        c.1.type_ = DELETE) →
      (request_history calls (HTTPConnection.new init)).length = calls.length) := by
  have h0 := amortized_new init hinit
  have hh := amortized_history init hinit calls (HTTPConnection.new init) h0
  refine ⟨h0.2.1, ?_, hh.2⟩
  intro w hw
  have ha : Amortized init w := by
    simp only [List.mem_cons] at hw
    rcases hw with rfl | hw
    · exact h0
    · exact hh.1 w hw
  refine ⟨ha.2.1, ha.2.2.1, ha.2.2.2.1, ha.2.2.2.2, ?_⟩
  intro x
  rw [NewCurl_nonempty x.init w [] init (by simp [ha.2.1])]

/-- Witness of C19: on a connection with handle 5, a GET that succeeds, a GET whose transfer
fails and a POST all run on handle 5, which is idle again afterwards. -/
theorem C19_sequential_amortization_witness :
    (5 : CURL) ≠ NULL ∧
    (request_history
      [(get_items, exchange_200), (get_items, exchange_refused), (post_items, exchange_201)]
      (HTTPConnection.new 5)).length = 3 ∧
    ∀ w ∈ HTTPConnection.new 5 :: request_history
        [(get_items, exchange_200), (get_items, exchange_refused), (post_items, exchange_201)]
        (HTTPConnection.new 5),
      w.freelist.free_curls_ = [5] ∧
      init_calls w.trace = [5] ∧
      disposed w.trace = [] ∧
      (∀ e ∈ w.trace, e.isRequestUse = true → e.handle = some 5) ∧
      (∀ x : Exchange, (NewCurl x.init w).1 = 5) :=
  ⟨by decide, by decide,
   (C19_sequential_amortization 5 (by decide)
      [(get_items, exchange_200), (get_items, exchange_refused),
        (post_items, exchange_201)]).2.1⟩

/-! ## Concurrent callers -/

theorem local_ok_transfer (s s2 : Shared) (u : Nat) (hpc : s2.pc u = s.pc u)
    (hown : ∀ c, (c, u) ∈ s.owner → (c, u) ∈ s2.owner)
    (hfree : inCS (s.pc u) = true →
      s2.free_curls_ = s.free_curls_ ∧ s2.max_size_ = s.max_size_)
    (h : local_ok s u) : local_ok s2 u := by
  unfold local_ok at h ⊢
  rw [hpc]
  cases hp : s.pc u <;> simp only [hp] at h hfree ⊢
  · rw [(hfree rfl).1]; exact h
  · exact hown _ h
  · exact hown _ h
  · exact hown _ h
  · exact hown _ h
  · rw [(hfree rfl).1, (hfree rfl).2]; exact ⟨hown _ h.1, h.2⟩
  · exact h.imp id (hown _)
  · exact h.imp id (hown _)

theorem exclusive_start (max_size : Int) : Exclusive (Shared.start max_size) where
  mutex := by intro t h; simp [Shared.start, inCS] at h
  nodup := by simp [Shared.start]
  known := by simp [Shared.start]
  nonnull := by simp [Shared.start]
  bound := by simp [Shared.start]
  callers := by intro t; simp [local_ok, Shared.start]

theorem perm_cons_erase_lawful {α : Type} [BEq α] [LawfulBEq α] {a : α} :
    ∀ {l : List α}, a ∈ l → l.Perm (a :: l.erase a) := by
  intro l
  induction l with
  | nil => intro h; simp at h
  | cons b l ih =>
    intro h
    rw [List.erase_cons]
    by_cases hb : (b == a) = true
    · have : b = a := eq_of_beq hb
      subst this
      simp
    · simp only [hb, if_false]
      have hm : a ∈ l := by
        rcases List.mem_cons.mp h with h1 | h1
        · subst h1; simp at hb
        · exact h1
      exact ((ih hm).cons b).trans (List.Perm.swap a b _)

theorem exclusive_pc_only (s : Shared) (t : Nat) (p : Pc) (l : Option Nat) (g : Exclusive s)
    (hm : ∀ u, inCS (if u = t then p else s.pc u) = true → l = some u)
    (hloc : local_ok ({ s with lock_ := l }.set_pc t p) t) :
    Exclusive ({ s with lock_ := l }.set_pc t p) where
  mutex := by
    intro u hu
    exact hm u (by simpa [Shared.set_pc] using hu)
  nodup := g.nodup
  known := g.known
  nonnull := g.nonnull
  bound := g.bound
  callers := by
    intro u
    by_cases hu : u = t
    · subst hu; exact hloc
    · exact local_ok_transfer s _ u (by simp [Shared.set_pc, hu]) (fun _ h => h)
        (fun _ => ⟨rfl, rfl⟩) (g.callers u)

theorem mutex_unique (s : Shared) (g : Exclusive s) (t u : Nat)
    (ht : inCS (s.pc t) = true) (hu : inCS (s.pc u) = true) : u = t := by
  have h1 := g.mutex t ht
  have h2 := g.mutex u hu
  rw [h1] at h2
  exact (Option.some.inj h2).symm

theorem step_caller_exclusive (t : Nat) (init : CURL) (s s2 : Shared) (g : Exclusive s)
    (hstep : step_caller t init s = some s2) : Exclusive s2 := by
  have hloc := g.callers t
  unfold step_caller at hstep
  unfold local_ok at hloc
  cases hpc : s.pc t with
  | idle => simp [hpc] at hstep
  | NewCurl_lock =>
    simp only [hpc, Mutex_Lock] at hstep
    by_cases hl : s.lock_ = none
    · simp only [hl, if_true, Option.some.injEq] at hstep
      subst hstep
      apply exclusive_pc_only s t _ _ g
      · intro u hu
        by_cases hut : u = t
        · rw [hut]
        · simp only [hut, if_false] at hu
          have := g.mutex u hu
          rw [hl] at this
          exact Option.noConfusion this
      · simp [local_ok, Shared.set_pc]
    · simp [hl] at hstep
  | NewCurl_test =>
    simp only [hpc] at hstep
    have hlock := g.mutex t (by rw [hpc]; rfl)
    have hm : ∀ (p : Pc) (u : Nat), inCS (if u = t then p else s.pc u) = true →
        s.lock_ = some u := by
      intro p u hu
      by_cases hut : u = t
      · rw [hut]; exact hlock
      · simp only [hut, if_false] at hu
        exact g.mutex u hu
    by_cases hf : s.free_curls_ = []
    · simp only [hf, ne_eq, not_true_eq_false, if_false, Option.some.injEq] at hstep
      subst hstep
      exact exclusive_pc_only s t _ s.lock_ g (hm _) (by simp [local_ok, Shared.set_pc])
    · simp only [hf, ne_eq, not_false_eq_true, if_true, Option.some.injEq] at hstep
      subst hstep
      exact exclusive_pc_only s t _ s.lock_ g (hm _) (by simpa [local_ok, Shared.set_pc] using hf)
  | NewCurl_pop =>
    simp only [hpc, Option.some.injEq] at hstep hloc
    subst hstep
    rcases List.eq_nil_or_concat s.free_curls_ with hf | ⟨l, c, hf⟩
    · exact absurd hf hloc
    · rw [List.concat_eq_append] at hf
      have hlock := g.mutex t (by rw [hpc]; rfl)
      have hnd := g.nodup
      have hkn := g.known
      have hbd := g.bound
      rw [hf] at hnd hkn hbd
      have hlast : s.free_curls_.getLastD NULL = c := by simp [hf]
      have hdrop : s.free_curls_.dropLast = l := by simp [hf]
      rw [hlast, hdrop]
      constructor
      · intro u hu
        by_cases hut : u = t
        · rw [hut]; exact hlock
        · exact g.mutex u (by simpa [Shared.set_pc, hut] using hu)
      · have hp : (c :: (s.owner.map Prod.fst ++ l)).Perm (s.owner.map Prod.fst ++ (l ++ [c])) := by
          rw [List.perm_iff_count]
          intro a
          simp only [List.count_append, List.count_cons, List.count_nil]
          omega
        simpa [Shared.set_pc] using hp.nodup_iff.mpr hnd
      · intro h hh
        simp only [Shared.set_pc, List.map_cons, List.cons_append, List.mem_cons,
          List.mem_append] at hh
        apply hkn
        simp only [List.mem_append, List.mem_singleton]
        rcases hh with rfl | hh | hh
        · exact Or.inr (Or.inr rfl)
        · exact Or.inl hh
        · exact Or.inr (Or.inl hh)
      · exact g.nonnull
      · simp only [Shared.set_pc]
        simp only [List.length_append, List.length_singleton] at hbd
        omega
      · intro u
        by_cases hut : u = t
        · subst hut
          simp [local_ok, Shared.set_pc]
        · exact local_ok_transfer s _ u (by simp [Shared.set_pc, hut])
            (fun _ h => List.mem_cons_of_mem _ h)
            (fun hu => absurd (mutex_unique s g t u (by rw [hpc]; rfl) hu) hut)
            (g.callers u)
  | NewCurl_return c =>
    simp only [hpc, Mutex_Unlock, Option.some.injEq] at hstep
    subst hstep
    apply exclusive_pc_only s t _ _ g
    · intro u hu
      by_cases hut : u = t
      · simp [hut, inCS] at hu
      · simp only [hut, if_false] at hu
        exact absurd (mutex_unique s g t u (by rw [hpc]; rfl) hu) hut
    · simp [local_ok, Shared.set_pc]
  | NewCurl_unlock =>
    simp only [hpc, Mutex_Unlock, Option.some.injEq] at hstep
    subst hstep
    apply exclusive_pc_only s t _ _ g
    · intro u hu
      by_cases hut : u = t
      · simp [hut, inCS] at hu
      · simp only [hut, if_false] at hu
        exact absurd (mutex_unique s g t u (by rw [hpc]; rfl) hu) hut
    · simp [local_ok, Shared.set_pc]
  | NewCurl_init =>
    simp only [hpc] at hstep
    by_cases hi : init = NULL
    · simp only [hi, if_true, Option.some.injEq] at hstep
      subst hstep
      apply exclusive_pc_only s t _ s.lock_ g
      · intro u hu
        by_cases hut : u = t
        · simp [hut, inCS] at hu
        · simp only [hut, if_false] at hu
          exact g.mutex u hu
      · simp [local_ok, Shared.set_pc]
    · by_cases hc : init ∈ s.created
      · simp [hi, hc] at hstep
      · simp only [hi, hc, if_false, Option.some.injEq] at hstep
        subst hstep
        have hfresh : init ∉ s.owner.map Prod.fst ++ s.free_curls_ :=
          fun hm => hc (g.known init hm)
        constructor
        · intro u hu
          by_cases hut : u = t
          · simp [Shared.set_pc, hut, inCS] at hu
          · exact g.mutex u (by simpa [Shared.set_pc, hut] using hu)
        · have : (init :: (s.owner.map Prod.fst ++ s.free_curls_)).Nodup :=
            List.nodup_cons.mpr ⟨hfresh, g.nodup⟩
          simpa [Shared.set_pc] using this
        · intro h hh
          simp only [Shared.set_pc, List.map_cons, List.cons_append, List.mem_cons] at hh ⊢
          rcases hh with rfl | hh
          · exact Or.inl rfl
          · exact Or.inr (g.known h hh)
        · simp only [Shared.set_pc, List.mem_cons, not_or]
          exact ⟨fun e => hi e.symm, g.nonnull⟩
        · exact g.bound
        · intro u
          by_cases hut : u = t
          · subst hut
            simp [local_ok, Shared.set_pc]
          · exact local_ok_transfer s _ u (by simp [Shared.set_pc, hut])
              (fun _ h => List.mem_cons_of_mem _ h) (fun _ => ⟨rfl, rfl⟩) (g.callers u)
  | Release_reset c =>
    simp only [hpc, Option.some.injEq] at hstep hloc
    subst hstep
    apply exclusive_pc_only s t _ s.lock_ g
    · intro u hu
      by_cases hut : u = t
      · simp [hut, inCS] at hu
      · simp only [hut, if_false] at hu
        exact g.mutex u hu
    · simpa [local_ok, Shared.set_pc] using hloc
  | Release_lock c =>
    simp only [hpc, Mutex_Lock] at hstep hloc
    by_cases hl : s.lock_ = none
    · simp only [hl, if_true, Option.some.injEq] at hstep
      subst hstep
      apply exclusive_pc_only s t _ _ g
      · intro u hu
        by_cases hut : u = t
        · rw [hut]
        · simp only [hut, if_false] at hu
          have := g.mutex u hu
          rw [hl] at this
          exact Option.noConfusion this
      · simpa [local_ok, Shared.set_pc] using hloc
    · simp [hl] at hstep
  | Release_test c =>
    simp only [hpc] at hstep hloc
    have hlock := g.mutex t (by rw [hpc]; rfl)
    have hm : ∀ (p : Pc) (u : Nat), inCS (if u = t then p else s.pc u) = true →
        s.lock_ = some u := by
      intro p u hu
      by_cases hut : u = t
      · rw [hut]; exact hlock
      · simp only [hut, if_false] at hu
        exact g.mutex u hu
    by_cases hlt : s.free_curls_.length < size_t_of_int s.max_size_
    · simp only [hlt, if_true, Option.some.injEq] at hstep
      subst hstep
      exact exclusive_pc_only s t _ s.lock_ g (hm _)
        (by simpa [local_ok, Shared.set_pc] using ⟨hloc, hlt⟩)
    · simp only [hlt, if_false, Option.some.injEq] at hstep
      subst hstep
      exact exclusive_pc_only s t _ s.lock_ g (hm _)
        (by simpa [local_ok, Shared.set_pc] using Or.inr hloc)
  | Release_push c =>
    simp only [hpc, Option.some.injEq] at hstep hloc
    subst hstep
    have hlock := g.mutex t (by rw [hpc]; rfl)
    have hperm : (s.owner.map Prod.fst).Perm (c :: (s.owner.erase (c, t)).map Prod.fst) := by
      simpa using (perm_cons_erase_lawful hloc.1).map Prod.fst
    constructor
    · intro u hu
      by_cases hut : u = t
      · rw [hut]; exact hlock
      · exact g.mutex u (by simpa [Shared.set_pc, hut] using hu)
    · have hp : ((s.owner.erase (c, t)).map Prod.fst ++ (s.free_curls_ ++ [c])).Perm
          (s.owner.map Prod.fst ++ s.free_curls_) := by
        rw [List.perm_iff_count]
        intro a
        have h1 := hperm.count_eq a
        simp only [List.count_append, List.count_cons, List.count_nil] at h1 ⊢
        omega
      simpa [Shared.set_pc] using hp.nodup_iff.mpr g.nodup
    · intro h hh
      simp only [Shared.set_pc, List.mem_append, List.mem_singleton] at hh
      apply g.known
      simp only [List.mem_append]
      rcases hh with hh | hh | hh
      · exact Or.inl ((List.erase_sublist _ _).map Prod.fst |>.subset hh)
      · exact Or.inr hh
      · rw [hh]
        exact Or.inl (List.mem_map_of_mem Prod.fst hloc.1)
    · exact g.nonnull
    · simp only [Shared.set_pc, List.length_append, List.length_singleton]
      have := hloc.2
      omega
    · intro u
      by_cases hut : u = t
      · subst hut
        simp [local_ok, Shared.set_pc]
      · exact local_ok_transfer s _ u (by simp [Shared.set_pc, hut])
          (fun c2 h => (List.mem_erase_of_ne (by
            intro e
            exact hut (Prod.mk.inj e).2)).mpr h)
          (fun hu => absurd (mutex_unique s g t u (by rw [hpc]; rfl) hu) hut)
          (g.callers u)
  | Release_unlock c =>
    simp only [hpc, Mutex_Unlock, Option.some.injEq] at hstep hloc
    subst hstep
    apply exclusive_pc_only s t _ _ g
    · intro u hu
      by_cases hut : u = t
      · simp [hut, inCS] at hu
      · simp only [hut, if_false] at hu
        exact absurd (mutex_unique s g t u (by rw [hpc]; rfl) hu) hut
    · simpa [local_ok, Shared.set_pc] using hloc
  | Release_cleanup c =>
    simp only [hpc] at hstep hloc
    by_cases hc : c = NULL
    · simp only [hc, ne_eq, not_true_eq_false, if_false, Option.some.injEq] at hstep
      subst hstep
      apply exclusive_pc_only s t _ s.lock_ g
      · intro u hu
        by_cases hut : u = t
        · simp [hut, inCS] at hu
        · simp only [hut, if_false] at hu
          exact g.mutex u hu
      · simp [local_ok, Shared.set_pc]
    · simp only [hc, ne_eq, not_false_eq_true, if_true, Option.some.injEq] at hstep
      subst hstep
      have hsub : ((s.owner.erase (c, t)).map Prod.fst ++ s.free_curls_).Sublist
          (s.owner.map Prod.fst ++ s.free_curls_) :=
        ((List.erase_sublist _ _).map Prod.fst).append_right _
      constructor
      · intro u hu
        by_cases hut : u = t
        · simp [Shared.set_pc, hut, inCS] at hu
        · exact g.mutex u (by simpa [Shared.set_pc, hut] using hu)
      · exact g.nodup.sublist hsub
      · intro h hh
        exact g.known h (hsub.subset hh)
      · exact g.nonnull
      · exact g.bound
      · intro u
        by_cases hut : u = t
        · subst hut
          simp [local_ok, Shared.set_pc]
        · exact local_ok_transfer s _ u (by simp [Shared.set_pc, hut])
            (fun c2 h => (List.mem_erase_of_ne (by
              intro e
              exact hut (Prod.mk.inj e).2)).mpr h)
            (fun _ => ⟨rfl, rfl⟩) (g.callers u)

theorem act_exclusive (a : Action) (s s2 : Shared) (g : Exclusive s)
    (hact : s.act a = some s2) : Exclusive s2 := by
  cases a with
  | call_NewCurl t =>
    simp only [Shared.act] at hact
    by_cases hp : s.pc t = .idle
    · simp only [hp, if_true, Option.some.injEq] at hact
      subst hact
      apply exclusive_pc_only s t _ s.lock_ g
      · intro u hu
        by_cases hut : u = t
        · simp [hut, inCS] at hu
        · simp only [hut, if_false] at hu
          exact g.mutex u hu
      · simp [local_ok, Shared.set_pc]
    · simp [hp] at hact
  | call_Release t curl =>
    simp only [Shared.act] at hact
    by_cases hp : s.pc t = .idle
    · by_cases hc : curl = NULL
      · simp only [hp, hc, if_true, Option.some.injEq] at hact
        subst hact
        exact g
      · by_cases ho : (curl, t) ∈ s.owner
        · simp only [hp, hc, ho, if_true, if_false, Option.some.injEq] at hact
          subst hact
          apply exclusive_pc_only s t _ s.lock_ g
          · intro u hu
            by_cases hut : u = t
            · simp [hut, inCS] at hu
            · simp only [hut, if_false] at hu
              exact g.mutex u hu
          · simpa [local_ok, Shared.set_pc] using ho
        · simp [hp, hc, ho] at hact
    · simp [hp] at hact
  | step t init => exact step_caller_exclusive t init s s2 g hact

theorem run_exclusive (acts : List Action) :
    ∀ s : Shared, Exclusive s → Exclusive (s.run acts) := by
  induction acts with
  | nil => intro s g; exact g
  | cons a as ih =>
    intro s g
    simp only [Shared.run]
    cases hact : s.act a with
    | none => exact ih s g
    | some s2 => exact ih s2 (act_exclusive a s s2 g hact)

/-- C16 (exclusive ownership under concurrency): for every capacity `max_size ≥ 0` and every
interleaving of the statements of `NewCurl` and `Release` calls made by any number of callers
on one pool (a caller waits while another holds the mutex, passes to `Release` a handle it
holds or null, and the engine creates handles it never returned before), in the state
reached: no handle is with two callers, no handle that a caller has is in the idle vector,
the idle vector holds no handle twice and between `0` and `max_size` handles, and at most one
caller is between lock and unlock, which is then the caller holding the mutex. -/
theorem C16_exclusive_ownership (max_size : Int) (hmax : 0 ≤ max_size) (acts : List Action) :
    (∀ h t1 t2, (h, t1) ∈ ((Shared.start max_size).run acts).owner →
      (h, t2) ∈ ((Shared.start max_size).run acts).owner → t1 = t2) ∧
    (((Shared.start max_size).run acts).owner.map Prod.fst).Nodup ∧
    (∀ h t, (h, t) ∈ ((Shared.start max_size).run acts).owner →
      h ∉ ((Shared.start max_size).run acts).free_curls_) ∧
    ((Shared.start max_size).run acts).free_curls_.Nodup ∧
    0 ≤ (((Shared.start max_size).run acts).free_curls_.length : Int) ∧
    (((Shared.start max_size).run acts).free_curls_.length : Int) ≤ max_size ∧
    (∀ t1 t2, inCS (((Shared.start max_size).run acts).pc t1) = true →
      inCS (((Shared.start max_size).run acts).pc t2) = true → t1 = t2) ∧
    (∀ t, inCS (((Shared.start max_size).run acts).pc t) = true →
      ((Shared.start max_size).run acts).lock_ = some t) := by
  have g := run_exclusive acts (Shared.start max_size) (exclusive_start max_size)
  have hmaxeq : ∀ (acts : List Action) (s : Shared), (s.run acts).max_size_ = s.max_size_ := by
    intro acts
    induction acts with
    | nil => intro s; rfl
    | cons a as ih =>
      intro s
      simp only [Shared.run]
      cases hact : s.act a with
      | none => exact ih s
      | some s2 =>
        rw [ih s2]
        cases a with
        | call_NewCurl t =>
          simp only [Shared.act] at hact
          split at hact
          · simp only [Option.some.injEq] at hact; subst hact; rfl
          · simp at hact
        | call_Release t curl =>
          simp only [Shared.act] at hact
          split at hact
          · split at hact
            · simp only [Option.some.injEq] at hact; subst hact; rfl
            · split at hact
              · simp only [Option.some.injEq] at hact; subst hact; rfl
              · simp at hact
          · simp at hact
        | step t init =>
          simp only [Shared.act, step_caller, Mutex_Lock, Mutex_Unlock] at hact
          split at hact <;> (try split at hact) <;> (try split at hact) <;>
            first
              | (simp only [Option.some.injEq] at hact; subst hact; rfl)
              | simp at hact
  have hnd := g.nodup
  rw [List.nodup_append] at hnd
  obtain ⟨hnd1, hnd2, hdisj⟩ := hnd
  refine ⟨?_, hnd1, ?_, hnd2, Int.natCast_nonneg _, ?_, ?_, g.mutex⟩
  · intro h t1 t2 h1 h2
    have := List.inj_on_of_nodup_map hnd1 h1 h2 rfl
    exact (Prod.mk.inj this).2
  · intro h t hm hf
    exact hdisj (List.mem_map_of_mem Prod.fst hm) hf
  · have hb := g.bound
    rw [hmaxeq acts (Shared.start max_size)] at hb
    have := size_t_of_int_le max_size hmax
    have hm0 : (Shared.start max_size).max_size_ = max_size := rfl
    rw [hm0] at hb
    omega
  · intro t1 t2 h1 h2
    exact (mutex_unique _ g t2 t1 h2 h1)

/-- Witness of C16: two callers interleaved on a pool of capacity 1. -/
theorem C16_exclusive_ownership_witness :
    (0 : Int) ≤ 1 ∧
    ((Shared.start 1).run two_callers).free_curls_ = [5] ∧
    ((Shared.start 1).run two_callers).owner = [] ∧
    ((Shared.start 1).run (two_callers.take 11)).owner = [(6, 2), (5, 1)] ∧
    (((Shared.start 1).run two_callers).free_curls_.length : Int) ≤ 1 :=
  ⟨by decide, by decide, by decide, by decide,
   (C16_exclusive_ownership 1 (by decide) two_callers).2.2.2.2.2.1⟩

/-- A caller that runs `NewCurl` alone, statement by statement, leaves the idle vector that
the method `NewCurl` leaves, is outside the pool again with the mutex free, and has the handle
that `NewCurl` returns. -/
theorem solo_NewCurl (s : Shared) (t : Nat) (init : CURL) (w : World)
    (hpc : s.pc t = .idle) (hl : s.lock_ = none)
    (hw : w.freelist.free_curls_ = s.free_curls_)
    (hfresh : init = NULL ∨ init ∉ s.created) :
    (s.run [.call_NewCurl t, .step t init, .step t init, .step t init,
      .step t init]).free_curls_ = (NewCurl init w).2.freelist.free_curls_ ∧
    (s.run [.call_NewCurl t, .step t init, .step t init, .step t init,
      .step t init]).pc t = .idle ∧
    (s.run [.call_NewCurl t, .step t init, .step t init, .step t init,
      .step t init]).lock_ = none ∧
    ((NewCurl init w).1 ≠ NULL →
      (s.run [.call_NewCurl t, .step t init, .step t init, .step t init,
        .step t init]).owner = ((NewCurl init w).1, t) :: s.owner) := by
  rcases NewCurl_cases init w with ⟨hf, he⟩ | ⟨l, h, hf, he⟩
  · have hf2 : s.free_curls_ = [] := by rw [← hw]; exact hf
    rw [he]
    by_cases hi : init = NULL
    · simp [Shared.run, Shared.act, step_caller, Shared.set_pc, Mutex_Lock, Mutex_Unlock, hpc,
        hl, hf2, hi, hf, curl_easy_init, World.log]
    · have hc : init ∉ s.created := hfresh.resolve_left hi
      simp [Shared.run, Shared.act, step_caller, Shared.set_pc, Mutex_Lock, Mutex_Unlock, hpc,
        hl, hf2, hi, hc, hf, curl_easy_init, World.log, World.set_options]
  · have hf2 : s.free_curls_ = l ++ [h] := by rw [← hw]; exact hf
    rw [he]
    simp [Shared.run, Shared.act, step_caller, Shared.set_pc, Mutex_Lock, Mutex_Unlock, hpc,
      hl, hf2]

/-- A caller that runs `Release(curl)` alone, statement by statement, on a non-null handle it
holds leaves the idle vector that the method `Release` leaves, is outside the pool again with
the mutex free, and no longer has the handle. -/
theorem solo_Release (s : Shared) (t : Nat) (curl : CURL) (w : World)
    (hpc : s.pc t = .idle) (hl : s.lock_ = none)
    (hw : w.freelist.free_curls_ = s.free_curls_) (hmax : w.freelist.max_size_ = s.max_size_)
    (hown : (curl, t) ∈ s.owner) (hc : curl ≠ NULL) :
    (s.run [.call_Release t curl, .step t 0, .step t 0, .step t 0, .step t 0, .step t 0,
      .step t 0]).free_curls_ = (Release curl w).freelist.free_curls_ ∧
    (s.run [.call_Release t curl, .step t 0, .step t 0, .step t 0, .step t 0, .step t 0,
      .step t 0]).pc t = .idle ∧
    (s.run [.call_Release t curl, .step t 0, .step t 0, .step t 0, .step t 0, .step t 0,
      .step t 0]).lock_ = none ∧
    (s.run [.call_Release t curl, .step t 0, .step t 0, .step t 0, .step t 0, .step t 0,
      .step t 0]).owner = s.owner.erase (curl, t) := by
  by_cases hlt : w.freelist.free_curls_.length < size_t_of_int w.freelist.max_size_
  · rw [Release_retain curl w hc hlt]
    have hlt2 : s.free_curls_.length < size_t_of_int s.max_size_ := by
      rw [← hw, ← hmax]; exact hlt
    simp [Shared.run, Shared.act, step_caller, Shared.set_pc, Mutex_Lock, Mutex_Unlock, hpc,
      hl, hown, hc, hlt2, hw, World.log, World.set_free, curl_easy_reset, World.set_options]
  · rw [Release_dispose curl w hc hlt]
    have hlt2 : ¬ s.free_curls_.length < size_t_of_int s.max_size_ := by
      rw [← hw, ← hmax]; exact hlt
    simp [Shared.run, Shared.act, step_caller, Shared.set_pc, Mutex_Lock, Mutex_Unlock, hpc,
      hl, hown, hc, hlt2, hw, World.log, curl_easy_cleanup, curl_easy_reset,
      World.set_options]

end network
